import Mathlib

/-!
# SMAUG numeric kernels and operators: a shallow embedding

The C and C++ sources are embedded as Lean functions.

* `int` variables are `Int`; overflow is not modelled.
* `size_t` variables are `Nat`.
* A `float*` buffer is a function from element offsets to values.  Offsets are
  `Int` where the source computes them from `int` indices (they can be
  negative: an offset below 0 is memory before the buffer), and `Nat` where the
  source indexes with `size_t`.  A buffer or local array that a loop updates is
  wrapped in a structure (`PoolMem`, `Lanes`, `Buf`).
* `float` values are elements of an ordered type `α` (an ordered field where
  the source does arithmetic); the real-number theorems instantiate `α := ℝ`
  and pass `Real.exp` for `exp`.
* A `for` loop with unit step is `forRange`.  A `for` loop with another step is
  run by `forLoop`, which returns `none` when the loop does not terminate.
* A call that does not return, because an `assert` fails or `exit` is called, is
  an `Except` error that carries the message and the state left behind
  (`Abort`); an undefined access (a null pointer, a missing dimension) is `none`.
* The operators are functions on an `OpState`: the operator's members, the
  workspace, and a counter of allocated tensors that serves as tensor identity.
* The profiling log is the list of its entries from the head of the linked
  list; the timer readings are arguments of the calls.
-/

namespace Smaug

/-! ## Memory and loops -/

/-- Writing `v` at offset `i` of a buffer. -/
def store {ι α : Type} [DecidableEq ι] (m : ι → α) (i : ι) (v : α) : ι → α :=
  fun j => if j = i then v else m j

/-- The C loop `for (int v = start; v < stop; v += step) body(v)`, threading the
state `st`.  The loop is run for at most `fuel` iterations; `none` means that the
guard still held after `fuel` iterations, or that the body failed. -/
def forLoop {σ : Type} :
    Nat → Int → Int → Int → (Int → σ → Option σ) → σ → Option σ
  | 0, v, stop, _, _, st => if v < stop then none else some st
  | fuel + 1, v, stop, step, body, st =>
    if v < stop then
      match body v st with
      | none => none
      | some st1 => forLoop fuel (v + step) stop step body st1
    else some st

/-- The C loop `for (int v = start; v < stop; v++) body(v)`. -/
def forRange {σ : Type} (start stop : Int) (body : Int → σ → σ) (st : σ) : σ :=
  (List.range (stop - start).toNat).foldl
    (fun s (k : Nat) => body (start + (k : Int)) s) st

/-! ## Pooling: `core/smiv/pooling_nhwc.c` -/

/-- Modelled from the spec: `VECTOR_SIZE` (core/smiv/params.h, not among the
sources) is the fixed width of a channel group; the kernel's header comment
("The last dimension MUST be 8") and its 8-element initialiser fix it at 8. -/
def VECTOR_SIZE : Nat := 8

/-- Modelled from the spec: `FRAC_CEIL(A, B)` (core/nnet_fwd_defs.h, not among
the sources) is the channel-group count `ceil(total-channels / width)`. -/
def FRAC_CEIL (a b : Int) : Int := (a + b - 1) / b

/-- The fields of `dims_t` that the pooling kernel reads. -/
structure dims_t where
  rows : Int
  cols : Int
  height : Int
deriving DecidableEq, Repr

/-- The fields of `layer_t` that the pooling kernel reads. -/
structure layer_t where
  inputs : dims_t
  weights : dims_t
  outputs : dims_t
  field_stride : Int
deriving DecidableEq, Repr

/-- Modelled from the spec: `ARRAY_4D(float, _a, buf, d1, d2, d3)` (not among
the sources) views `buf` as a 4-dimensional array "addressed as (channel-group,
row, col, within-group-channel-index)"; `_a[i0][i1][i2][i3]` is the element at
this flat offset. -/
def ARRAY_4D (d1 d2 d3 : Int) (i0 i1 i2 i3 : Int) : Int :=
  ((i0 * d1 + i1) * d2 + i2) * d3 + i3

/-- A 4-dimensional index `[chan_grp][row][col][px]`. -/
abbrev Idx4 := Int × Int × Int × Int

/-- The memory the pooling kernel touches: the results buffer, and the logs of
the input indices read and of the output indices written, oldest first. -/
structure PoolMem (α : Type) where
  results : Int → α
  reads : List Idx4
  writes : List Idx4

/-- A local array `float v[VECTOR_SIZE]`: the value of each lane. -/
structure Lanes (α : Type) where
  lane : Nat → α

/-- The assignment `v[px] = x`. -/
def Lanes.set {α : Type} (v : Lanes α) (px : Nat) (x : α) : Lanes α :=
  ⟨store v.lane px x⟩

/-- Loop `maxpool_load_chan_px`:
`next_pixels[px] = _a[chan_grp][row+pool_i][col+pool_j][px]` for `px < 8`. -/
def maxpool_load_chan_px {α : Type} (inputs : Int → α) (a_rows a_cols : Int)
    (chan_grp r c : Int) (st : PoolMem α × Lanes α) : PoolMem α × Lanes α :=
  (List.range VECTOR_SIZE).foldl
    (fun s (px : Nat) =>
      ({ s.1 with reads := s.1.reads ++ [(chan_grp, r, c, (px : Int))] },
       s.2.set px (inputs (ARRAY_4D a_rows a_cols VECTOR_SIZE chan_grp r c px))))
    st

/-- Loop `maxpool_compare`:
`if (curr_results[px] < next_pixels[px]) curr_results[px] = next_pixels[px]`. -/
def maxpool_compare {α : Type} [LinearOrder α] (next_pixels : Lanes α)
    (curr_results : Lanes α) : Lanes α :=
  (List.range VECTOR_SIZE).foldl
    (fun cr px =>
      if cr.lane px < next_pixels.lane px then cr.set px (next_pixels.lane px) else cr)
    curr_results

/-- The locals of one output position: memory, `curr_results`, `next_pixels`. -/
structure PoolLocals (α : Type) where
  mem : PoolMem α
  curr_results : Lanes α
  next_pixels : Lanes α

/-- Loop `maxpool_pool_col` for one `pool_i`. -/
def maxpool_pool_col {α : Type} [LinearOrder α] (inputs : Int → α)
    (a_rows a_cols pool_size chan_grp row col pool_i : Int)
    (st : PoolLocals α) : PoolLocals α :=
  forRange 0 pool_size
    (fun pool_j s =>
      let ld := maxpool_load_chan_px inputs a_rows a_cols chan_grp
        (row + pool_i) (col + pool_j) (s.mem, s.next_pixels)
      { mem := ld.1, curr_results := maxpool_compare ld.2 s.curr_results,
        next_pixels := ld.2 })
    st

/-- Loop `maxpool_pool_row`. -/
def maxpool_pool_row {α : Type} [LinearOrder α] (inputs : Int → α)
    (a_rows a_cols pool_size chan_grp row col : Int)
    (st : PoolLocals α) : PoolLocals α :=
  forRange 0 pool_size
    (fun pool_i s => maxpool_pool_col inputs a_rows a_cols pool_size chan_grp row col pool_i s)
    st

/-- Loop `maxpool_commit`:
`_results[chan_grp][out_row][out_col][commit_i] = curr_results[commit_i]`. -/
def maxpool_commit {α : Type} (result_rows result_cols chan_grp out_row out_col : Int)
    (curr_results : Lanes α) (mem : PoolMem α) : PoolMem α :=
  (List.range VECTOR_SIZE).foldl
    (fun m (commit_i : Nat) =>
      { m with
        results := store m.results
          (ARRAY_4D result_rows result_cols VECTOR_SIZE chan_grp out_row out_col commit_i)
          (curr_results.lane commit_i),
        writes := m.writes ++ [(chan_grp, out_row, out_col, (commit_i : Int))] })
    mem

/-- The body of loop `maxpool_chan_input_col` at one `(row, col)`: the running
maximum starts at `{0, 0, 0, 0, 0, 0, 0, 0}`, the window is scanned, the result
is committed and `out_col` is incremented.  `next_pixels` is uninitialised in
the source and fully written before it is read; it starts here at 0. -/
def maxpool_position {α : Type} [LinearOrder α] [Zero α] (inputs : Int → α)
    (a_rows a_cols result_rows result_cols pool_size chan_grp row out_row col : Int)
    (st : PoolMem α × Int) : PoolMem α × Int :=
  let out_col := st.2
  let w := maxpool_pool_row inputs a_rows a_cols pool_size chan_grp row col
    { mem := st.1, curr_results := ⟨fun _ => 0⟩, next_pixels := ⟨fun _ => 0⟩ }
  (maxpool_commit result_rows result_cols chan_grp out_row out_col w.curr_results w.mem,
   out_col + 1)

/-- Loop `maxpool_chan_input_col` for one `row`:
`for (int col = 0; col < end_col; col += stride)`, from `out_col = 0`.
Returns the memory and the final `out_col`.  The fuel `end_col.toNat` is
enough whenever `stride ≥ 1`; the result is `none` exactly when `0 < end_col`
and `stride ≤ 0`, where the C loop never reaches `end_col`. -/
def maxpool_chan_input_col {α : Type} [LinearOrder α] [Zero α] (inputs : Int → α)
    (a_rows a_cols result_rows result_cols pool_size stride chan_grp row out_row : Int)
    (mem : PoolMem α) : Option (PoolMem α × Int) :=
  let end_col := a_cols - pool_size + 1
  forLoop end_col.toNat 0 end_col stride
    (fun col s => some (maxpool_position inputs a_rows a_cols result_rows result_cols
      pool_size chan_grp row out_row col s))
    (mem, 0)

/-- Loop `maxpool_chan_input_row` for one `chan_grp`:
`for (int row = 0; row < end_row; row += stride)`, from `out_row = 0`.
Returns the memory and the final `out_row`.  The fuel `end_row.toNat` is
enough whenever `stride ≥ 1`. -/
def maxpool_chan_input_row {α : Type} [LinearOrder α] [Zero α] (inputs : Int → α)
    (a_rows a_cols result_rows result_cols pool_size stride chan_grp : Int)
    (mem : PoolMem α) : Option (PoolMem α × Int) :=
  let end_row := a_rows - pool_size + 1
  forLoop end_row.toNat 0 end_row stride
    (fun row s =>
      match maxpool_chan_input_col inputs a_rows a_cols result_rows result_cols
          pool_size stride chan_grp row s.2 s.1 with
      | none => none
      | some s1 => some (s1.1, s.2 + 1))
    (mem, 0)

/-- Function `maxpooling_nhwc_smiv_fxp(inputs, curr_layer, results)`, started
with empty access logs.  `none`: the kernel does not terminate. -/
def maxpooling_nhwc_smiv_fxp {α : Type} [LinearOrder α] [Zero α] (inputs : Int → α)
    (curr_layer : layer_t) (results : Int → α) : Option (PoolMem α) :=
  let a_rows := curr_layer.inputs.rows
  let a_cols := curr_layer.inputs.cols
  let a_chan_groups := FRAC_CEIL curr_layer.inputs.height VECTOR_SIZE
  let result_rows := curr_layer.outputs.rows
  let result_cols := curr_layer.outputs.cols
  let pool_size := curr_layer.weights.cols
  let stride := curr_layer.field_stride
  (List.range a_chan_groups.toNat).foldlM
    (fun mem (chan_grp : Nat) =>
      (maxpool_chan_input_row inputs a_rows a_cols result_rows result_cols
        pool_size stride (chan_grp : Int) mem).map Prod.fst)
    { results := results, reads := [], writes := [] }

/-! ## Pooling operator: `operators/pooling_op.h` -/

/-- Method `PoolingOp::computeOutputDim`: `(inputDims - poolSize) / poolStride + 1`
in C++ `int` arithmetic, whose division truncates toward zero.  Division by zero
is undefined in C++: `none`. -/
def computeOutputDim (inputDims poolSize poolStride : Int) : Option Int :=
  if poolStride = 0 then none
  else some (Int.tdiv (inputDims - poolSize) poolStride + 1)

/-- The data members of `PoolingOp`. -/
structure PoolingOp where
  poolingRowSize : Int
  poolingColSize : Int
  poolingRowStride : Int
  poolingColStride : Int
deriving DecidableEq, Repr

/-- Method `PoolingOp::calcOutputRows`. -/
def PoolingOp.calcOutputRows (op : PoolingOp) (inputRows : Int) : Option Int :=
  computeOutputDim inputRows op.poolingRowSize op.poolingRowStride

/-- Method `PoolingOp::calcOutputCols`. -/
def PoolingOp.calcOutputCols (op : PoolingOp) (inputCols : Int) : Option Int :=
  computeOutputDim inputCols op.poolingColSize op.poolingColStride

/-- The number of iterations of `for (v = start; v < stop; v += step)` when
`step ≥ 1`; see `forLoop_eq_foldlM`. -/
def iterCount (start stop step : Int) : Nat := ((stop - start + step - 1) / step).toNat

/-! ## Softmax: `operators/ref/ref_softmax_op.cpp` -/

/-- Modelled from the spec: `ARRAY_2D(float, _a, buf, d1)` (not among the
sources) views `buf` as a row-major matrix with rows of `d1` elements;
`_a[i][j]` is the element at this flat offset. -/
def ARRAY_2D (d1 : Int) (i j : Int) : Int := i * d1 + j

/-- Modelled from the spec: `max2(A, B)` (not among the sources), the larger of
two values, used to "compute the row maximum". -/
def max2 {α : Type} [LinearOrder α] (a b : α) : α := if a > b then a else b

/-- Modelled from the spec: `max9(e0, ..., e8)` (not among the sources), the
largest of nine values. -/
def max9 {α : Type} [LinearOrder α] (e0 e1 e2 e3 e4 e5 e6 e7 e8 : α) : α :=
  max2 (max2 (max2 (max2 e0 e1) (max2 e2 e3)) (max2 (max2 e4 e5) (max2 e6 e7))) e8

/-- The constant `FLT_MAX` of `<float.h>`: `(2 - 2^-23) * 2^127`. -/
def FLT_MAX {α : Type} [NatCast α] : α :=
  ((340282346638528859811704183484516925440 : Nat) : α)

/-- Loop `softmax_max_loop0` of row `i`:
`for (int j = 0; j < input_size - max8_remainder; j += 8)`, the maximum in
groups of 8, from `max_elem`.  The step is 8, so the fuel is always enough. -/
def softmax_max_loop0 {α : Type} [LinearOrder α] (inputs : Int → α)
    (d1 i input_size max8_remainder : Int) (max_elem : α) : Option α :=
  forLoop (input_size - max8_remainder).toNat 0 (input_size - max8_remainder) 8
    (fun j m => some (max9 m
      (inputs (ARRAY_2D d1 i j)) (inputs (ARRAY_2D d1 i (j + 1)))
      (inputs (ARRAY_2D d1 i (j + 2))) (inputs (ARRAY_2D d1 i (j + 3)))
      (inputs (ARRAY_2D d1 i (j + 4))) (inputs (ARRAY_2D d1 i (j + 5)))
      (inputs (ARRAY_2D d1 i (j + 6))) (inputs (ARRAY_2D d1 i (j + 7)))))
    max_elem

/-- Loop `softmax_max_loop1` of row `i`, the remainder one by one:
`for (int j = input_size - max8_remainder - 1; j < input_size; j++)`.
The offset `ARRAY_2D d1 i j` of a negative `j` lies before the row. -/
def softmax_max_loop1 {α : Type} [LinearOrder α] (inputs : Int → α)
    (d1 i input_size max8_remainder : Int) (max_elem : α) : α :=
  forRange (input_size - max8_remainder - 1) input_size
    (fun j m => max2 m (inputs (ARRAY_2D d1 i j)))
    max_elem

/-- The value of `max_elem` after both maximum loops of row `i`. -/
def softmax_max_elem {α : Type} [LinearOrder α] [Neg α] [NatCast α] (inputs : Int → α)
    (d1 i input_size max8_remainder : Int) : Option α :=
  (softmax_max_loop0 inputs d1 i input_size max8_remainder (-FLT_MAX)).map
    (softmax_max_loop1 inputs d1 i input_size max8_remainder)

/-- The `results` buffer of the softmax kernel: the value at each offset. -/
structure Buf (α : Type) where
  get : Int → α

/-- The assignment `buf[i] = v`. -/
def Buf.set {α : Type} (b : Buf α) (i : Int) (v : α) : Buf α :=
  ⟨store b.get i v⟩

/-- The body of loop `softmax_batch` for row `i`, given `max_elem`: loops
`softmax_max_sub`, `softmax_exp`, `softmax_inner0`, the reciprocal
`1.0 / (normaliz + 1e-6)` and loop `softmax_inner1`. -/
def softmax_normalize {α : Type} [Field α] (exp : α → α) (inputs : Int → α)
    (d1 i input_size : Int) (max_elem : α) (results : Buf α) : Buf α :=
  let r1 := forRange 0 input_size
    (fun j r => r.set (ARRAY_2D d1 i j) (inputs (ARRAY_2D d1 i j) - max_elem)) results
  let r2 := forRange 0 input_size
    (fun j r => r.set (ARRAY_2D d1 i j) (exp (r.get (ARRAY_2D d1 i j)))) r1
  let normaliz := forRange 0 input_size (fun j n => n + r2.get (ARRAY_2D d1 i j)) 0
  let normaliz := 1 / (normaliz + 1 / 1000000)
  forRange 0 input_size
    (fun j r => r.set (ARRAY_2D d1 i j) (r.get (ARRAY_2D d1 i j) * normaliz)) r2

/-- Function `ref_softmax_f32_nc(inputs, results, input_num, input_size,
input_pad)`: the final contents of `results`.  `inputs` and `results` are
distinct buffers, as in `SoftmaxOp::run`; `exp` is the exponential;
`(input_size >> 3) << 3` is `input_size / 8 * 8`. -/
def ref_softmax_f32_nc {α : Type} [LinearOrderedField α] (exp : α → α)
    (inputs : Int → α) (results : Buf α) (input_num input_size input_pad : Int) :
    Option (Buf α) :=
  let d1 := input_size + input_pad
  let max8_remainder := input_size - input_size / 8 * 8
  (List.range input_num.toNat).foldlM
    (fun res (i : Nat) =>
      (softmax_max_elem inputs d1 i input_size max8_remainder).map
        (fun max_elem => softmax_normalize exp inputs d1 i input_size max_elem res))
    results

/-! ## SIMD activation functions: `core/smv/activation_functions.c` -/

/-- The macro `_VECTOR_WIDTH`: four `float` lanes per 128-bit vector. -/
def _VECTOR_WIDTH : Nat := 4

/-- A `v4fp_t` vector: the value of each of its four lanes. -/
structure v4fp_t (α : Type) where
  lane : Nat → α

/-- A `v4sfx_t` comparison mask: each lane is all-ones (`true`) or zero. -/
structure v4sfx_t where
  lane : Nat → Bool

/-- The load `vec_inputs[i]`: lanes `4*i .. 4*i+3` of the buffer. -/
def vec_load {α : Type} (mem : Nat → α) (i : Nat) : v4fp_t α :=
  ⟨fun k => mem (_VECTOR_WIDTH * i + k)⟩

/-- The assignment `vec_inputs[i] = v`. -/
def vec_store {α : Type} (mem : Nat → α) (i : Nat) (v : v4fp_t α) : Nat → α :=
  fun j =>
    if _VECTOR_WIDTH * i ≤ j ∧ j < _VECTOR_WIDTH * i + _VECTOR_WIDTH
    then v.lane (j - _VECTOR_WIDTH * i) else mem j

/-- The lane-wise comparison `a > b` of two vectors. -/
def v4fp_t.gt {α : Type} [LinearOrder α] (a b : v4fp_t α) : v4sfx_t :=
  ⟨fun k => decide (a.lane k > b.lane k)⟩

/-- Modelled from the spec: `VEC128_MASK(input, mask)` (not among the sources)
is the bitwise AND of a vector with a comparison mask: a lane keeps its value
where the mask is all-ones and becomes `+0.0` where it is zero, which makes
`relu(x) = max(x, 0)`. -/
def VEC128_MASK {α : Type} [Zero α] (input : v4fp_t α) (mask : v4sfx_t) : v4fp_t α :=
  ⟨fun k => if mask.lane k then input.lane k else 0⟩

/-- Function `relu_simd128(inputs, size)`: the final contents of `inputs`. -/
def relu_simd128 {α : Type} [LinearOrder α] [Zero α] (inputs : Nat → α) (size : Nat) :
    Nat → α :=
  let zero : v4fp_t α := ⟨fun _ => 0⟩
  (List.range (size / _VECTOR_WIDTH)).foldl
    (fun mem i =>
      let a := vec_load mem i
      let mask := a.gt zero
      vec_store mem i (VEC128_MASK a mask))
    inputs

/-! ## SIMD leaky relu, tanh and the dispatcher: `core/smv/activation_functions.c` -/

/-- The lane-wise comparison `a < b` of two vectors. -/
def v4fp_t.lt {α : Type} [LinearOrder α] (a b : v4fp_t α) : v4sfx_t :=
  ⟨fun k => decide (a.lane k < b.lane k)⟩

/-- The lane-wise comparison `a >= b` of two vectors. -/
def v4fp_t.ge {α : Type} [LinearOrder α] (a b : v4fp_t α) : v4sfx_t :=
  ⟨fun k => decide (a.lane k ≥ b.lane k)⟩

/-- The lane-wise product `a * b` of two vectors. -/
def v4fp_t.mul {α : Type} [Mul α] (a b : v4fp_t α) : v4fp_t α :=
  ⟨fun k => a.lane k * b.lane k⟩

/-- The lane-wise sum `a + b` of two vectors. -/
def v4fp_t.add {α : Type} [Add α] (a b : v4fp_t α) : v4fp_t α :=
  ⟨fun k => a.lane k + b.lane k⟩

/-- The lane-wise difference `a - b` of two vectors. -/
def v4fp_t.sub {α : Type} [Sub α] (a b : v4fp_t α) : v4fp_t α :=
  ⟨fun k => a.lane k - b.lane k⟩

/-- Function `lrelu_simd128(inputs, size, alpha)`: the final contents of `inputs`. -/
def lrelu_simd128 {α : Type} [LinearOrderedRing α] (inputs : Nat → α) (size : Nat)
    (alpha : α) : Nat → α :=
  let zero : v4fp_t α := ⟨fun _ => 0⟩
  let alpha_vec : v4fp_t α := ⟨fun _ => alpha⟩
  (List.range (size / _VECTOR_WIDTH)).foldl
    (fun mem i =>
      let a := vec_load mem i
      let neg_mask := a.lt zero
      let pos_mask := a.ge zero
      let scaled := alpha_vec.mul a
      vec_store mem i ((VEC128_MASK scaled neg_mask).add (VEC128_MASK a pos_mask)))
    inputs

/-- The load `vec[i]` through a `v4fp_t*` that points at offset `p` of the
memory: lanes `p + 4*i .. p + 4*i + 3`. -/
def vec_load_at {α : Type} (mem : Nat → α) (p i : Nat) : v4fp_t α :=
  ⟨fun k => mem (p + _VECTOR_WIDTH * i + k)⟩

/-- The assignment `vec[i] = v` through a `v4fp_t*` that points at offset `p`
of the memory. -/
def vec_store_at {α : Type} (mem : Nat → α) (p i : Nat) (v : v4fp_t α) : Nat → α :=
  fun j =>
    if p + _VECTOR_WIDTH * i ≤ j ∧ j < p + _VECTOR_WIDTH * i + _VECTOR_WIDTH
    then v.lane (j - (p + _VECTOR_WIDTH * i)) else mem j

/-- Modelled from the spec: `sigmoid_inplace(a, num_units)` (declared in
core/ref/activation_functions.h, its body is not among the sources) replaces
each of the `num_units` elements of the array at offset `a` of the memory by
`sigmoid(x) = 1/(1+exp(-x))`, the exact evaluation. -/
def sigmoid_inplace {α : Type} [Field α] (exp : α → α) (mem : Nat → α) (a : Nat)
    (num_units : Int) : Nat → α :=
  fun j => if a ≤ j ∧ (j : Int) < (a : Int) + num_units then 1 / (1 + exp (-(mem j))) else mem j

/-- Function `tanh_act_simd128(inputs, size, results)` on a memory in which
`inputs` and `results` are the offsets of the two arrays (they are the same
offset when the caller passes one array for both): the final memory.  `size` is
an `int`, so `size / _VECTOR_WIDTH` truncates toward zero. -/
def tanh_act_simd128 {α : Type} [Field α] (exp : α → α) (mem : Nat → α) (inputs : Nat)
    (size : Int) (results : Nat) : Nat → α :=
  let two : v4fp_t α := ⟨fun _ => 2⟩
  let one : v4fp_t α := ⟨fun _ => 1⟩
  let m1 := (List.range (Int.tdiv size _VECTOR_WIDTH).toNat).foldl
    (fun m i => vec_store_at m results i ((vec_load_at m inputs i).mul two))
    mem
  let m2 := sigmoid_inplace exp m1 results size
  (List.range (Int.tdiv size _VECTOR_WIDTH).toNat).foldl
    (fun m i => vec_store_at m results i (((vec_load_at m results i).mul two).sub one))
    m2

/-- The enumeration `activation_type` (nnet_fwd.h, not among the sources): the
enumerators that `activation_fun_simd128` tests, and `OTHER` for any other
value. -/
inductive activation_type where
  | RELU | LRELU | ELU | SELU | TANH | SIGMOID | SOFTMAX | OTHER
deriving DecidableEq, Repr

/-- The structure `farray_t`: a `float` array and its element count. -/
structure farray_t (α : Type) where
  d : Nat → α
  size : Nat

/-- The structure `uarray_t`: a packed array and its element count.  `P` is the
type of the contents of a `packed_fp16` buffer. -/
structure uarray_t (P : Type) where
  d : P
  size : Nat

/-- A call that does not return, because an `assert` failed or `exit` was
called: the message, and the state the call left behind. -/
structure Abort (σ : Type) where
  msg : String
  state : σ

/-- Function `activation_fun_simd128(activations, batch_size, input_size,
function, results)`: the final contents of `results`, or the failed assertion
with the contents of `results` at that point.  The functions whose bodies are
not among the sources are parameters: `unpack_data_fp16x4` (with a `NULL`
destination it allocates the array it returns), `pack_data_fp16` (the contents
of its destination after the call), `elu` and `selu` (the contents of the array
after the call).  `exp` is the exponential.  The sizes are taken
non-negative. -/
def activation_fun_simd128 {α P : Type} [LinearOrderedField α] (exp : α → α)
    (unpack_data_fp16x4 : uarray_t P → farray_t α)
    (pack_data_fp16 : farray_t α → P → P)
    (elu : (Nat → α) → Nat → α → (Nat → α))
    (selu : (Nat → α) → Nat → (Nat → α))
    (activations : P) (batch_size input_size : Int) (function : activation_type)
    (results : P) : Except (Abort P) P :=
  let packed_array : uarray_t P := ⟨activations, (input_size * batch_size).toNat⟩
  let unpacked_activations := unpack_data_fp16x4 packed_array
  let size := unpacked_activations.size
  let act : Except (Abort P) (Nat → α) :=
    if function = activation_type.RELU then
      .ok (relu_simd128 unpacked_activations.d size)
    else if function = activation_type.LRELU then
      .ok (lrelu_simd128 unpacked_activations.d size (1 / 10))
    else if function = activation_type.ELU then
      .ok (elu unpacked_activations.d size (1 / 10))
    else if function = activation_type.SELU then
      .ok (selu unpacked_activations.d size)
    else if function = activation_type.TANH then
      .ok (tanh_act_simd128 exp unpacked_activations.d 0 size 0)
    else if function = activation_type.SIGMOID then
      .ok (sigmoid_inplace exp unpacked_activations.d 0 size)
    else if function = activation_type.SOFTMAX then
      .error ⟨"Softmax SIMD not supported!", results⟩
    else .ok unpacked_activations.d
  match act with
  | .error e => .error e
  | .ok d => .ok (pack_data_fp16 ⟨d, size⟩ results)

/-! ## Tensors, workspace and operators: `operators/pooling_op.h`, `operators/unary_op.h` -/

/-- Modelled from the spec: the data layout tag of a tensor (core/tensor.h is
not among the sources): channel-major "NCHW" or channel-last "NHWC"; `Other`
stands for any other tag. -/
inductive DataLayout where
  | NCHW | NHWC | Other
deriving DecidableEq, Repr

/-- Modelled from the spec: `TensorShape` (core/tensor.h, not among the
sources), "a shape (ordered sequence of per-dimension extents), and a data
layout tag". -/
structure TensorShape where
  dims : List Int
  layout : DataLayout
deriving DecidableEq, Repr

/-- The element access `shape[i]`; `none` when the shape has no dimension `i`,
where the C++ access is undefined. -/
def TensorShape.get (shape : TensorShape) (i : Nat) : Option Int := shape.dims[i]?

/-- Modelled from the spec: a `Tensor` object (core/tensor.h, not among the
sources) made by `new Tensor(name, shape)`; `addr` is the address that `new`
returned and stands for the identity of the tensor. -/
structure Tensor where
  addr : Nat
  name : String
  shape : TensorShape
deriving DecidableEq, Repr

/-- Modelled from the spec: the `Workspace` (core/workspace.h, not among the
sources), the registry of the tensors it owns, in the order they were added. -/
structure Workspace where
  tensors : List Tensor
deriving DecidableEq, Repr

/-- Modelled from the spec: `addTensor(Tensor) -> void` "registers
ownership". -/
def Workspace.addTensor (workspace : Workspace) (tensor : Tensor) : Workspace :=
  ⟨workspace.tensors ++ [tensor]⟩

/-- The members of the base class `Operator` (core/operator.h, not among the
sources) that `PoolingOp` and `UnaryOp` use: the name, and the slots
`inputs[Inputs]` and `outputs[Outputs]`, which the constructors set to
`nullptr` (`none`). -/
structure Operator where
  name : String
  inputs : Option Tensor
  outputs : Option Tensor
deriving DecidableEq, Repr

/-- The state that the methods of an operator read and change: its own data
members `params`, the members of its base class, the workspace it points to,
and the number of tensors allocated with `new` so far. -/
structure OpState (Params : Type) where
  params : Params
  base : Operator
  workspace : Workspace
  allocated : Nat
deriving DecidableEq, Repr

/-- The statement `new Tensor(name, shape)` followed by `workspace->addTensor(output)`
and `outputs[Outputs] = output`. -/
def OpState.materialize {Params : Type} (s : OpState Params) (shape : TensorShape) :
    OpState Params :=
  let output : Tensor := ⟨s.allocated, s.base.name, shape⟩
  { s with
    workspace := s.workspace.addTensor output,
    base := { s.base with outputs := some output },
    allocated := s.allocated + 1 }

/-- Method `PoolingOp::inferOutputShape` on an input shape.  `none`: the shape
has fewer than four dimensions or a stride is 0. -/
def PoolingOp.inferShape (op : PoolingOp) (inputShape : TensorShape) : Option TensorShape :=
  let isNCHW := decide (inputShape.layout = DataLayout.NCHW)
  (if isNCHW then inputShape.get 2 else inputShape.get 1).bind fun inputRows =>
  (if isNCHW then inputShape.get 3 else inputShape.get 2).bind fun inputCols =>
  (if isNCHW then inputShape.get 1 else inputShape.get 0).bind fun inputChans =>
  (op.calcOutputRows inputRows).bind fun outputRows =>
  (op.calcOutputCols inputCols).bind fun outputCols =>
  (inputShape.get 0).bind fun dim0 =>
  if isNCHW then
    some ⟨[dim0, inputChans, outputRows, outputCols], inputShape.layout⟩
  else
    some ⟨[dim0, outputRows, outputCols, inputChans], inputShape.layout⟩

/-- Method `PoolingOp::inferOutputShape`: the shape inferred from
`inputs.at(Inputs)->getShape()`.  `none`: no input is bound, or
`PoolingOp.inferShape` is `none`. -/
def PoolingOp.inferOutputShape (s : OpState PoolingOp) : Option TensorShape :=
  s.base.inputs.bind fun input => s.params.inferShape input.shape

/-- Method `PoolingOp::createOutputTensors`.  `none`: shape inference is
undefined. -/
def PoolingOp.createOutputTensors (s : OpState PoolingOp) : Option (OpState PoolingOp) :=
  if s.base.outputs.isSome then some s
  else (PoolingOp.inferOutputShape s).map fun shape => s.materialize shape

/-- Method `PoolingOp::validate`: `assert(false && "Unimplemented!")`. -/
def PoolingOp.validate (s : OpState PoolingOp) : Except (Abort (OpState PoolingOp)) Bool :=
  .error ⟨"Unimplemented!", s⟩

/-- The class `UnaryOp` has no data members of its own. -/
structure UnaryOp where
deriving DecidableEq, Repr

/-- Method `UnaryOp::createOutputTensors`.  `none`: no input is bound. -/
def UnaryOp.createOutputTensors (s : OpState UnaryOp) : Option (OpState UnaryOp) :=
  if s.base.outputs.isSome then some s
  else s.base.inputs.map fun input => s.materialize input.shape

/-- Method `UnaryOp::validate`: `return Operator::validate();`, the method of
the base class (not among the sources) being a parameter. -/
def UnaryOp.validate (operator_validate : OpState UnaryOp → Bool) (s : OpState UnaryOp) :
    Bool :=
  operator_validate s

/-- The structure `log_entry_t` (profiling.h, not among the sources) with the
fields that profiling.c uses; the `next` pointer is the tail of the list that
holds the entry. -/
structure log_entry_t where
  label : String
  layer_num : Int
  invocation : Int
  start_time : Nat
  end_time : Nat
deriving DecidableEq, Repr

/-- The two static variables of profiling.c: `profile_log`, the linked list of
entries from its head, and `profiling_enabled`. -/
structure profiling_t where
  profile_log : List log_entry_t
  profiling_enabled : Bool
deriving DecidableEq, Repr

/-- The structure `timespec` that `clock_gettime` fills. -/
structure timespec where
  tv_sec : Nat
  tv_nsec : Nat
deriving DecidableEq, Repr

/-- Function `get_nsecs()`, given what `clock_gettime` returned (`ret`) and
stored (`time`): 0 when the clock failed, the time in nanoseconds otherwise.
The rounding of the `double` product is not modelled. -/
def get_nsecs (ret : Int) (time : timespec) : Nat :=
  if ret ≠ 0 then 0 else time.tv_sec * 1000000000 + time.tv_nsec

/-- Function `init_profiling_log()`. -/
def init_profiling_log (_ : profiling_t) : profiling_t :=
  { profile_log := [], profiling_enabled := true }

/-- Function `begin_profiling(label, layer_num)`; `nsecs` is what its call of
`get_nsecs()` returns. -/
def begin_profiling (label : String) (layer_num : Int) (nsecs : Nat) (s : profiling_t) :
    profiling_t :=
  if !s.profiling_enabled then s
  else
    let entry : log_entry_t :=
      { label := label, layer_num := layer_num, invocation := 0,
        start_time := nsecs, end_time := 0 }
    { s with profile_log := entry :: s.profile_log }

/-- The search `while (entry && entry->end_time != 0) entry = entry->next;`
followed by `entry->end_time = nsecs`: the list with the first entry whose
`end_time` is 0 ended at `nsecs`; `none` when the search ends at `NULL`. -/
def end_first_open (nsecs : Nat) : List log_entry_t → Option (List log_entry_t)
  | [] => none
  | entry :: next =>
    if entry.end_time ≠ 0 then (end_first_open nsecs next).map (fun l => entry :: l)
    else some ({ entry with end_time := nsecs } :: next)

/-- Function `end_profiling()`; `nsecs` is what its call of `get_nsecs()`
returns.  The error is the call of `exit(1)`, with the state at that point. -/
def end_profiling (nsecs : Nat) (s : profiling_t) : Except (Abort profiling_t) profiling_t :=
  if !s.profiling_enabled then .ok s
  else
    match end_first_open nsecs s.profile_log with
    | none => .error ⟨"Could not find the corresponding entry for this end_profiling call!", s⟩
    | some log => .ok { s with profile_log := log }

/-- A call of the profiling interface, with the timer reading it gets. -/
inductive ProfCall where
  | begin_profiling (label : String) (layer_num : Int) (nsecs : Nat)
  | end_profiling (nsecs : Nat)
deriving DecidableEq, Repr

/-- A sequence of profiling calls, in order; it stops at the first call that
exits. -/
def runProfCalls : List ProfCall → profiling_t → Except (Abort profiling_t) profiling_t
  | [], s => .ok s
  | ProfCall.begin_profiling label layer_num nsecs :: calls, s =>
    runProfCalls calls (begin_profiling label layer_num nsecs s)
  | ProfCall.end_profiling nsecs :: calls, s =>
    match end_profiling nsecs s with
    | .error e => .error e
    | .ok s1 => runProfCalls calls s1

/-- A properly nested sequence of calls together with the log it should
produce: every `end_profiling` is paired with the closest earlier
`begin_profiling` not yet paired, and the entry of a pair holds the label, the
layer number and the timer readings of its two calls.  Entries are listed as
in the log, the most recently begun first. -/
inductive Paired : List ProfCall → List log_entry_t → Prop where
  | nil : Paired [] []
  | span (label : String) (layer_num : Int) (t0 t1 : Nat)
      (inner rest : List ProfCall) (linner lrest : List log_entry_t) :
      Paired inner linner → Paired rest lrest →
      Paired
        (ProfCall.begin_profiling label layer_num t0 :: inner ++
          ProfCall.end_profiling t1 :: rest)
        (lrest ++ linner ++ [⟨label, layer_num, 0, t0, t1⟩])

/-- The timer readings that a sequence of calls gets in `end_profiling`. -/
def endReadings : List ProfCall → List Nat
  | [] => []
  | ProfCall.begin_profiling _ _ _ :: calls => endReadings calls
  | ProfCall.end_profiling nsecs :: calls => nsecs :: endReadings calls

/-- A sequence of calls is properly nested from depth `depth`: no
`end_profiling` comes when no span is open, and no span is open at the end. -/
def nested : List ProfCall → Nat → Bool
  | [], depth => depth == 0
  | ProfCall.begin_profiling _ _ _ :: calls, depth => nested calls (depth + 1)
  | ProfCall.end_profiling _ :: calls, depth => depth != 0 && nested calls (depth - 1)

/-- The number of `begin_profiling` calls of a sequence. -/
def beginCount : List ProfCall → Nat
  | [] => 0
  | ProfCall.begin_profiling _ _ _ :: calls => beginCount calls + 1
  | ProfCall.end_profiling _ :: calls => beginCount calls

/-- Method `PoolingOp::getNumOfmaps`.  `getTensor` is `Workspace::getTensor`
(core/workspace.h, not among the sources), which looks the input up in the
workspace; `input->dim(i)` is the extent `i` of the input's shape.  The error is
the failed assertion; `none` is an extent that the shape does not have. -/
def PoolingOp.getNumOfmaps (getTensor : Workspace → Option Tensor → Option Tensor)
    (s : OpState PoolingOp) : Except (Abort (OpState PoolingOp)) (Option Int) :=
  match getTensor s.workspace s.base.inputs with
  | none => .error ⟨"Unable to find input for pooling layer!", s⟩
  | some input =>
    let isNCHW := decide (input.shape.layout = DataLayout.NCHW)
    let chanIdx := if isNCHW then 1 else 3
    .ok (input.shape.get chanIdx)

/-! ## Pooling kernel: bounds and window maxima -/

/-- A 4-dimensional index lies inside an array of extents `d0 x d1 x d2 x d3`. -/
def Idx4.inBounds (d0 d1 d2 d3 : Int) (idx : Idx4) : Prop :=
  (0 ≤ idx.1 ∧ idx.1 < d0) ∧ (0 ≤ idx.2.1 ∧ idx.2.1 < d1) ∧
    (0 ≤ idx.2.2.1 ∧ idx.2.2.1 < d2) ∧ (0 ≤ idx.2.2.2 ∧ idx.2.2.2 < d3)

/-- The flat offset of a 4-dimensional index in an array whose last three
extents are `d1 x d2 x d3`. -/
def Idx4.flat (d1 d2 d3 : Int) (idx : Idx4) : Int :=
  ARRAY_4D d1 d2 d3 idx.1 idx.2.1 idx.2.2.1 idx.2.2.2

/-- The value `v` is the running maximum, started at 0, of the values `f i j`
over the positions `(i, j)` scanned so far (those with `S i j`): it is at
least 0, at least every scanned value, and it is 0 or one of the scanned
values. -/
def clampedMaxOn {α : Type} [LinearOrder α] [Zero α] (S : Int → Int → Prop)
    (f : Int → Int → α) (v : α) : Prop :=
  0 ≤ v ∧ (∀ i j, S i j → f i j ≤ v) ∧ (v = 0 ∨ ∃ i j, S i j ∧ v = f i j)

/-- The element of `results` at the output index `idx` is the running maximum,
started at 0, of lane `idx.px` of the input over the window of the output
position: rows `out_row * stride + pool_i` and columns
`out_col * stride + pool_j` for `0 ≤ pool_i, pool_j < pool_size`. -/
def windowResult {α : Type} [LinearOrder α] [Zero α] (inputs : Int → α)
    (a_rows a_cols result_rows result_cols pool_size stride : Int)
    (results : Int → α) (idx : Idx4) : Prop :=
  clampedMaxOn (fun i j => (0 ≤ i ∧ i < pool_size) ∧ (0 ≤ j ∧ j < pool_size))
    (fun i j => inputs (ARRAY_4D a_rows a_cols VECTOR_SIZE idx.1
      (idx.2.1 * stride + i) (idx.2.2.1 * stride + j) idx.2.2.2))
    (results (idx.flat result_rows result_cols VECTOR_SIZE))

/-- The invariant of the pooling kernel between two output positions, `hw`
being the flat offset of the next output position: `hw` elements have been
written, every index read is inside the input array, every index written is
inside the results array, below `hw`, and holds the result of its window, and
every index of the results array below `hw` has been written. -/
def poolInv {α : Type} [LinearOrder α] [Zero α] (inputs : Int → α)
    (chan_groups a_rows a_cols result_rows result_cols pool_size stride : Int)
    (hw : Int) (m : PoolMem α) : Prop :=
  (m.writes.length : Int) = hw ∧
  (∀ idx ∈ m.reads, Idx4.inBounds chan_groups a_rows a_cols VECTOR_SIZE idx) ∧
  (∀ idx ∈ m.writes,
    Idx4.inBounds chan_groups result_rows result_cols VECTOR_SIZE idx ∧
    idx.flat result_rows result_cols VECTOR_SIZE < hw ∧
    windowResult inputs a_rows a_cols result_rows result_cols pool_size stride m.results idx) ∧
  (∀ idx : Idx4, Idx4.inBounds chan_groups result_rows result_cols VECTOR_SIZE idx →
    idx.flat result_rows result_cols VECTOR_SIZE < hw → idx ∈ m.writes)

/-- The window positions `(pool_i, pool_j)` scanned before the iteration
`pool_i = a`, `pool_j = b` of the loops `maxpool_pool_row` and
`maxpool_pool_col`. -/
def scanned (pool_size a b : Int) (i j : Int) : Prop :=
  ((0 ≤ i ∧ i < a) ∧ (0 ≤ j ∧ j < pool_size)) ∨ (i = a ∧ 0 ≤ j ∧ j < b)

/-- The invariant of the window scan of one output position: the results buffer
and the write log are as before the scan, every index read satisfies `Rd`, and
each lane of `curr_results` is the running maximum of the positions `S` scanned
so far. -/
def scanInv {α : Type} [LinearOrder α] [Zero α] (inputs : Int → α)
    (a_rows a_cols chan_grp row col : Int) (Rd : Idx4 → Prop) (res0 : Int → α)
    (w0 : List Idx4) (S : Int → Int → Prop) (s : PoolLocals α) : Prop :=
  s.mem.results = res0 ∧ s.mem.writes = w0 ∧ (∀ idx ∈ s.mem.reads, Rd idx) ∧
  ∀ px : Nat, px < VECTOR_SIZE →
    clampedMaxOn S
      (fun i j => inputs (ARRAY_4D a_rows a_cols VECTOR_SIZE chan_grp (row + i) (col + j) px))
      (s.curr_results.lane px)

/-- The layer of the end-to-end scenario of the specification: one channel
group, a 4x4 input, pool size 2, stride 2, a 2x2 output. -/
def scenario_layer : layer_t := ⟨⟨4, 4, 1⟩, ⟨2, 2, 1⟩, ⟨2, 2, 1⟩, 2⟩

/-! ## Loop lemmas -/

/-- A loop whose start is not below its stop runs zero times. -/
theorem iterCount_of_le {start stop step : Int} (hstep : 1 ≤ step) (h : stop ≤ start) :
    iterCount start stop step = 0 := by
  unfold iterCount
  have : (stop - start + step - 1) / step ≤ 0 := by
    have : (stop - start + step - 1) / step < 1 := by
      apply Int.ediv_lt_of_lt_mul (by omega); omega
    omega
  omega

/-- A loop whose start is below its stop runs once more than the loop started one step later. -/
theorem iterCount_of_lt {start stop step : Int} (hstep : 1 ≤ step) (h : start < stop) :
    iterCount start stop step = iterCount (start + step) stop step + 1 := by
  unfold iterCount
  have e : stop - start + step - 1 = (stop - (start + step) + step - 1) + 1 * step := by ring
  rw [e, Int.add_mul_ediv_right _ _ (by omega : step ≠ 0)]
  have : 0 ≤ (stop - (start + step) + step - 1) / step :=
    Int.ediv_nonneg (by omega) (by omega)
  omega

/-- With a step of at least 1 and enough fuel, `forLoop` terminates and runs the body
at `v, v + step, v + 2 * step, ...`, `iterCount v stop step` times. -/
theorem forLoop_eq_foldlM {σ : Type} (body : Int → σ → Option σ) (step stop : Int)
    (hstep : 1 ≤ step) :
    ∀ (fuel : Nat) (v : Int) (st : σ), stop - v ≤ fuel →
      forLoop fuel v stop step body st =
        (List.range (iterCount v stop step)).foldlM
          (fun s (k : Nat) => body (v + k * step) s) st := by
  intro fuel
  induction fuel with
  | zero =>
    intro v st h
    have hv : ¬ v < stop := by omega
    simp [forLoop, hv, iterCount_of_le hstep (by omega : stop ≤ v)]
  | succ f ih =>
    intro v st h
    by_cases hv : v < stop
    · rw [iterCount_of_lt hstep hv, List.range_succ_eq_map]
      simp only [forLoop, hv, if_true, List.foldlM_cons, List.foldlM_map]
      cases hb : body v st with
      | none => simp [hb]
      | some st1 =>
        simp only [Nat.cast_zero, zero_mul, add_zero, hb, Option.some_bind, Option.bind_eq_bind]
        rw [ih (v + step) st1 (by push_cast at h ⊢; omega)]
        congr 1
        funext s k
        congr 1
        push_cast
        ring
    · simp [forLoop, hv, iterCount_of_le hstep (by omega : stop ≤ v)]

/-- With a step of 0 or less, a loop whose guard holds never terminates. -/
theorem forLoop_eq_none {σ : Type} (body : Int → σ → Option σ) (step stop : Int)
    (hstep : step ≤ 0) :
    ∀ (fuel : Nat) (v : Int) (st : σ), v < stop →
      forLoop fuel v stop step body st = none := by
  intro fuel
  induction fuel with
  | zero => intro v st h; simp [forLoop, h]
  | succ f ih =>
    intro v st h
    simp only [forLoop, h, if_true]
    cases hb : body v st with
    | none => rfl
    | some st1 => exact ih (v + step) st1 (by omega)

/-- A loop whose body succeeds and increments its counter ends with the counter
raised by the number of iterations. -/
theorem foldlM_counter {σ ι : Type} (body : σ × Int → ι → Option (σ × Int))
    (hb : ∀ s k, ∃ s1, body s k = some s1 ∧ s1.2 = s.2 + 1) :
    ∀ (l : List ι) (st : σ × Int),
      ∃ s1, l.foldlM body st = some s1 ∧ s1.2 = st.2 + l.length := by
  intro l
  induction l with
  | nil => intro st; exact ⟨st, by simp⟩
  | cons k l ih =>
    intro st
    obtain ⟨s1, h1, h2⟩ := hb st k
    obtain ⟨s2, h3, h4⟩ := ih s1
    refine ⟨s2, ?_, ?_⟩
    · simp [List.foldlM_cons, h1, h3]
    · rw [h4, h2, List.length_cons]; push_cast; ring

/-- A loop whose body succeeds and keeps the first component keeps it to the end. -/
theorem foldlM_fst_fixed {σ τ ι : Type} (body : σ × τ → ι → Option (σ × τ))
    (hb : ∀ s k, ∃ s1, body s k = some s1 ∧ s1.1 = s.1) :
    ∀ (l : List ι) (st : σ × τ), ∃ s1, l.foldlM body st = some s1 ∧ s1.1 = st.1 := by
  intro l
  induction l with
  | nil => intro st; exact ⟨st, by simp⟩
  | cons k l ih =>
    intro st
    obtain ⟨s1, h1, h2⟩ := hb st k
    obtain ⟨s2, h3, h4⟩ := ih s1
    exact ⟨s2, by simp [List.foldlM_cons, h1, h3], by rw [h4, h2]⟩

/-- A loop whose body maps the state to itself ends in that state. -/
theorem foldlM_fixed {σ ι : Type} (body : σ → ι → Option σ) (st : σ)
    (hb : ∀ k, body st k = some st) : ∀ l : List ι, l.foldlM body st = some st := by
  intro l
  induction l with
  | nil => rfl
  | cons k l ih => simp [List.foldlM_cons, hb k, ih]

/-- A loop whose body always succeeds succeeds. -/
theorem foldlM_some {σ ι : Type} (body : σ → ι → Option σ)
    (hb : ∀ s k, ∃ s1, body s k = some s1) :
    ∀ (l : List ι) (st : σ), ∃ s1, l.foldlM body st = some s1 := by
  intro l
  induction l with
  | nil => intro st; exact ⟨st, rfl⟩
  | cons k l ih =>
    intro st
    obtain ⟨s1, h1⟩ := hb st k
    obtain ⟨s2, h2⟩ := ih s1
    exact ⟨s2, by simp [List.foldlM_cons, h1, h2]⟩

/-- A left fold keeps an invariant indexed by the iteration count. -/
theorem foldl_range_invariant {σ : Type} (P : Nat → σ → Prop) (body : σ → Nat → σ) :
    ∀ (n : Nat) (st : σ), P 0 st → (∀ k s, k < n → P k s → P (k + 1) (body s k)) →
      P n ((List.range n).foldl body st) := by
  intro n
  induction n with
  | zero => intro st h0 _; exact h0
  | succ n ih =>
    intro st h0 hstep
    rw [List.range_succ, List.foldl_append]
    exact hstep n _ (Nat.lt_succ_self n)
      (ih st h0 (fun k s hk => hstep k s (Nat.lt_succ_of_lt hk)))

/-- A monadic fold whose body always succeeds keeps an invariant indexed by the
iteration count. -/
theorem foldlM_range_invariant {σ : Type} (P : Nat → σ → Prop) (body : σ → Nat → σ) :
    ∀ (n : Nat) (st : σ), P 0 st → (∀ k s, k < n → P k s → P (k + 1) (body s k)) →
      ∃ s1, (List.range n).foldlM (fun s k => some (body s k)) st = some s1 ∧ P n s1 := by
  intro n
  induction n with
  | zero => intro st h0 _; exact ⟨st, rfl, h0⟩
  | succ n ih =>
    intro st h0 hstep
    obtain ⟨s1, h1, h2⟩ := ih st h0 (fun k s hk => hstep k s (Nat.lt_succ_of_lt hk))
    refine ⟨body s1 n, ?_, hstep n s1 (Nat.lt_succ_self n) h2⟩
    rw [List.range_succ, List.foldlM_append, h1]
    rfl

/-- A unit-step loop from 0 to `n` is a left fold over `0, ..., n - 1`. -/
theorem forRange_zero {σ : Type} (n : Nat) (body : Int → σ → σ) (st : σ) :
    forRange 0 (n : Int) body st = (List.range n).foldl (fun s (k : Nat) => body (k : Int) s) st := by
  unfold forRange
  have e : ((n : Int) - 0).toNat = n := by omega
  rw [e]
  simp only [zero_add]

/-! ## Pooling kernel and shape inference -/

/-- The column loop terminates when the stride is at least 1, and its final
`out_col` is its number of iterations. -/
theorem maxpool_chan_input_col_count {α : Type} [LinearOrder α] [Zero α] (inputs : Int → α)
    (a_rows a_cols result_rows result_cols pool_size stride chan_grp row out_row : Int)
    (mem : PoolMem α) (hS : 1 ≤ stride) :
    ∃ s1, maxpool_chan_input_col inputs a_rows a_cols result_rows result_cols pool_size
        stride chan_grp row out_row mem = some s1 ∧
      s1.2 = iterCount 0 (a_cols - pool_size + 1) stride := by
  unfold maxpool_chan_input_col
  simp only []
  rw [forLoop_eq_foldlM _ _ _ hS _ _ _ (by omega)]
  obtain ⟨s1, h1, h2⟩ := foldlM_counter
    (fun (s : PoolMem α × Int) (k : Nat) =>
      some (maxpool_position inputs a_rows a_cols result_rows result_cols pool_size
        chan_grp row out_row (0 + k * stride) s))
    (fun s k => ⟨_, rfl, rfl⟩)
    (List.range (iterCount 0 (a_cols - pool_size + 1) stride)) (mem, 0)
  exact ⟨s1, h1, by simpa using h2⟩

/-- The row loop terminates when the stride is at least 1, and its final `out_row`
is its number of iterations. -/
theorem maxpool_chan_input_row_count {α : Type} [LinearOrder α] [Zero α] (inputs : Int → α)
    (a_rows a_cols result_rows result_cols pool_size stride chan_grp : Int)
    (mem : PoolMem α) (hS : 1 ≤ stride) :
    ∃ s1, maxpool_chan_input_row inputs a_rows a_cols result_rows result_cols pool_size
        stride chan_grp mem = some s1 ∧
      s1.2 = iterCount 0 (a_rows - pool_size + 1) stride := by
  unfold maxpool_chan_input_row
  simp only []
  rw [forLoop_eq_foldlM _ _ _ hS _ _ _ (by omega)]
  obtain ⟨s1, h1, h2⟩ := foldlM_counter
    (fun (s : PoolMem α × Int) (k : Nat) =>
      match maxpool_chan_input_col inputs a_rows a_cols result_rows result_cols
          pool_size stride chan_grp (0 + k * stride) s.2 s.1 with
      | none => none
      | some s1 => some (s1.1, s.2 + 1))
    (fun s k => by
      obtain ⟨c, hc, -⟩ := maxpool_chan_input_col_count inputs a_rows a_cols result_rows
        result_cols pool_size stride chan_grp (0 + k * stride) s.2 s.1 hS
      exact ⟨(c.1, s.2 + 1), by simp only [hc], rfl⟩)
    (List.range (iterCount 0 (a_rows - pool_size + 1) stride)) (mem, 0)
  exact ⟨s1, h1, by simpa using h2⟩

/-- For `P ≤ I` the loop `for (v = 0; v < I - P + 1; v += S)` runs
`computeOutputDim I P S` times. -/
theorem iterCount_eq_computeOutputDim (I P S : Int) (hS : 1 ≤ S) (hP : P ≤ I) :
    some ((iterCount 0 (I - P + 1) S : Nat) : Int) = computeOutputDim I P S := by
  unfold iterCount computeOutputDim
  rw [if_neg (by omega), Int.tdiv_eq_ediv (by omega) (by omega)]
  have e : I - P + 1 - 0 + S - 1 = (I - P) + 1 * S := by ring
  rw [e, Int.add_mul_ediv_right _ _ (by omega : S ≠ 0)]
  have : 0 ≤ (I - P) / S := Int.ediv_nonneg (by omega) (by omega)
  congr 1
  omega

/-- With fewer input columns than the pool size the column loop does nothing. -/
theorem maxpool_chan_input_col_degenerate {α : Type} [LinearOrder α] [Zero α]
    (inputs : Int → α)
    (a_rows a_cols result_rows result_cols pool_size stride chan_grp row out_row : Int)
    (mem : PoolMem α) (hS : 1 ≤ stride) (hc : a_cols < pool_size) :
    maxpool_chan_input_col inputs a_rows a_cols result_rows result_cols pool_size
      stride chan_grp row out_row mem = some (mem, 0) := by
  unfold maxpool_chan_input_col
  simp only []
  rw [forLoop_eq_foldlM _ _ _ hS _ _ _ (by omega), iterCount_of_le hS (by omega)]
  rfl

/-- With fewer input rows or columns than the pool size the row loop leaves the
memory as it was. -/
theorem maxpool_chan_input_row_degenerate {α : Type} [LinearOrder α] [Zero α]
    (inputs : Int → α)
    (a_rows a_cols result_rows result_cols pool_size stride chan_grp : Int)
    (mem : PoolMem α) (hS : 1 ≤ stride) (hd : a_rows < pool_size ∨ a_cols < pool_size) :
    (maxpool_chan_input_row inputs a_rows a_cols result_rows result_cols pool_size
      stride chan_grp mem).map Prod.fst = some mem := by
  unfold maxpool_chan_input_row
  simp only []
  rw [forLoop_eq_foldlM _ _ _ hS _ _ _ (by omega)]
  rcases hd with hr | hc
  · rw [iterCount_of_le hS (by omega)]
    rfl
  · obtain ⟨s1, h1, h2⟩ := foldlM_fst_fixed
      (fun (s : PoolMem α × Int) (k : Nat) =>
        match maxpool_chan_input_col inputs a_rows a_cols result_rows result_cols
            pool_size stride chan_grp (0 + k * stride) s.2 s.1 with
        | none => none
        | some s1 => some (s1.1, s.2 + 1))
      (fun s k => by
        refine ⟨(s.1, s.2 + 1), ?_, rfl⟩
        simp only [maxpool_chan_input_col_degenerate inputs a_rows a_cols result_rows
          result_cols pool_size stride chan_grp _ _ _ hS hc])
      (List.range (iterCount 0 (a_rows - pool_size + 1) stride)) (mem, 0)
    rw [h1]
    simpa using h2

/-- Claim C1, evaluated at a failing input: a 1x1 input with one channel whose
eight lanes all hold -1, pool size 1, stride 1.  The only window of each lane
holds -1, so the window maximum is -1, but the kernel writes 0 to every lane:
its running maximum starts at 0. -/
theorem maxpooling_negative_window_clamped :
    (maxpooling_nhwc_smiv_fxp (fun _ => (-1 : Int)) ⟨⟨1, 1, 1⟩, ⟨1, 1, 1⟩, ⟨1, 1, 1⟩, 1⟩
        (fun _ => 7)).map
      (fun m => (List.range 8).map (fun (px : Nat) => m.results (ARRAY_4D 1 1 8 0 0 0 px))) =
      some [0, 0, 0, 0, 0, 0, 0, 0] := by
  decide

set_option maxRecDepth 100000 in
/-- The end-to-end scenario of the specification: the 4x4 input `1..16` (the same
value in every lane), pool size 2, stride 2, gives `[[6, 8], [14, 16]]` in lane 0. -/
theorem maxpooling_scenario_4x4 :
    (maxpooling_nhwc_smiv_fxp (fun o => o / 8 + 1) ⟨⟨4, 4, 1⟩, ⟨2, 2, 1⟩, ⟨2, 2, 1⟩, 2⟩
        (fun _ => 0)).map
      (fun m => [[m.results (ARRAY_4D 2 2 8 0 0 0 0), m.results (ARRAY_4D 2 2 8 0 0 1 0)],
                 [m.results (ARRAY_4D 2 2 8 0 1 0 0), m.results (ARRAY_4D 2 2 8 0 1 1 0)]]) =
      some [[6, 8], [14, 16]] := by
  decide

/-- Claim C2, amended: for every input extent `I`, pool size `P ≤ I` and stride
`S ≥ 1`, `computeOutputDim I P S`, and hence `calcOutputRows` and
`calcOutputCols` of an operator with that size and stride, return
`floor((I - P) / S) + 1`. -/
theorem computeOutputDim_eq_floor (I P S : Int) (hS : 1 ≤ S) (hP : P ≤ I) :
    computeOutputDim I P S = some (⌊((I - P : Int) : ℚ) / ((S : Int) : ℚ)⌋ + 1) ∧
    (∀ op : PoolingOp, op.poolingRowSize = P → op.poolingRowStride = S →
      op.calcOutputRows I = some (⌊((I - P : Int) : ℚ) / ((S : Int) : ℚ)⌋ + 1)) ∧
    (∀ op : PoolingOp, op.poolingColSize = P → op.poolingColStride = S →
      op.calcOutputCols I = some (⌊((I - P : Int) : ℚ) / ((S : Int) : ℚ)⌋ + 1)) := by
  have h : computeOutputDim I P S = some (⌊((I - P : Int) : ℚ) / ((S : Int) : ℚ)⌋ + 1) := by
    unfold computeOutputDim
    rw [if_neg (by omega), Int.tdiv_eq_ediv (by omega) (by omega)]
    lift S to ℕ using (by omega)
    rw [Int.cast_natCast, Rat.floor_intCast_div_natCast]
  refine ⟨h, ?_, ?_⟩
  · intro op h1 h2
    rw [PoolingOp.calcOutputRows, h1, h2, h]
  · intro op h1 h2
    rw [PoolingOp.calcOutputCols, h1, h2, h]

/-- Claim C2 (amended) at `I = 7`, `P = 2`, `S = 2`. -/
theorem computeOutputDim_eq_floor_witness :
    computeOutputDim 7 2 2 = some (⌊((7 - 2 : Int) : ℚ) / ((2 : Int) : ℚ)⌋ + 1) ∧
    (∀ op : PoolingOp, op.poolingRowSize = 2 → op.poolingRowStride = 2 →
      op.calcOutputRows 7 = some (⌊((7 - 2 : Int) : ℚ) / ((2 : Int) : ℚ)⌋ + 1)) ∧
    (∀ op : PoolingOp, op.poolingColSize = 2 → op.poolingColStride = 2 →
      op.calcOutputCols 7 = some (⌊((7 - 2 : Int) : ℚ) / ((2 : Int) : ℚ)⌋ + 1)) :=
  computeOutputDim_eq_floor 7 2 2 (by decide) (by decide)

/-- At `I = 0`, `P = 3`, `S = 2` the code returns `-3 / 2 + 1 = 0` (C++ division
truncates toward zero) while `floor((0 - 3) / 2) + 1 = -1`. -/
theorem computeOutputDim_floor_counterexample :
    computeOutputDim 0 3 2 = some 0 ∧
      ⌊(((0 : Int) - 3 : Int) : ℚ) / ((2 : Int) : ℚ)⌋ + 1 = -1 := by
  refine ⟨by decide, ?_⟩
  norm_num [Int.floor_eq_iff]

/-- Claim C3, amended: for every pool size `P ≤ I` and stride `S ≥ 1`, the
number of iterations of the kernel's row loop over an input of `I` rows (the
final `out_row`), and of its column loop over an input of `I` columns (the
final `out_col`), both equal `computeOutputDim I P S`. -/
theorem kernel_extent_eq_computeOutputDim {α : Type} [LinearOrder α] [Zero α]
    (inputs : Int → α) (I other result_rows result_cols P S chan_grp row out_row : Int)
    (mem : PoolMem α) (hS : 1 ≤ S) (hP : P ≤ I) :
    (maxpool_chan_input_row inputs I other result_rows result_cols P S chan_grp mem).map
        Prod.snd = computeOutputDim I P S ∧
    (maxpool_chan_input_col inputs other I result_rows result_cols P S chan_grp row out_row
        mem).map Prod.snd = computeOutputDim I P S := by
  obtain ⟨r, hr1, hr2⟩ := maxpool_chan_input_row_count inputs I other result_rows
    result_cols P S chan_grp mem hS
  obtain ⟨c, hc1, hc2⟩ := maxpool_chan_input_col_count inputs other I result_rows
    result_cols P S chan_grp row out_row mem hS
  rw [hr1, hc1, Option.map_some', Option.map_some', hr2, hc2]
  exact ⟨iterCount_eq_computeOutputDim I P S hS hP, iterCount_eq_computeOutputDim I P S hS hP⟩

/-- Claim C3 (amended) at `I = 5`, `P = 2`, `S = 2`. -/
theorem kernel_extent_eq_computeOutputDim_witness :
    (maxpool_chan_input_row (fun _ => (0 : Int)) 5 4 2 2 2 2 0 ⟨fun _ => 0, [], []⟩).map
        Prod.snd = computeOutputDim 5 2 2 ∧
    (maxpool_chan_input_col (fun _ => (0 : Int)) 4 5 2 2 2 2 0 0 0 ⟨fun _ => 0, [], []⟩).map
        Prod.snd = computeOutputDim 5 2 2 :=
  kernel_extent_eq_computeOutputDim (fun _ => (0 : Int)) 5 4 2 2 2 2 0 0 0
    ⟨fun _ => 0, [], []⟩ (by decide) (by decide)

/-- At `I = 3`, `P = 4`, `S = 2` the kernel's row loop runs zero times, while
`computeOutputDim 3 4 2 = -1 / 2 + 1 = 1`. -/
theorem kernel_extent_counterexample :
    (maxpool_chan_input_row (fun _ => (0 : Int)) 3 3 1 1 4 2 0 ⟨fun _ => 0, [], []⟩).map
        Prod.snd = some 0 ∧
    computeOutputDim 3 4 2 = some 1 := by
  decide

/-- Claim C4, amended: when the pool size exceeds the input extent (`I < P`) and
`S ≥ 1`, `computeOutputDim I P S` is 0 exactly when `S ≤ P - I < 2 * S`. -/
theorem computeOutputDim_pool_exceeds (I P S : Int) (hS : 1 ≤ S) (hP : I < P) :
    computeOutputDim I P S = some 0 ↔ (S ≤ P - I ∧ P - I < 2 * S) := by
  unfold computeOutputDim
  rw [if_neg (by omega)]
  have e : I - P = -(P - I) := by ring
  rw [e, Int.neg_tdiv, Int.tdiv_eq_ediv (by omega) (by omega)]
  have h1 : (P - I) / S = 1 ↔ (S ≤ P - I ∧ P - I < 2 * S) := by
    constructor
    · intro h
      have := Int.ediv_add_emod (P - I) S
      have := Int.emod_nonneg (P - I) (by omega : S ≠ 0)
      have := Int.emod_lt_of_pos (P - I) (by omega : 0 < S)
      rw [h] at *
      constructor <;> omega
    · rintro ⟨h1, h2⟩
      have a : 1 ≤ (P - I) / S := (Int.le_ediv_iff_mul_le (by omega)).2 (by omega)
      have b : (P - I) / S < 2 := Int.ediv_lt_of_lt_mul (by omega) (by omega)
      omega
  rw [← h1]
  constructor
  · intro h
    have := Option.some.inj h
    omega
  · intro h
    rw [h]; rfl

/-- Claim C4 (amended) at `I = 3`, `P = 5`, `S = 2`. -/
theorem computeOutputDim_pool_exceeds_witness :
    computeOutputDim 3 5 2 = some 0 ↔ ((2 : Int) ≤ 5 - 3 ∧ (5 : Int) - 3 < 2 * 2) :=
  computeOutputDim_pool_exceeds 3 5 2 (by decide) (by decide)

/-- With `P > I` the inferred extent need not be 0: it is 1 at `I = 3`, `P = 4`,
`S = 2`, and -4 at `I = 0`, `P = 5`, `S = 1`. -/
theorem computeOutputDim_pool_exceeds_counterexample :
    computeOutputDim 3 4 2 = some 1 ∧ computeOutputDim 0 5 1 = some (-4) := by
  decide

/-- Claim C5: when the pool size exceeds the input rows or the input columns
and the stride is at least 1, the kernel terminates having read no input
element and written nothing: the results buffer is unchanged and both access
logs are empty, whatever the channel count. -/
theorem maxpooling_degenerate_no_access {α : Type} [LinearOrder α] [Zero α]
    (inputs : Int → α) (curr_layer : layer_t) (results : Int → α)
    (hS : 1 ≤ curr_layer.field_stride)
    (hd : curr_layer.inputs.rows < curr_layer.weights.cols ∨
      curr_layer.inputs.cols < curr_layer.weights.cols) :
    maxpooling_nhwc_smiv_fxp inputs curr_layer results =
      some { results := results, reads := [], writes := [] } := by
  unfold maxpooling_nhwc_smiv_fxp
  simp only []
  exact foldlM_fixed _ _
    (fun g => maxpool_chan_input_row_degenerate inputs _ _ _ _ _ _ _ _ hS hd) _

/-- Claim C5 at a 2x5 input of 16 channels with pool size 3 and stride 2. -/
theorem maxpooling_degenerate_no_access_witness :
    maxpooling_nhwc_smiv_fxp (fun o => o) ⟨⟨2, 5, 16⟩, ⟨3, 3, 16⟩, ⟨0, 2, 16⟩, 2⟩ (fun _ => 7) =
      some { results := fun _ => 7, reads := [], writes := [] } :=
  maxpooling_degenerate_no_access (fun o => o) ⟨⟨2, 5, 16⟩, ⟨3, 3, 16⟩, ⟨0, 2, 16⟩, 2⟩
    (fun _ => 7) (by decide) (by decide)

/-! ## Softmax: what the kernel computes -/

/-- Reading a buffer after one assignment. -/
theorem Buf.get_set {α : Type} (b : Buf α) (i : Int) (v : α) (o : Int) :
    (b.set i v).get o = if o = i then v else b.get o := rfl

/-- A loop that assigns `buf[idx k]` for `k < n` leaves every other offset alone. -/
theorem foldl_set_get_other {α : Type} (idx : Nat → Int) (g : Nat → α → α) (o : Int) :
    ∀ (n : Nat) (r0 : Buf α), (∀ k, k < n → o ≠ idx k) →
      ((List.range n).foldl (fun r k => r.set (idx k) (g k (r.get (idx k)))) r0).get o =
        r0.get o := by
  intro n
  induction n with
  | zero => intro r0 _; rfl
  | succ n ih =>
    intro r0 h
    rw [List.range_succ, List.foldl_append]
    simp only [List.foldl_cons, List.foldl_nil, Buf.get_set]
    rw [if_neg (h n (Nat.lt_succ_self n))]
    exact ih r0 (fun k hk => h k (Nat.lt_succ_of_lt hk))

/-- A loop that replaces `buf[idx k]` by `g k buf[idx k]` for `k < n`, with `idx`
injective, does so for each `k < n`. -/
theorem foldl_set_get_idx {α : Type} (idx : Nat → Int) (g : Nat → α → α)
    (hinj : ∀ a b, idx a = idx b → a = b) :
    ∀ (n : Nat) (r0 : Buf α) (k : Nat), k < n →
      ((List.range n).foldl (fun r k => r.set (idx k) (g k (r.get (idx k)))) r0).get (idx k) =
        g k (r0.get (idx k)) := by
  intro n
  induction n with
  | zero => intro r0 k hk; omega
  | succ n ih =>
    intro r0 k hk
    rw [List.range_succ, List.foldl_append]
    simp only [List.foldl_cons, List.foldl_nil, Buf.get_set]
    by_cases hkn : k = n
    · subst hkn
      rw [if_pos rfl, foldl_set_get_other idx g (idx k) k r0
        (fun j hj e => by have := hinj _ _ e; omega)]
    · rw [if_neg (fun e => hkn (hinj _ _ e))]
      exact ih r0 k (by omega)

/-- The accumulation loop `acc += h k` computes a finite sum. -/
theorem foldl_add_eq_sum {α : Type} [Field α] (h : Nat → α) :
    ∀ (n : Nat) (a : α),
      (List.range n).foldl (fun acc k => acc + h k) a = a + ∑ k in Finset.range n, h k := by
  intro n
  induction n with
  | zero => intro a; simp
  | succ n ih =>
    intro a
    rw [List.range_succ, List.foldl_append, ih, Finset.sum_range_succ]
    simp [add_assoc]

/-- Different columns of one row have different offsets. -/
theorem ARRAY_2D_inj (d1 i : Int) (a b : Nat)
    (e : ARRAY_2D d1 i (a : Int) = ARRAY_2D d1 i (b : Int)) : a = b := by
  unfold ARRAY_2D at e
  omega

/-- The row formula: what `softmax_normalize` leaves in row `i`, given `max_elem`. -/
theorem softmax_normalize_get {α : Type} [Field α] (exp : α → α) (inputs : Int → α)
    (d1 i : Int) (n : Nat) (max_elem : α) (results : Buf α) (k : Nat) (hk : k < n) :
    (softmax_normalize exp inputs d1 i n max_elem results).get (ARRAY_2D d1 i k) =
      exp (inputs (ARRAY_2D d1 i k) - max_elem) *
        (1 / (∑ j in Finset.range n, exp (inputs (ARRAY_2D d1 i j) - max_elem)
          + 1 / 1000000)) := by
  unfold softmax_normalize
  simp only [forRange_zero]
  have hinj := ARRAY_2D_inj d1 i
  rw [foldl_set_get_idx (fun k : Nat => ARRAY_2D d1 i k) (fun _ v => v * _) hinj n _ k hk,
    foldl_set_get_idx (fun k : Nat => ARRAY_2D d1 i k) (fun _ v => exp v) hinj n _ k hk,
    foldl_set_get_idx (fun k : Nat => ARRAY_2D d1 i k)
      (fun k _ => inputs (ARRAY_2D d1 i k) - max_elem) hinj n _ k hk,
    foldl_add_eq_sum, zero_add]
  congr 3
  apply Finset.sum_congr rfl
  intro j hj
  rw [foldl_set_get_idx (fun k : Nat => ARRAY_2D d1 i k) (fun _ v => exp v) hinj n _ j
      (Finset.mem_range.1 hj),
    foldl_set_get_idx (fun k : Nat => ARRAY_2D d1 i k)
      (fun k _ => inputs (ARRAY_2D d1 i k) - max_elem) hinj n _ j (Finset.mem_range.1 hj)]

/-- Offsets outside row `i` are left alone by `softmax_normalize`. -/
theorem softmax_normalize_get_other {α : Type} [Field α] (exp : α → α) (inputs : Int → α)
    (d1 i : Int) (n : Nat) (max_elem : α) (results : Buf α) (o : Int)
    (ho : ∀ k : Nat, k < n → o ≠ ARRAY_2D d1 i k) :
    (softmax_normalize exp inputs d1 i n max_elem results).get o = results.get o := by
  unfold softmax_normalize
  simp only [forRange_zero]
  rw [foldl_set_get_other (fun k : Nat => ARRAY_2D d1 i k) (fun _ v => v * _) o n _ ho,
    foldl_set_get_other (fun k : Nat => ARRAY_2D d1 i k) (fun _ v => exp v) o n _ ho,
    foldl_set_get_other (fun k : Nat => ARRAY_2D d1 i k)
      (fun k _ => inputs (ARRAY_2D d1 i k) - max_elem) o n _ ho]

/-- The maximum loops always terminate. -/
theorem softmax_max_elem_some {α : Type} [LinearOrder α] [Neg α] [NatCast α]
    (inputs : Int → α) (d1 i input_size max8_remainder : Int) :
    ∃ M, softmax_max_elem inputs d1 i input_size max8_remainder = some M := by
  unfold softmax_max_elem softmax_max_loop0
  rw [forLoop_eq_foldlM _ _ _ (by decide) _ _ _ (by omega)]
  obtain ⟨m, hm⟩ := foldlM_some
    (fun (m : α) (k : Nat) => some (max9 m
      (inputs (ARRAY_2D d1 i (0 + k * 8))) (inputs (ARRAY_2D d1 i (0 + k * 8 + 1)))
      (inputs (ARRAY_2D d1 i (0 + k * 8 + 2))) (inputs (ARRAY_2D d1 i (0 + k * 8 + 3)))
      (inputs (ARRAY_2D d1 i (0 + k * 8 + 4))) (inputs (ARRAY_2D d1 i (0 + k * 8 + 5)))
      (inputs (ARRAY_2D d1 i (0 + k * 8 + 6))) (inputs (ARRAY_2D d1 i (0 + k * 8 + 7)))))
    (fun s k => ⟨_, rfl⟩)
    (List.range (iterCount 0 (input_size - max8_remainder) 8)) (-FLT_MAX)
  rw [hm]
  exact ⟨_, rfl⟩

/-- An element of row `i` within the row length is at a different offset from any
element of a later row `m`. -/
theorem ARRAY_2D_row_ne (d1 : Int) (hd : 0 ≤ d1) (i m k k1 : Nat) (him : i < m)
    (hk : (k : Int) < d1) : ARRAY_2D d1 i k ≠ ARRAY_2D d1 m k1 := by
  unfold ARRAY_2D
  intro e
  have h1 : ((i : Int) + 1) * d1 ≤ (m : Int) * d1 :=
    mul_le_mul_of_nonneg_right (by exact_mod_cast him) hd
  have h2 : (0 : Int) ≤ k1 := Int.natCast_nonneg k1
  nlinarith

/-- The whole kernel: it terminates, and every element of every row holds the
row formula for the `max_elem` that the maximum loops computed for that row. -/
theorem ref_softmax_f32_nc_get {α : Type} [LinearOrderedField α] (exp : α → α)
    (inputs : Int → α) (results : Buf α) (input_num input_size input_pad : Nat) :
    ∃ out, ref_softmax_f32_nc exp inputs results input_num input_size input_pad = some out ∧
      ∀ i k : Nat, i < input_num → k < input_size →
        ∃ M, softmax_max_elem inputs ((input_size : Int) + input_pad) i input_size
              ((input_size : Int) - input_size / 8 * 8) = some M ∧
          out.get (ARRAY_2D ((input_size : Int) + input_pad) i k) =
            exp (inputs (ARRAY_2D ((input_size : Int) + input_pad) i k) - M) *
              (1 / (∑ j in Finset.range input_size,
                exp (inputs (ARRAY_2D ((input_size : Int) + input_pad) i j) - M)
                + 1 / 1000000)) := by
  unfold ref_softmax_f32_nc
  simp only [Int.toNat_ofNat]
  have hd0 : (0 : Int) ≤ (input_size : Int) + input_pad := by omega
  have hdn : (input_size : Int) ≤ (input_size : Int) + input_pad := by omega
  generalize (input_size : Int) + input_pad = d1 at hd0 hdn ⊢
  generalize (input_size : Int) - input_size / 8 * 8 = rem
  induction input_num with
  | zero => exact ⟨results, rfl, fun i k hi _ => absurd hi (Nat.not_lt_zero i)⟩
  | succ m ih =>
    obtain ⟨out, ho, hrow⟩ := ih
    obtain ⟨M, hM⟩ := softmax_max_elem_some inputs d1 m input_size rem
    refine ⟨softmax_normalize exp inputs d1 m input_size M out, ?_, ?_⟩
    · rw [List.range_succ, List.foldlM_append, ho]
      simp [hM]
    · intro i k hi hk
      by_cases him : i = m
      · subst him
        exact ⟨M, hM, softmax_normalize_get exp inputs d1 i input_size M out k hk⟩
      · obtain ⟨Mi, hMi, hget⟩ := hrow i k (by omega) hk
        refine ⟨Mi, hMi, ?_⟩
        rw [softmax_normalize_get_other exp inputs d1 m input_size M out _
          (fun k1 _ => ARRAY_2D_row_ne d1 hd0 i m k k1 (by omega) (by omega))]
        exact hget

/-! ## Softmax on rows of at least 8 elements

When `input_size ≥ 8` the second maximum loop starts inside the row, and the
kernel is the reference softmax. -/

/-- The macro `max2` is the maximum of the order. -/
theorem max2_eq_max {α : Type} [LinearOrder α] (a b : α) : max2 a b = max a b := by
  unfold max2
  split_ifs with h
  · exact (max_eq_left (le_of_lt h)).symm
  · exact (max_eq_right (not_lt.1 h)).symm

/-- For rows of at least 8 elements, all at least `-FLT_MAX`, the maximum loops
compute the greatest element of the row. -/
theorem softmax_max_elem_isGreatest {α : Type} [LinearOrderedField α]
    (inputs : Int → α) (d1 i : Int) (n : Nat) (hn : 8 ≤ n)
    (hfin : ∀ k : Nat, k < n → -FLT_MAX ≤ inputs (ARRAY_2D d1 i k)) :
    ∃ M, softmax_max_elem inputs d1 i n ((n : Int) - n / 8 * 8) = some M ∧
      (∀ k : Nat, k < n → inputs (ARRAY_2D d1 i k) ≤ M) ∧
      (∃ k : Nat, k < n ∧ M = inputs (ARRAY_2D d1 i k)) := by
  -- `A m`: `m` is the initial value or an element of the row
  let A : α → Prop := fun m =>
    m = -FLT_MAX ∨ ∃ j : Int, 0 ≤ j ∧ j < n ∧ m = inputs (ARRAY_2D d1 i j)
  -- `P B m`: `m` bounds the elements below index `B`, and `A m`
  let P : Int → α → Prop := fun B m =>
    (∀ j : Int, 0 ≤ j → j < B → inputs (ARRAY_2D d1 i j) ≤ m) ∧ A m
  have hA : ∀ a b, A a → A b → A (max a b) := by
    intro a b ha hb
    rcases max_choice a b with h | h
    · rw [h]; exact ha
    · rw [h]; exact hb
  have hAx : ∀ j : Int, 0 ≤ j → j < n → A (inputs (ARRAY_2D d1 i j)) :=
    fun j h0 h1 => Or.inr ⟨j, h0, h1, rfl⟩
  obtain ⟨q, hq⟩ : ∃ q : Nat, (q : Int) = (n : Int) / 8 := ⟨n / 8, by omega⟩
  have hq1 : 1 ≤ q := by omega
  have hqn : 8 * q ≤ n := by omega
  have e0 : (n : Int) - ((n : Int) - n / 8 * 8) = (q : Int) * 8 := by omega
  have e1 : (n : Int) - ((n : Int) - n / 8 * 8) - 1 = (q : Int) * 8 - 1 := by omega
  unfold softmax_max_elem softmax_max_loop0 softmax_max_loop1 forRange
  rw [e1, e0, forLoop_eq_foldlM _ _ _ (by decide : (1 : Int) ≤ 8) _ _ _ (by omega)]
  have ec : iterCount 0 ((q : Int) * 8) 8 = q := by unfold iterCount; omega
  have et : ((n : Int) - ((q : Int) * 8 - 1)).toNat = n - 8 * q + 1 := by omega
  rw [ec, et]
  -- loop 0
  obtain ⟨M0, hM0, hP0⟩ := foldlM_range_invariant (fun k m => P (8 * k) m)
    (fun (m : α) (k : Nat) => max9 m
      (inputs (ARRAY_2D d1 i (0 + k * 8))) (inputs (ARRAY_2D d1 i (0 + k * 8 + 1)))
      (inputs (ARRAY_2D d1 i (0 + k * 8 + 2))) (inputs (ARRAY_2D d1 i (0 + k * 8 + 3)))
      (inputs (ARRAY_2D d1 i (0 + k * 8 + 4))) (inputs (ARRAY_2D d1 i (0 + k * 8 + 5)))
      (inputs (ARRAY_2D d1 i (0 + k * 8 + 6))) (inputs (ARRAY_2D d1 i (0 + k * 8 + 7))))
    q (-FLT_MAX)
    ⟨fun j h0 h1 => by omega, Or.inl rfl⟩
    (by
      intro k m hk ⟨hb, ha⟩
      simp only [max9, max2_eq_max]
      constructor
      · intro j h0 h1
        by_cases hj : j < 8 * (k : Int)
        · have := hb j h0 hj
          simp only [le_max_iff]
          tauto
        · have hc : j = 0 + (k : Int) * 8 ∨ j = 0 + (k : Int) * 8 + 1 ∨
              j = 0 + (k : Int) * 8 + 2 ∨ j = 0 + (k : Int) * 8 + 3 ∨
              j = 0 + (k : Int) * 8 + 4 ∨ j = 0 + (k : Int) * 8 + 5 ∨
              j = 0 + (k : Int) * 8 + 6 ∨ j = 0 + (k : Int) * 8 + 7 := by
            push_cast at h1; omega
          rcases hc with h | h | h | h | h | h | h | h <;> subst h <;>
            simp only [le_max_iff, le_refl, true_or, or_true]
      · refine hA _ _ (hA _ _ (hA _ _ (hA _ _ ha ?_) (hA _ _ ?_ ?_))
          (hA _ _ (hA _ _ ?_ ?_) (hA _ _ ?_ ?_))) ?_ <;>
          exact hAx _ (by omega) (by omega))
  rw [hM0, Option.map_some']
  -- loop 1
  have hP1 := foldl_range_invariant
    (fun t m => P ((q : Int) * 8 - 1 + t) m)
    (fun (m : α) (t : Nat) => max2 m (inputs (ARRAY_2D d1 i ((q : Int) * 8 - 1 + t))))
    (n - 8 * q + 1) M0
    ⟨fun j h0 h1 => hP0.1 j h0 (by omega), hP0.2⟩
    (by
      intro t m ht ⟨hb, ha⟩
      simp only [max2_eq_max]
      constructor
      · intro j h0 h1
        by_cases hj : j < (q : Int) * 8 - 1 + t
        · exact le_max_of_le_left (hb j h0 hj)
        · have : j = (q : Int) * 8 - 1 + t := by push_cast at h1; omega
          subst this
          exact le_max_right _ _
      · exact hA _ _ ha (hAx _ (by omega) (by omega)))
  refine ⟨_, rfl, ?_, ?_⟩
  · intro k hk
    exact hP1.1 k (by omega) (by push_cast; omega)
  · rcases hP1.2 with h | ⟨j, h0, h1, h⟩
    · refine ⟨0, by omega, ?_⟩
      have h2 := hP1.1 0 (le_refl 0) (by push_cast; omega)
      have h3 := hfin 0 (by omega)
      rw [Nat.cast_zero] at h3
      rw [h] at h2 ⊢
      exact le_antisymm h3 h2
    · lift j to ℕ using h0
      exact ⟨j, by exact_mod_cast h1, h⟩

/-- On rows of at least 8 elements, all at least `-FLT_MAX`, the kernel computes
the reference softmax: every element is `exp(x - m) / (sum of exp(x_j - m) + 1e-6)`
for the greatest element `m` of its row. -/
theorem ref_softmax_f32_nc_reference {α : Type} [LinearOrderedField α] (exp : α → α)
    (inputs : Int → α) (results : Buf α) (input_num input_size input_pad : Nat)
    (hn : 8 ≤ input_size)
    (hfin : ∀ i k : Nat, i < input_num → k < input_size →
      -FLT_MAX ≤ inputs (ARRAY_2D ((input_size : Int) + input_pad) i k)) :
    ∃ out, ref_softmax_f32_nc exp inputs results input_num input_size input_pad = some out ∧
      ∀ i k : Nat, i < input_num → k < input_size →
        ∃ m, (∀ j : Nat, j < input_size →
              inputs (ARRAY_2D ((input_size : Int) + input_pad) i j) ≤ m) ∧
          (∃ j : Nat, j < input_size ∧
              m = inputs (ARRAY_2D ((input_size : Int) + input_pad) i j)) ∧
          out.get (ARRAY_2D ((input_size : Int) + input_pad) i k) =
            exp (inputs (ARRAY_2D ((input_size : Int) + input_pad) i k) - m) /
              (∑ j in Finset.range input_size,
                exp (inputs (ARRAY_2D ((input_size : Int) + input_pad) i j) - m)
                + 1 / 1000000) := by
  obtain ⟨out, ho, h⟩ := ref_softmax_f32_nc_get exp inputs results input_num input_size
    input_pad
  refine ⟨out, ho, ?_⟩
  intro i k hi hk
  obtain ⟨M, hM, hget⟩ := h i k hi hk
  obtain ⟨m, hm, hub, hatt⟩ := softmax_max_elem_isGreatest inputs
    ((input_size : Int) + input_pad) i input_size hn (fun j hj => hfin i j hi hj)
  rw [hm] at hM
  have e : m = M := Option.some.inj hM
  subst e
  exact ⟨m, hub, hatt, by rw [hget, mul_one_div]⟩

/-- On rows of at least 8 elements, all at least `-FLT_MAX`, every output row
sums to 1 within `1e-5`. -/
theorem ref_softmax_f32_nc_row_sum (inputs : Int → ℝ) (results : Buf ℝ)
    (input_num input_size input_pad : Nat) (hn : 8 ≤ input_size)
    (hfin : ∀ i k : Nat, i < input_num → k < input_size →
      -FLT_MAX ≤ inputs (ARRAY_2D ((input_size : Int) + input_pad) i k)) :
    ∃ out, ref_softmax_f32_nc Real.exp inputs results input_num input_size input_pad
        = some out ∧
      ∀ i : Nat, i < input_num →
        |∑ k in Finset.range input_size,
            out.get (ARRAY_2D ((input_size : Int) + input_pad) i k) - 1| ≤ 1 / 100000 := by
  obtain ⟨out, ho, h⟩ := ref_softmax_f32_nc_reference Real.exp inputs results input_num
    input_size input_pad hn hfin
  refine ⟨out, ho, ?_⟩
  intro i hi
  obtain ⟨m, hub, ⟨j0, hj0, hatt⟩, -⟩ := h i 0 hi (by omega)
  set S := ∑ j in Finset.range input_size,
    Real.exp (inputs (ARRAY_2D ((input_size : Int) + input_pad) i j) - m) with hS
  have hrow : ∀ k ∈ Finset.range input_size,
      out.get (ARRAY_2D ((input_size : Int) + input_pad) i k) =
        Real.exp (inputs (ARRAY_2D ((input_size : Int) + input_pad) i k) - m) /
          (S + 1 / 1000000) := by
    intro k hk
    obtain ⟨m1, hub1, ⟨j1, hj1, hatt1⟩, hget⟩ := h i k hi (Finset.mem_range.1 hk)
    have e : m1 = m := le_antisymm (hatt1 ▸ hub j1 hj1) (hatt ▸ hub1 j0 hj0)
    subst e
    exact hget
  rw [Finset.sum_congr rfl hrow, ← Finset.sum_div, ← hS]
  have hS1 : 1 ≤ S := by
    have h1 : Real.exp (inputs (ARRAY_2D ((input_size : Int) + input_pad) i j0) - m) ≤ S := by
      rw [hS]
      exact Finset.single_le_sum (f := fun j : Nat =>
        Real.exp (inputs (ARRAY_2D ((input_size : Int) + input_pad) i j) - m))
        (fun j _ => (Real.exp_pos _).le) (Finset.mem_range.2 hj0)
    rw [← hatt, sub_self, Real.exp_zero] at h1
    exact h1
  have hx : S / (S + 1 / 1000000) - 1 = -(1 / 1000000) / (S + 1 / 1000000) := by
    field_simp
  rw [hx, abs_div, abs_neg, abs_of_pos (by norm_num : (0 : ℝ) < 1 / 1000000),
    abs_of_pos (by linarith : 0 < S + 1 / 1000000), div_le_iff₀ (by linarith)]
  linarith

/-- On rows of at least 8 elements, all at least `-FLT_MAX` before and after the
shift, adding a constant `c` to every element of row `i` leaves output row `i`
unchanged. -/
theorem ref_softmax_f32_nc_shift_invariant {α : Type} [LinearOrderedField α] (exp : α → α)
    (inputs inputs1 : Int → α) (results results1 : Buf α)
    (input_num input_size input_pad : Nat) (hn : 8 ≤ input_size) (i : Nat)
    (hi : i < input_num) (c : α)
    (hfin : ∀ i k : Nat, i < input_num → k < input_size →
      -FLT_MAX ≤ inputs (ARRAY_2D ((input_size : Int) + input_pad) i k))
    (hfin1 : ∀ i k : Nat, i < input_num → k < input_size →
      -FLT_MAX ≤ inputs1 (ARRAY_2D ((input_size : Int) + input_pad) i k))
    (hrow : ∀ k : Nat, k < input_size →
      inputs1 (ARRAY_2D ((input_size : Int) + input_pad) i k) =
        inputs (ARRAY_2D ((input_size : Int) + input_pad) i k) + c) :
    ∃ out out1,
      ref_softmax_f32_nc exp inputs results input_num input_size input_pad = some out ∧
      ref_softmax_f32_nc exp inputs1 results1 input_num input_size input_pad = some out1 ∧
      ∀ k : Nat, k < input_size →
        out1.get (ARRAY_2D ((input_size : Int) + input_pad) i k) =
          out.get (ARRAY_2D ((input_size : Int) + input_pad) i k) := by
  obtain ⟨out, ho, h⟩ := ref_softmax_f32_nc_reference exp inputs results input_num
    input_size input_pad hn hfin
  obtain ⟨out1, ho1, h1⟩ := ref_softmax_f32_nc_reference exp inputs1 results1 input_num
    input_size input_pad hn hfin1
  refine ⟨out, out1, ho, ho1, ?_⟩
  intro k hk
  obtain ⟨m, hub, ⟨j0, hj0, hatt⟩, hget⟩ := h i k hi hk
  obtain ⟨m1, hub1, ⟨j1, hj1, hatt1⟩, hget1⟩ := h1 i k hi hk
  have e : m1 = m + c := by
    apply le_antisymm
    · rw [hatt1, hrow j1 hj1]; exact add_le_add_right (hub j1 hj1) c
    · have := hub1 j0 hj0
      rw [hrow j0 hj0, ← hatt] at this
      exact this
  subst e
  have hc : ∀ x : α, x + c - (m + c) = x - m := fun x => by ring
  rw [hget, hget1, hrow k hk, hc]
  congr 2
  exact Finset.sum_congr rfl (fun j hj => by rw [hrow j (Finset.mem_range.1 hj), hc])

/-- On rows of at least 8 elements, all at least `-FLT_MAX`, output row `i`
depends on input row `i` only. -/
theorem ref_softmax_f32_nc_row_independent {α : Type} [LinearOrderedField α] (exp : α → α)
    (inputs inputs1 : Int → α) (results results1 : Buf α)
    (input_num input_size input_pad : Nat) (hn : 8 ≤ input_size) (i : Nat)
    (hi : i < input_num)
    (hfin : ∀ i k : Nat, i < input_num → k < input_size →
      -FLT_MAX ≤ inputs (ARRAY_2D ((input_size : Int) + input_pad) i k))
    (hfin1 : ∀ i k : Nat, i < input_num → k < input_size →
      -FLT_MAX ≤ inputs1 (ARRAY_2D ((input_size : Int) + input_pad) i k))
    (hrow : ∀ k : Nat, k < input_size →
      inputs1 (ARRAY_2D ((input_size : Int) + input_pad) i k) =
        inputs (ARRAY_2D ((input_size : Int) + input_pad) i k)) :
    ∃ out out1,
      ref_softmax_f32_nc exp inputs results input_num input_size input_pad = some out ∧
      ref_softmax_f32_nc exp inputs1 results1 input_num input_size input_pad = some out1 ∧
      ∀ k : Nat, k < input_size →
        out1.get (ARRAY_2D ((input_size : Int) + input_pad) i k) =
          out.get (ARRAY_2D ((input_size : Int) + input_pad) i k) := by
  obtain ⟨out, ho, h⟩ := ref_softmax_f32_nc_reference exp inputs results input_num
    input_size input_pad hn hfin
  obtain ⟨out1, ho1, h1⟩ := ref_softmax_f32_nc_reference exp inputs1 results1 input_num
    input_size input_pad hn hfin1
  refine ⟨out, out1, ho, ho1, ?_⟩
  intro k hk
  obtain ⟨m, hub, ⟨j0, hj0, hatt⟩, hget⟩ := h i k hi hk
  obtain ⟨m1, hub1, ⟨j1, hj1, hatt1⟩, hget1⟩ := h1 i k hi hk
  have e : m1 = m := by
    apply le_antisymm
    · rw [hatt1, hrow j1 hj1]; exact hub j1 hj1
    · rw [hatt, ← hrow j0 hj0]; exact hub1 j0 hj0
  subst e
  rw [hget, hget1, hrow k hk]
  congr 2
  exact Finset.sum_congr rfl (fun j hj => by rw [hrow j (Finset.mem_range.1 hj)])

/-! ## Softmax on short rows

When `input_size < 8` the second maximum loop starts at `j = -1`, the element
before the row. -/

/-- For `input_size = 1` the second maximum loop starts at `j = -1`: `max_elem`
is the maximum of `-FLT_MAX`, the element before the row, and the row's element. -/
theorem softmax_max_elem_size1 {α : Type} [LinearOrder α] [Neg α] [NatCast α]
    (inputs : Int → α) (d1 i : Int) :
    softmax_max_elem inputs d1 i 1 (1 - 1 / 8 * 8) =
      some (max2 (max2 (-FLT_MAX) (inputs (ARRAY_2D d1 i (-1)))) (inputs (ARRAY_2D d1 i 0))) := by
  have e1 : ((1 : Int) - (1 - 1 / 8 * 8)) = 0 := by decide
  have e2 : ((1 : Int) - (1 - 1 / 8 * 8) - 1) = -1 := by decide
  have e3 : ((1 : Int) - -1).toNat = 2 := by decide
  unfold softmax_max_elem softmax_max_loop0 softmax_max_loop1 forRange
  rw [e2, e1, e3]
  simp [forLoop, List.range_succ]

/-- A batch of two rows of one element, `[[a], [b]]`, with `p` at every offset
outside the batch and any initial `results`: the kernel terminates and row 1
holds the row formula for `max_elem = max(-FLT_MAX, a, b)`. -/
theorem softmax_two_rows_of_one (a b p : ℝ) (results : Buf ℝ) :
    ∃ out, ref_softmax_f32_nc Real.exp (fun o => if o = 0 then a else if o = 1 then b else p)
        results 2 1 0 = some out ∧
      out.get (ARRAY_2D 1 1 0) =
        Real.exp (b - max2 (max2 (-FLT_MAX) a) b) *
          (1 / (Real.exp (b - max2 (max2 (-FLT_MAX) a) b) + 1 / 1000000)) := by
  obtain ⟨out, ho, h⟩ := ref_softmax_f32_nc_get Real.exp
    (fun o => if o = 0 then a else if o = 1 then b else p) results 2 1 0
  obtain ⟨M, hM, hget⟩ := h 1 0 (by decide) (by decide)
  refine ⟨out, by simpa using ho, ?_⟩
  have hM1 : M = max2 (max2 (-FLT_MAX) a) b := by
    have := softmax_max_elem_size1 (fun o : Int => if o = 0 then a else if o = 1 then b else p) 1 1
    simp only [Nat.cast_one, Nat.cast_zero, add_zero] at hM
    rw [this] at hM
    rw [← Option.some.inj hM]
    norm_num [ARRAY_2D]
  subst hM1
  simpa [ARRAY_2D] using hget

/-- The maximum of `-FLT_MAX`, a non-negative `a` and some `b ≤ a` is `a`. -/
theorem max2_FLT_MAX (a b : ℝ) (ha : 0 ≤ a) (hb : b ≤ a) :
    max2 (max2 (-FLT_MAX) a) b = a := by
  have h1 : (-FLT_MAX : ℝ) < 0 := by norm_num [FLT_MAX]
  have e1 : max2 (-FLT_MAX : ℝ) a = a := by
    unfold max2
    rw [if_neg (by rw [gt_iff_lt, not_lt]; linarith)]
  rw [e1]
  unfold max2
  split_ifs with h
  · rfl
  · rw [gt_iff_lt, not_lt] at h
    exact le_antisymm hb h

/-- Claim C6, evaluated at a failing input: the batch `[[5], [0]]` with
`input_size = 1`, `input_pad = 0`, whatever the memory around the batch (`p`) and
the initial `results` hold.  For row 1 the second maximum loop starts at
`j = -1` and reads the 5 of row 0, so `max_elem = 5` and the kernel writes
`exp(0 - 5) / (exp(0 - 5) + 1e-6)`, not the reference value
`exp(0 - 0) / (exp(0 - 0) + 1e-6)` for the row maximum 0. -/
theorem softmax_max_includes_previous_element (p : ℝ) (results : Buf ℝ) :
    ∃ out, ref_softmax_f32_nc Real.exp (fun o => if o = 0 then 5 else if o = 1 then 0 else p)
        results 2 1 0 = some out ∧
      out.get (ARRAY_2D 1 1 0) = Real.exp (0 - 5) * (1 / (Real.exp (0 - 5) + 1 / 1000000)) ∧
      out.get (ARRAY_2D 1 1 0) ≠ Real.exp (0 - 0) / (Real.exp (0 - 0) + 1 / 1000000) := by
  obtain ⟨out, ho, hv⟩ := softmax_two_rows_of_one 5 0 p results
  rw [max2_FLT_MAX 5 0 (by norm_num) (by norm_num)] at hv
  refine ⟨out, ho, hv, ?_⟩
  rw [hv]
  have hlt : Real.exp (0 - 5) < 1 := Real.exp_lt_one_iff.2 (by norm_num)
  have hpos : 0 < Real.exp (0 - 5) := Real.exp_pos _
  rw [sub_self, Real.exp_zero, mul_one_div, Ne, div_eq_div_iff (by positivity) (by positivity)]
  intro e
  generalize Real.exp (0 - 5) = x at hlt e
  linarith

/-- Claim C7, evaluated at a failing input: the batch `[[20], [0]]` with
`input_size = 1`, `input_pad = 0`, whatever the memory around the batch (`p`) and
the initial `results` hold.  Row 1 is normalised with `max_elem = 20`, and its
sum `exp(-20) / (exp(-20) + 1e-6)` is further than `1e-5` from 1. -/
theorem softmax_row_sum_far_from_one (p : ℝ) (results : Buf ℝ) :
    ∃ out, ref_softmax_f32_nc Real.exp (fun o => if o = 0 then 20 else if o = 1 then 0 else p)
        results 2 1 0 = some out ∧
      |∑ j in Finset.range 1, out.get (ARRAY_2D 1 1 (j : Nat)) - 1| > 1 / 100000 := by
  obtain ⟨out, ho, hv⟩ := softmax_two_rows_of_one 20 0 p results
  rw [max2_FLT_MAX 20 0 (by norm_num) (by norm_num)] at hv
  refine ⟨out, ho, ?_⟩
  rw [Finset.sum_range_one, Nat.cast_zero, hv]
  have hpos : 0 < Real.exp (0 - 20) := Real.exp_pos _
  have hsmall : Real.exp (0 - 20) ≤ 1 / 21 := by
    have h1 : (20 : ℝ) + 1 ≤ Real.exp 20 := Real.add_one_le_exp 20
    rw [zero_sub, Real.exp_neg, inv_eq_one_div]
    exact one_div_le_one_div_of_le (by norm_num) (by linarith)
  generalize Real.exp (0 - 20) = x at hpos hsmall
  have hx : x * (1 / (x + 1 / 1000000)) - 1 = -(1 / 1000000) / (x + 1 / 1000000) := by
    field_simp
  rw [hx, abs_div, abs_neg, abs_of_pos (by norm_num : (0 : ℝ) < 1 / 1000000),
    abs_of_pos (by linarith : 0 < x + 1 / 1000000), gt_iff_lt, lt_div_iff₀ (by linarith)]
  linarith

/-- Claim C8, evaluated at a failing input: the batch `[[5], [0]]` and the batch
`[[5], [0 + 10]]` in which 10 has been added to every element of row 1, with
`input_size = 1`, `input_pad = 0`, whatever the memory around the batch (`p`) and
the initial `results` hold.  The two output rows 1 differ. -/
theorem softmax_not_shift_invariant (p : ℝ) (results : Buf ℝ) :
    ∃ out out1,
      ref_softmax_f32_nc Real.exp (fun o => if o = 0 then 5 else if o = 1 then 0 else p)
        results 2 1 0 = some out ∧
      ref_softmax_f32_nc Real.exp (fun o => if o = 0 then 5 else if o = 1 then 0 + 10 else p)
        results 2 1 0 = some out1 ∧
      out.get (ARRAY_2D 1 1 0) ≠ out1.get (ARRAY_2D 1 1 0) := by
  obtain ⟨out, ho, hv⟩ := softmax_two_rows_of_one 5 0 p results
  obtain ⟨out1, ho1, hv1⟩ := softmax_two_rows_of_one 5 (0 + 10) p results
  rw [max2_FLT_MAX 5 0 (by norm_num) (by norm_num)] at hv
  have hM : max2 (max2 (-FLT_MAX) (5 : ℝ)) (0 + 10) = 0 + 10 := by
    norm_num [max2, FLT_MAX]
  rw [hM] at hv1
  refine ⟨out, out1, ho, ho1, ?_⟩
  rw [hv, hv1]
  have hlt : Real.exp (0 - 5) < 1 := Real.exp_lt_one_iff.2 (by norm_num)
  have hpos : 0 < Real.exp (0 - 5) := Real.exp_pos _
  rw [sub_self, Real.exp_zero, mul_one_div, mul_one_div, Ne,
    div_eq_div_iff (by positivity) (by positivity)]
  intro e
  generalize Real.exp (0 - 5) = x at hlt e
  linarith

/-- Claim C9, evaluated at a failing input: the batches `[[5], [0]]` and
`[[0], [0]]`, with `input_size = 1`, `input_pad = 0`, whatever the memory around
the batch (`p`) and the initial `results` hold, agree on row 1, but their output
rows 1 differ: row 1 of the output depends on the last element of row 0. -/
theorem softmax_row_depends_on_previous_row (p : ℝ) (results : Buf ℝ) :
    ∃ out out1,
      ref_softmax_f32_nc Real.exp (fun o => if o = 0 then 5 else if o = 1 then 0 else p)
        results 2 1 0 = some out ∧
      ref_softmax_f32_nc Real.exp (fun o => if o = 0 then 0 else if o = 1 then 0 else p)
        results 2 1 0 = some out1 ∧
      out.get (ARRAY_2D 1 1 0) ≠ out1.get (ARRAY_2D 1 1 0) := by
  obtain ⟨out, ho, hv⟩ := softmax_two_rows_of_one 5 0 p results
  obtain ⟨out1, ho1, hv1⟩ := softmax_two_rows_of_one 0 0 p results
  rw [max2_FLT_MAX 5 0 (by norm_num) (by norm_num)] at hv
  rw [max2_FLT_MAX 0 0 (by norm_num) (by norm_num)] at hv1
  refine ⟨out, out1, ho, ho1, ?_⟩
  rw [hv, hv1]
  have hlt : Real.exp (0 - 5) < 1 := Real.exp_lt_one_iff.2 (by norm_num)
  have hpos : 0 < Real.exp (0 - 5) := Real.exp_pos _
  rw [sub_self, Real.exp_zero, mul_one_div, mul_one_div, Ne,
    div_eq_div_iff (by positivity) (by positivity)]
  intro e
  generalize Real.exp (0 - 5) = x at hlt e
  linarith

/-! ## SIMD relu -/

/-- One iteration of the relu loop, read at offset `j`. -/
theorem relu_step_apply {α : Type} [LinearOrder α] [Zero α] (mem : Nat → α) (i j : Nat) :
    vec_store mem i (VEC128_MASK (vec_load mem i) ((vec_load mem i).gt ⟨fun _ => 0⟩)) j =
      if _VECTOR_WIDTH * i ≤ j ∧ j < _VECTOR_WIDTH * i + _VECTOR_WIDTH then
        (if mem (_VECTOR_WIDTH * i + (j - _VECTOR_WIDTH * i)) > 0
          then mem (_VECTOR_WIDTH * i + (j - _VECTOR_WIDTH * i)) else 0)
      else mem j := by
  simp only [vec_store, VEC128_MASK, vec_load, v4fp_t.gt, decide_eq_true_eq]

/-- After `n` iterations of the relu loop the first `4 * n` elements are rectified
and the others are unchanged. -/
theorem relu_foldl_get {α : Type} [LinearOrder α] [Zero α] (x : Nat → α) :
    ∀ (n j : Nat),
      ((List.range n).foldl
        (fun mem i => vec_store mem i
          (VEC128_MASK (vec_load mem i) ((vec_load mem i).gt ⟨fun _ => 0⟩))) x) j =
        if j < _VECTOR_WIDTH * n then max (x j) 0 else x j := by
  have hw : _VECTOR_WIDTH = 4 := rfl
  intro n
  induction n with
  | zero => intro j; simp
  | succ n ih =>
    intro j
    rw [List.range_succ, List.foldl_append, List.foldl_cons, List.foldl_nil, relu_step_apply]
    by_cases h1 : _VECTOR_WIDTH * n ≤ j ∧ j < _VECTOR_WIDTH * n + _VECTOR_WIDTH
    · have e : _VECTOR_WIDTH * n + (j - _VECTOR_WIDTH * n) = j := by omega
      have h2 : ¬ j < _VECTOR_WIDTH * n := by omega
      have h3 : j < _VECTOR_WIDTH * (n + 1) := by rw [hw] at h1 ⊢; omega
      rw [if_pos h1, e, ih j, if_neg h2, if_pos h3]
      by_cases hx : x j > 0
      · rw [if_pos hx, max_eq_left (le_of_lt hx)]
      · rw [if_neg hx, max_eq_right (not_lt.1 hx)]
    · rw [if_neg h1, ih j]
      by_cases h2 : j < _VECTOR_WIDTH * n
      · rw [if_pos h2, if_pos (by rw [hw] at h2 ⊢; omega)]
      · rw [if_neg h2, if_neg (by rw [hw] at h1 h2 ⊢; omega)]

/-- Claim C10, amended: after `relu_simd128(inputs, size)` every element below
`4 * (size / 4)` equals `max(x_i, 0)`, hence is at least 0 and is `x_i` or 0, and
every other element, the tail of an array whose size is not a multiple of 4
included, is unchanged. -/
theorem relu_simd128_get {α : Type} [LinearOrder α] [Zero α] (inputs : Nat → α)
    (size i : Nat) :
    relu_simd128 inputs size i =
        (if i < _VECTOR_WIDTH * (size / _VECTOR_WIDTH) then max (inputs i) 0 else inputs i) ∧
      (i < _VECTOR_WIDTH * (size / _VECTOR_WIDTH) →
        0 ≤ relu_simd128 inputs size i ∧
          (relu_simd128 inputs size i = inputs i ∨ relu_simd128 inputs size i = 0)) := by
  have h : relu_simd128 inputs size i =
      (if i < _VECTOR_WIDTH * (size / _VECTOR_WIDTH) then max (inputs i) 0 else inputs i) := by
    unfold relu_simd128
    exact relu_foldl_get inputs (size / _VECTOR_WIDTH) i
  refine ⟨h, fun hi => ?_⟩
  rw [h, if_pos hi]
  exact ⟨le_max_right _ _, max_choice _ _⟩

/-- Claim C10 (amended) on the array `[1, -2, 3, -4, -5]` of size 5: element 1
becomes 0 and element 4, in the tail, stays -5. -/
theorem relu_simd128_get_witness :
    relu_simd128 (fun k => [1, -2, 3, -4, -5].getD k (0 : Int)) 5 1 = 0 ∧
      relu_simd128 (fun k => [1, -2, 3, -4, -5].getD k (0 : Int)) 5 4 = -5 :=
  ⟨(relu_simd128_get (fun k => [1, -2, 3, -4, -5].getD k (0 : Int)) 5 1).1.trans (by decide),
   (relu_simd128_get (fun k => [1, -2, 3, -4, -5].getD k (0 : Int)) 5 4).1.trans (by decide)⟩

/-- The array `[1, -2, 3, -4, -5]` of size 5 becomes `[1, 0, 3, 0, -5]`: the last
element stays -5, while `max(-5, 0) = 0`. -/
theorem relu_simd128_tail_counterexample :
    (List.range 5).map (relu_simd128 (fun k => [1, -2, 3, -4, -5].getD k (0 : Int)) 5) =
        [1, 0, 3, 0, -5] ∧
      max (-5 : Int) 0 = 0 := by
  decide

/-! ## SIMD leaky relu and tanh -/

/-- A loop that replaces each whole 4-lane vector of a buffer by `f` of its lanes
maps `f` over the first `4 * n` elements and leaves the others unchanged. -/
theorem vec_loop_get {α : Type} (step : (Nat → α) → Nat → (Nat → α)) (f : α → α)
    (hstep : ∀ mem i j, step mem i j =
      if _VECTOR_WIDTH * i ≤ j ∧ j < _VECTOR_WIDTH * i + _VECTOR_WIDTH
      then f (mem (_VECTOR_WIDTH * i + (j - _VECTOR_WIDTH * i))) else mem j)
    (x : Nat → α) :
    ∀ (n j : Nat), ((List.range n).foldl step x) j =
      if j < _VECTOR_WIDTH * n then f (x j) else x j := by
  have hw : _VECTOR_WIDTH = 4 := rfl
  intro n
  induction n with
  | zero => intro j; simp
  | succ n ih =>
    intro j
    rw [List.range_succ, List.foldl_append, List.foldl_cons, List.foldl_nil, hstep]
    by_cases h1 : _VECTOR_WIDTH * n ≤ j ∧ j < _VECTOR_WIDTH * n + _VECTOR_WIDTH
    · have e : _VECTOR_WIDTH * n + (j - _VECTOR_WIDTH * n) = j := by omega
      have h2 : ¬ j < _VECTOR_WIDTH * n := by omega
      have h3 : j < _VECTOR_WIDTH * (n + 1) := by rw [hw] at h1 ⊢; omega
      rw [if_pos h1, e, ih j, if_neg h2, if_pos h3]
    · rw [if_neg h1, ih j]
      by_cases h2 : j < _VECTOR_WIDTH * n
      · rw [if_pos h2, if_pos (by rw [hw] at h2 ⊢; omega)]
      · rw [if_neg h2, if_neg (by rw [hw] at h1 h2 ⊢; omega)]

/-- One iteration of the leaky relu loop, read at offset `j`. -/
theorem lrelu_step_apply {α : Type} [LinearOrderedRing α] (alpha : α) (mem : Nat → α)
    (i j : Nat) :
    vec_store mem i
        ((VEC128_MASK ((⟨fun _ => alpha⟩ : v4fp_t α).mul (vec_load mem i))
            ((vec_load mem i).lt ⟨fun _ => 0⟩)).add
          (VEC128_MASK (vec_load mem i) ((vec_load mem i).ge ⟨fun _ => 0⟩))) j =
      if _VECTOR_WIDTH * i ≤ j ∧ j < _VECTOR_WIDTH * i + _VECTOR_WIDTH then
        (fun x : α => if x ≥ 0 then x else alpha * x)
          (mem (_VECTOR_WIDTH * i + (j - _VECTOR_WIDTH * i)))
      else mem j := by
  simp only [vec_store, VEC128_MASK, vec_load, v4fp_t.lt, v4fp_t.ge, v4fp_t.mul, v4fp_t.add,
    decide_eq_true_eq]
  split_ifs with h1 h2 h3 h3
  · exact absurd h3 (not_le.2 h2)
  · rw [add_zero]
  · rw [zero_add]
  · exact absurd (not_lt.1 h2) h3
  · rfl

/-- Claim C12, amended: after `lrelu_simd128(inputs, size, alpha)` every element
below `4 * (size / 4)` equals `x_i` if `x_i >= 0` and `alpha * x_i` otherwise, and
every other element, the tail of an array whose size is not a multiple of 4
included, is unchanged. -/
theorem lrelu_simd128_get {α : Type} [LinearOrderedRing α] (inputs : Nat → α)
    (size : Nat) (alpha : α) (i : Nat) :
    lrelu_simd128 inputs size alpha i =
      if i < _VECTOR_WIDTH * (size / _VECTOR_WIDTH)
      then (if inputs i ≥ 0 then inputs i else alpha * inputs i) else inputs i := by
  unfold lrelu_simd128
  exact vec_loop_get _ (fun x : α => if x ≥ 0 then x else alpha * x)
    (fun mem i j => lrelu_step_apply alpha mem i j) inputs (size / _VECTOR_WIDTH) i

/-- Claim C12 (amended) on the array `[1, -2, 3, -4, -5]` of size 5 with
`alpha = 2`: element 1 becomes -4 and element 4, in the tail, stays -5. -/
theorem lrelu_simd128_get_witness :
    lrelu_simd128 (fun k => [1, -2, 3, -4, -5].getD k (0 : Int)) 5 2 1 = -4 ∧
      lrelu_simd128 (fun k => [1, -2, 3, -4, -5].getD k (0 : Int)) 5 2 4 = -5 :=
  ⟨(lrelu_simd128_get (fun k => [1, -2, 3, -4, -5].getD k (0 : Int)) 5 2 1).trans (by decide),
   (lrelu_simd128_get (fun k => [1, -2, 3, -4, -5].getD k (0 : Int)) 5 2 4).trans (by decide)⟩

/-- The array `[1, -2, 3, -4, -5]` of size 5 with `alpha = 2` becomes
`[1, -4, 3, -8, -5]`: the last element is negative and stays -5, not
`alpha * -5 = -10`. -/
theorem lrelu_simd128_tail_counterexample :
    (List.range 5).map (lrelu_simd128 (fun k => [1, -2, 3, -4, -5].getD k (0 : Int)) 5 2) =
        [1, -4, 3, -8, -5] ∧
      ¬ ((-5 : Int) ≥ 0) ∧ 2 * (-5 : Int) = -10 := by
  decide

/-- A loop that stores `f` of each whole 4-lane vector of the array at offset
`src` into the array at offset `dst`, the two arrays being the same or disjoint:
the first `4 * n` elements at `dst` hold `f` of the elements at `src`, and
every other offset is unchanged. -/
theorem vec_loop_at_get {α : Type} (step : (Nat → α) → Nat → (Nat → α)) (f : α → α)
    (src dst : Nat)
    (hstep : ∀ mem i j, step mem i j =
      if dst + _VECTOR_WIDTH * i ≤ j ∧ j < dst + _VECTOR_WIDTH * i + _VECTOR_WIDTH
      then f (mem (src + _VECTOR_WIDTH * i + (j - (dst + _VECTOR_WIDTH * i)))) else mem j)
    (x : Nat → α) (n : Nat)
    (h : src = dst ∨ src + _VECTOR_WIDTH * n ≤ dst ∨ dst + _VECTOR_WIDTH * n ≤ src) :
    ∀ (k : Nat), k ≤ n → ∀ j, ((List.range k).foldl step x) j =
      if dst ≤ j ∧ j < dst + _VECTOR_WIDTH * k then f (x (src + (j - dst))) else x j := by
  have hw : _VECTOR_WIDTH = 4 := rfl
  rw [hw] at h
  intro k
  induction k with
  | zero =>
    intro _ j
    rw [List.range_zero, List.foldl_nil, if_neg (by omega)]
  | succ k ih =>
    intro hk j
    rw [List.range_succ, List.foldl_append, List.foldl_cons, List.foldl_nil, hstep]
    by_cases h1 : dst + _VECTOR_WIDTH * k ≤ j ∧ j < dst + _VECTOR_WIDTH * k + _VECTOR_WIDTH
    · rw [if_pos h1, ih (by omega), if_neg (by rw [hw] at h1 ⊢; omega),
        if_pos (by rw [hw] at h1 ⊢; omega)]
      congr 2
      rw [hw] at h1 ⊢
      omega
    · rw [if_neg h1, ih (by omega) j]
      by_cases h2 : dst ≤ j ∧ j < dst + _VECTOR_WIDTH * k
      · rw [if_pos h2, if_pos (by rw [hw] at h2 ⊢; omega)]
      · rw [if_neg h2, if_neg (by rw [hw] at h1 h2 ⊢; omega)]

/-- The identity `tanh(x) = 2 * sigmoid(2 * x) - 1`, in the order in which the
kernel multiplies. -/
theorem two_sigmoid_sub_one (x : ℝ) :
    1 / (1 + Real.exp (-(x * 2))) * 2 - 1 = Real.tanh x := by
  rw [Real.tanh_eq_sinh_div_cosh, Real.sinh_eq, Real.cosh_eq]
  have e : Real.exp (-(x * 2)) = Real.exp (-x) * Real.exp (-x) := by
    rw [← Real.exp_add]; congr 1; ring
  have e1 : Real.exp x * Real.exp (-x) = 1 := by
    rw [← Real.exp_add, add_neg_cancel, Real.exp_zero]
  rw [e]
  have hp : 0 < Real.exp x := Real.exp_pos x
  have hn : 0 < Real.exp (-x) := Real.exp_pos (-x)
  generalize Real.exp x = a at *
  generalize Real.exp (-x) = b at *
  have h1 : (1 : ℝ) + b * b ≠ 0 := by positivity
  have h2 : a + b ≠ 0 := by positivity
  field_simp
  nlinarith [e1]

/-- The number of whole vectors in an `int` size: none when the size is
negative, `size / 4` rounded down otherwise. -/
theorem tdiv_vector_width (size : Int) :
    (size < 0 → (Int.tdiv size _VECTOR_WIDTH).toNat = 0) ∧
      (0 ≤ size → ((Int.tdiv size _VECTOR_WIDTH).toNat : Int) = size / 4) := by
  have hw : ((_VECTOR_WIDTH : Nat) : Int) = 4 := rfl
  rw [hw]
  constructor
  · intro h
    have e : size = -(-size) := by ring
    have h1 : 0 ≤ (-size).tdiv 4 := Int.tdiv_nonneg (by omega) (by omega)
    rw [e, Int.neg_tdiv]
    omega
  · intro h
    rw [Int.tdiv_eq_ediv h (by omega)]
    omega

/-- One iteration of the first tanh loop, read at offset `j`. -/
theorem tanh_step1_apply {α : Type} [Field α] (inputs results : Nat) (mem : Nat → α)
    (i j : Nat) :
    vec_store_at mem results i ((vec_load_at mem inputs i).mul ⟨fun _ => 2⟩) j =
      if results + _VECTOR_WIDTH * i ≤ j ∧ j < results + _VECTOR_WIDTH * i + _VECTOR_WIDTH
      then (fun x : α => x * 2)
        (mem (inputs + _VECTOR_WIDTH * i + (j - (results + _VECTOR_WIDTH * i))))
      else mem j := by
  simp only [vec_store_at, vec_load_at, v4fp_t.mul]

/-- One iteration of the second tanh loop, read at offset `j`. -/
theorem tanh_step2_apply {α : Type} [Field α] (results : Nat) (mem : Nat → α) (i j : Nat) :
    vec_store_at mem results i
        (((vec_load_at mem results i).mul ⟨fun _ => 2⟩).sub ⟨fun _ => 1⟩) j =
      if results + _VECTOR_WIDTH * i ≤ j ∧ j < results + _VECTOR_WIDTH * i + _VECTOR_WIDTH
      then (fun x : α => x * 2 - 1)
        (mem (results + _VECTOR_WIDTH * i + (j - (results + _VECTOR_WIDTH * i))))
      else mem j := by
  simp only [vec_store_at, vec_load_at, v4fp_t.mul, v4fp_t.sub]

/-- What `tanh_act_simd128` leaves in the results array, for any exponential:
the whole vectors hold `sigmoid(x * 2) * 2 - 1`, the tail holds the sigmoid of
what the results array held before. -/
theorem tanh_act_simd128_results {α : Type} [Field α] (exp : α → α) (mem : Nat → α)
    (inputs results : Nat) (size : Int)
    (hal : inputs = results ∨ (inputs : Int) + size ≤ results ∨
      (results : Int) + size ≤ inputs) (i : Nat) :
    tanh_act_simd128 exp mem inputs size results (results + i) =
      if i < _VECTOR_WIDTH * (Int.tdiv size _VECTOR_WIDTH).toNat then
        1 / (1 + exp (-(mem (inputs + i) * 2))) * 2 - 1
      else if (i : Int) < size then 1 / (1 + exp (-(mem (results + i))))
      else mem (results + i) := by
  have hw : _VECTOR_WIDTH = 4 := rfl
  obtain ⟨hneg, hpos⟩ := tdiv_vector_width size
  unfold tanh_act_simd128
  generalize hn : (Int.tdiv size _VECTOR_WIDTH).toNat = n at hneg hpos ⊢
  have hn4 : (4 : Int) * n ≤ size ∨ n = 0 := by
    rcases lt_or_le size 0 with h | h
    · exact Or.inr (hneg h)
    · have := hpos h
      left; omega
  have hal1 : inputs = results ∨ inputs + _VECTOR_WIDTH * n ≤ results ∨
      results + _VECTOR_WIDTH * n ≤ inputs := by
    rw [hw]; omega
  have L1 := vec_loop_at_get _ (fun x : α => x * 2) inputs results
    (fun m i j => tanh_step1_apply inputs results m i j) mem n hal1 n (le_refl n)
  have L2 := fun m2 => vec_loop_at_get _ (fun x : α => x * 2 - 1) results results
    (fun m i j => tanh_step2_apply results m i j) m2 n (Or.inl rfl) n (le_refl n)
  rw [hw] at L1 L2 ⊢
  have e : results + (results + i - results) = results + i := by omega
  have e1 : inputs + (results + i - results) = inputs + i := by omega
  simp only [L2, sigmoid_inplace, L1, e, e1]
  push_cast
  split_ifs <;> first | rfl | (exfalso; omega)

/-- Claim C11, amended: after `tanh_act_simd128(inputs, size, results)`, for two
arrays that are the same or do not overlap, every element `i < 4 * (size / 4)`
of `results` equals `2 * sigmoid(2 * inputs[i]) - 1 = tanh(inputs[i])`; an
element of the tail, `4 * (size / 4) <= i < size`, holds the sigmoid of the
value that `results[i]` held before the call. -/
theorem tanh_act_simd128_get (mem : Nat → ℝ) (inputs results : Nat) (size : Int)
    (hal : inputs = results ∨ (inputs : Int) + size ≤ results ∨
      (results : Int) + size ≤ inputs) (i : Nat) :
    (i < _VECTOR_WIDTH * (Int.tdiv size _VECTOR_WIDTH).toNat →
      tanh_act_simd128 Real.exp mem inputs size results (results + i) =
          2 * (1 / (1 + Real.exp (-(2 * mem (inputs + i))))) - 1 ∧
        tanh_act_simd128 Real.exp mem inputs size results (results + i) =
          Real.tanh (mem (inputs + i))) ∧
    (_VECTOR_WIDTH * (Int.tdiv size _VECTOR_WIDTH).toNat ≤ i → (i : Int) < size →
      tanh_act_simd128 Real.exp mem inputs size results (results + i) =
        1 / (1 + Real.exp (-(mem (results + i))))) := by
  have h := tanh_act_simd128_results Real.exp mem inputs results size hal i
  constructor
  · intro hi
    rw [h, if_pos hi]
    refine ⟨?_, two_sigmoid_sub_one _⟩
    rw [mul_comm (mem (inputs + i)) 2]
    ring
  · intro hi hs
    rw [h, if_neg (by omega), if_pos hs]

/-- Claim C11 (amended) on two separate arrays of four zeros, at offsets 0 and
4: element 0 of the results is `tanh(0)`. -/
theorem tanh_act_simd128_get_witness :
    tanh_act_simd128 Real.exp (fun _ => 0) 0 4 4 (4 + 0) = Real.tanh 0 :=
  ((tanh_act_simd128_get (fun _ => 0) 0 4 4 (Or.inr (Or.inl (by norm_num))) 0).1
    (by decide)).2

/-- An input array `[0]` at offset 0 and a results array `[0]` at offset 1, with
`size = 1`: no whole vector is processed, `sigmoid_inplace` turns the results
element into `sigmoid(0) = 1/2`, and it stays so, while
`2 * sigmoid(2 * 0) - 1 = tanh(0) = 0`. -/
theorem tanh_act_simd128_tail_counterexample :
    tanh_act_simd128 Real.exp (fun _ => 0) 0 1 1 (1 + 0) = 1 / 2 ∧
      2 * (1 / (1 + Real.exp (-(2 * (0 : ℝ))))) - 1 = 0 ∧ Real.tanh 0 = 0 := by
  refine ⟨?_, ?_, Real.tanh_zero⟩
  · rw [tanh_act_simd128_results Real.exp (fun _ => 0) 0 1 1 (Or.inr (Or.inl (by norm_num))) 0,
      if_neg (by decide), if_pos (by norm_num)]
    norm_num
  · norm_num

/-! ## The SIMD dispatcher -/

/-- Claim C13: whatever the helper functions and the inputs,
`activation_fun_simd128` ends in a failed assertion if and only if
`function == SOFTMAX`; in that case the assertion is "Softmax SIMD not
supported!" and `results` holds what it held before the call; for every other
function, RELU, LRELU, ELU, SELU, TANH and SIGMOID included, the call returns. -/
theorem activation_fun_simd128_fails_iff {α P : Type} [LinearOrderedField α] (exp : α → α)
    (unpack_data_fp16x4 : uarray_t P → farray_t α)
    (pack_data_fp16 : farray_t α → P → P)
    (elu : (Nat → α) → Nat → α → (Nat → α))
    (selu : (Nat → α) → Nat → (Nat → α))
    (activations : P) (batch_size input_size : Int) (function : activation_type)
    (results : P) :
    ((∃ e, activation_fun_simd128 exp unpack_data_fp16x4 pack_data_fp16 elu selu activations
        batch_size input_size function results = .error e) ↔
      function = activation_type.SOFTMAX) ∧
    (function = activation_type.SOFTMAX →
      activation_fun_simd128 exp unpack_data_fp16x4 pack_data_fp16 elu selu activations
        batch_size input_size function results =
          .error ⟨"Softmax SIMD not supported!", results⟩) ∧
    (function ≠ activation_type.SOFTMAX →
      ∃ r, activation_fun_simd128 exp unpack_data_fp16x4 pack_data_fp16 elu selu activations
        batch_size input_size function results = .ok r) := by
  cases function <;> simp [activation_fun_simd128]

/-- Claim C13 on a call with `function = SOFTMAX`, two rows of four, packed
buffers modelled as lists of numbers: the call fails and `results` is still
`[7, 7]`. -/
theorem activation_fun_simd128_fails_iff_witness :
    activation_fun_simd128 (fun x : ℚ => x) (fun u => ⟨fun _ => 0, u.size⟩)
        (fun f _ => List.replicate f.size 0) (fun d _ _ => d) (fun d _ => d)
        ([1, 2] : List Nat) 2 4 activation_type.SOFTMAX [7, 7] =
      .error ⟨"Softmax SIMD not supported!", [7, 7]⟩ :=
  (activation_fun_simd128_fails_iff (fun x : ℚ => x) (fun u => ⟨fun _ => 0, u.size⟩)
    (fun f _ => List.replicate f.size 0) (fun d _ _ => d) (fun d _ => d)
    ([1, 2] : List Nat) 2 4 activation_type.SOFTMAX [7, 7]).2.1 rfl

/-! ## Profiling log -/

/-- The search finds no entry exactly when every entry has a non-zero end time. -/
theorem end_first_open_eq_none (nsecs : Nat) (log : List log_entry_t) :
    end_first_open nsecs log = none ↔ ∀ entry ∈ log, entry.end_time ≠ 0 := by
  induction log with
  | nil => simp [end_first_open]
  | cons entry next ih =>
    by_cases h : entry.end_time = 0
    · simp [end_first_open, h]
    · simp [end_first_open, h, ih]

/-- The search passes the entries whose end time is not 0 and ends the first
entry whose end time is 0. -/
theorem end_first_open_append (nsecs : Nat) (pre post : List log_entry_t)
    (entry : log_entry_t) (hpre : ∀ e ∈ pre, e.end_time ≠ 0) (h0 : entry.end_time = 0) :
    end_first_open nsecs (pre ++ entry :: post) =
      some (pre ++ { entry with end_time := nsecs } :: post) := by
  induction pre with
  | nil => simp [end_first_open, h0]
  | cons e pre ih =>
    have he : e.end_time ≠ 0 := hpre e (List.mem_cons_self _ _)
    have ih1 := ih (fun x hx => hpre x (List.mem_cons_of_mem _ hx))
    simp [end_first_open, he, ih1]

/-- A log with an entry whose end time is 0 splits at the first such entry. -/
theorem exists_first_open (log : List log_entry_t) (h : ∃ e ∈ log, e.end_time = 0) :
    ∃ pre entry post, log = pre ++ entry :: post ∧ (∀ e ∈ pre, e.end_time ≠ 0) ∧
      entry.end_time = 0 := by
  induction log with
  | nil => obtain ⟨e, he, _⟩ := h; exact absurd he (List.not_mem_nil e)
  | cons a next ih =>
    by_cases ha : a.end_time = 0
    · exact ⟨[], a, next, rfl, fun e he => absurd he (List.not_mem_nil e), ha⟩
    · obtain ⟨e, he, h0⟩ := h
      have hn : ∃ e ∈ next, e.end_time = 0 := by
        rcases List.mem_cons.1 he with rfl | hmem
        · exact absurd h0 ha
        · exact ⟨e, hmem, h0⟩
      obtain ⟨pre, entry, post, hl, hpre, hz⟩ := ih hn
      refine ⟨a :: pre, entry, post, by rw [hl]; rfl, ?_, hz⟩
      intro x hx
      rcases List.mem_cons.1 hx with rfl | hmem
      · exact ha
      · exact hpre x hmem

/-- Claim C18: with profiling enabled, `end_profiling` exits if and only if no
entry of the log has an end time of 0 (the empty log included), and when it
exits the state is the one it was called in; with profiling disabled it returns
and changes nothing. -/
theorem end_profiling_fails_iff (nsecs : Nat) (s : profiling_t) :
    (s.profiling_enabled = true →
      ((∃ e, end_profiling nsecs s = .error e) ↔
        ∀ entry ∈ s.profile_log, entry.end_time ≠ 0) ∧
      (∀ e, end_profiling nsecs s = .error e → e.state = s)) ∧
    (s.profiling_enabled = false → end_profiling nsecs s = .ok s) := by
  constructor
  · intro hen
    rw [← end_first_open_eq_none nsecs]
    unfold end_profiling
    rw [hen]
    cases h : end_first_open nsecs s.profile_log with
    | none => simp
    | some log => simp
  · intro hdis
    unfold end_profiling
    rw [hdis]
    rfl

/-- Claim C18 on an enabled log whose only entry has been ended. -/
theorem end_profiling_fails_iff_witness :
    ((∃ e, end_profiling 9 ⟨[⟨"conv", 1, 0, 5, 7⟩], true⟩ = .error e) ↔
        ∀ entry ∈ [(⟨"conv", 1, 0, 5, 7⟩ : log_entry_t)], entry.end_time ≠ 0) ∧
      (∀ e, end_profiling 9 ⟨[⟨"conv", 1, 0, 5, 7⟩], true⟩ = .error e →
        e.state = ⟨[⟨"conv", 1, 0, 5, 7⟩], true⟩) :=
  (end_profiling_fails_iff 9 ⟨[⟨"conv", 1, 0, 5, 7⟩], true⟩).1 rfl

/-- Claim C20: on an enabled log with an entry whose end time is 0,
`end_profiling` returns, and the log it leaves is the old one with the end time
of the first such entry from the head set to the timer reading: the entries
before it (all ended), the entries after it, the other fields of that entry,
and the order and length of the log are unchanged. -/
theorem end_profiling_frame (nsecs : Nat) (s : profiling_t)
    (hen : s.profiling_enabled = true) (hopen : ∃ e ∈ s.profile_log, e.end_time = 0) :
    ∃ pre entry post, s.profile_log = pre ++ entry :: post ∧
      (∀ e ∈ pre, e.end_time ≠ 0) ∧ entry.end_time = 0 ∧
      end_profiling nsecs s =
        .ok { profile_log :=
                pre ++ ⟨entry.label, entry.layer_num, entry.invocation, entry.start_time,
                  nsecs⟩ :: post,
              profiling_enabled := true } := by
  obtain ⟨pre, entry, post, hl, hpre, hz⟩ := exists_first_open s.profile_log hopen
  refine ⟨pre, entry, post, hl, hpre, hz, ?_⟩
  unfold end_profiling
  rw [hen, hl, end_first_open_append nsecs pre post entry hpre hz]
  rfl

/-- Claim C20 on a log of three entries, the second of which is the first
still open. -/
theorem end_profiling_frame_witness :
    ∃ pre entry post,
      [(⟨"c", 3, 0, 30, 35⟩ : log_entry_t), ⟨"b", 2, 0, 20, 0⟩, ⟨"a", 1, 0, 10, 0⟩] =
        pre ++ entry :: post ∧
      (∀ e ∈ pre, e.end_time ≠ 0) ∧ entry.end_time = 0 ∧
      end_profiling 40 ⟨[⟨"c", 3, 0, 30, 35⟩, ⟨"b", 2, 0, 20, 0⟩, ⟨"a", 1, 0, 10, 0⟩], true⟩ =
        .ok { profile_log :=
                pre ++ ⟨entry.label, entry.layer_num, entry.invocation, entry.start_time,
                  40⟩ :: post,
              profiling_enabled := true } :=
  end_profiling_frame 40 ⟨[⟨"c", 3, 0, 30, 35⟩, ⟨"b", 2, 0, 20, 0⟩, ⟨"a", 1, 0, 10, 0⟩], true⟩
    rfl ⟨⟨"b", 2, 0, 20, 0⟩, by simp, rfl⟩

/-- Running two sequences of calls one after the other. -/
theorem runProfCalls_append (a b : List ProfCall) :
    ∀ s, runProfCalls (a ++ b) s =
      match runProfCalls a s with
      | .error e => .error e
      | .ok s1 => runProfCalls b s1 := by
  induction a with
  | nil => intro s; rfl
  | cons c a ih =>
    intro s
    cases c with
    | begin_profiling label layer_num nsecs =>
      simp only [List.cons_append, runProfCalls]
      exact ih _
    | end_profiling nsecs =>
      simp only [List.cons_append, runProfCalls]
      cases end_profiling nsecs s with
      | error e => rfl
      | ok s1 => exact ih s1

/-- The end readings of two sequences of calls one after the other. -/
theorem endReadings_append (a b : List ProfCall) :
    endReadings (a ++ b) = endReadings a ++ endReadings b := by
  induction a with
  | nil => rfl
  | cons c a ih =>
    cases c with
    | begin_profiling label layer_num nsecs => simpa [endReadings] using ih
    | end_profiling nsecs => simpa [endReadings] using ih

/-- A properly nested sequence whose end readings are not 0, run on an enabled
log: no call exits, the entries of its spans are put before the log it
started from, each with the readings of its own pair of calls, and they are
all ended. -/
theorem runProfCalls_paired (calls : List ProfCall) (log : List log_entry_t)
    (h : Paired calls log) :
    (∀ t ∈ endReadings calls, t ≠ 0) →
    (∀ log0, runProfCalls calls ⟨log0, true⟩ = .ok ⟨log ++ log0, true⟩) ∧
      (∀ e ∈ log, e.end_time ≠ 0) := by
  induction h with
  | nil => intro _; exact ⟨fun _ => rfl, fun e he => absurd he (List.not_mem_nil e)⟩
  | span label layer_num t0 t1 inner rest linner lrest _ _ ih1 ih2 =>
    intro hnz
    have hr : endReadings (ProfCall.begin_profiling label layer_num t0 :: inner ++
        ProfCall.end_profiling t1 :: rest) =
        endReadings inner ++ t1 :: endReadings rest := by
      rw [List.cons_append]
      simp only [endReadings]
      rw [endReadings_append]
      rfl
    rw [hr] at hnz
    have ht1 : t1 ≠ 0 := hnz t1 (by simp)
    obtain ⟨run1, end1⟩ := ih1 (fun t ht => hnz t (by simp [ht]))
    obtain ⟨run2, end2⟩ := ih2 (fun t ht => hnz t (by simp [ht]))
    constructor
    · intro log0
      rw [List.cons_append]
      simp only [runProfCalls]
      rw [runProfCalls_append]
      have hb : begin_profiling label layer_num t0 ⟨log0, true⟩ =
          ⟨⟨label, layer_num, 0, t0, 0⟩ :: log0, true⟩ := rfl
      rw [hb, run1]
      simp only [runProfCalls]
      have he : end_profiling t1 ⟨linner ++ ⟨label, layer_num, 0, t0, 0⟩ :: log0, true⟩ =
          .ok ⟨linner ++ ⟨label, layer_num, 0, t0, t1⟩ :: log0, true⟩ := by
        unfold end_profiling
        rw [end_first_open_append t1 linner log0 ⟨label, layer_num, 0, t0, 0⟩ end1 rfl]
        rfl
      rw [he]
      simp only []
      rw [run2]
      simp
    · intro e he
      rcases List.mem_append.1 he with h1 | h1
      · rcases List.mem_append.1 h1 with h2 | h2
        · exact end2 e h2
        · exact end1 e h2
      · rw [List.mem_singleton.1 h1]
        exact ht1

/-- A sequence that is properly nested from depth `d + 1` starts with a properly
nested sequence, followed by the `end_profiling` that closes the span open at
depth `d + 1`. -/
theorem nested_split : ∀ (n : Nat) (calls : List ProfCall) (d : Nat),
    calls.length ≤ n → nested calls (d + 1) = true →
    ∃ inner t1 rest linner, calls = inner ++ ProfCall.end_profiling t1 :: rest ∧
      Paired inner linner ∧ nested rest d = true := by
  intro n
  induction n with
  | zero =>
    intro calls d hlen h
    have : calls = [] := List.length_eq_zero.1 (Nat.le_zero.1 hlen)
    subst this
    simp [nested] at h
  | succ n ih =>
    intro calls d hlen h
    cases calls with
    | nil => simp [nested] at h
    | cons c cs =>
      have hcs : cs.length ≤ n := by simpa using hlen
      cases c with
      | end_profiling t =>
        refine ⟨[], t, cs, [], rfl, Paired.nil, ?_⟩
        simpa [nested] using h
      | begin_profiling label layer_num t0 =>
        have h1 : nested cs (d + 1 + 1) = true := by simpa [nested] using h
        obtain ⟨inner1, t1, rest1, l1, e1, p1, n1⟩ := ih cs (d + 1) hcs h1
        have hr1 : rest1.length ≤ n := by
          have := congrArg List.length e1
          simp at this
          omega
        obtain ⟨inner2, t2, rest2, l2, e2, p2, n2⟩ := ih rest1 d hr1 n1
        refine ⟨ProfCall.begin_profiling label layer_num t0 :: inner1 ++
            ProfCall.end_profiling t1 :: inner2, t2, rest2, l2 ++ l1 ++ [⟨label, layer_num, 0, t0, t1⟩],
          ?_, Paired.span label layer_num t0 t1 inner1 inner2 l1 l2 p1 p2, n2⟩
        rw [e1, e2]
        simp

/-- Every properly nested sequence of calls has a pairing. -/
theorem nested_paired : ∀ (n : Nat) (calls : List ProfCall),
    calls.length ≤ n → nested calls 0 = true → ∃ log, Paired calls log := by
  intro n
  induction n with
  | zero =>
    intro calls hlen _
    have : calls = [] := List.length_eq_zero.1 (Nat.le_zero.1 hlen)
    subst this
    exact ⟨[], Paired.nil⟩
  | succ n ih =>
    intro calls hlen h
    cases calls with
    | nil => exact ⟨[], Paired.nil⟩
    | cons c cs =>
      cases c with
      | end_profiling t => simp [nested] at h
      | begin_profiling label layer_num t0 =>
        have hcs : cs.length ≤ n := by simpa using hlen
        have h1 : nested cs (0 + 1) = true := by simpa [nested] using h
        obtain ⟨inner, t1, rest, linner, e, p, nr⟩ := nested_split n cs 0 hcs h1
        have hr : rest.length ≤ n := by
          have := congrArg List.length e
          simp at this
          omega
        obtain ⟨lrest, pr⟩ := ih rest hr nr
        refine ⟨lrest ++ linner ++ [⟨label, layer_num, 0, t0, t1⟩], ?_⟩
        rw [e]
        exact Paired.span label layer_num t0 t1 inner rest linner lrest p pr

/-- The number of `begin_profiling` calls of two sequences one after the other. -/
theorem beginCount_append (a b : List ProfCall) :
    beginCount (a ++ b) = beginCount a + beginCount b := by
  induction a with
  | nil => simp [beginCount]
  | cons c a ih =>
    cases c with
    | begin_profiling label layer_num nsecs => simp [beginCount, ih]; omega
    | end_profiling nsecs => simp [beginCount, ih]

/-- A pairing has one entry for each `begin_profiling` call. -/
theorem Paired.length_eq {calls : List ProfCall} {log : List log_entry_t}
    (h : Paired calls log) : log.length = beginCount calls := by
  induction h with
  | nil => rfl
  | span label layer_num t0 t1 inner rest linner lrest _ _ ih1 ih2 =>
    rw [List.cons_append]
    simp only [beginCount, beginCount_append, List.length_append, List.length_singleton,
      List.length_cons, List.length_nil, ih1, ih2]
    omega

/-- Claim C17, amended: after `init_profiling_log`, for every properly nested
sequence of `begin_profiling` / `end_profiling` calls and every sequence of timer
readings in which no reading taken by `end_profiling` is 0, no call exits, the
log that results pairs every `end_profiling` with its matching
`begin_profiling` (the entry of a span holds the readings of its own two
calls), every entry is ended, and there is one entry for each `begin_profiling`. -/
theorem profiling_nested_pairs (calls : List ProfCall) (s0 : profiling_t)
    (hn : nested calls 0 = true) (hnz : ∀ t ∈ endReadings calls, t ≠ 0) :
    ∃ log, Paired calls log ∧
      runProfCalls calls (init_profiling_log s0) = .ok ⟨log, true⟩ ∧
      (∀ e ∈ log, e.end_time ≠ 0) ∧ log.length = beginCount calls := by
  obtain ⟨log, hp⟩ := nested_paired calls.length calls (le_refl _) hn
  obtain ⟨hrun, hend⟩ := runProfCalls_paired calls log hp hnz
  refine ⟨log, hp, ?_, hend, hp.length_eq⟩
  have := hrun []
  rw [List.append_nil] at this
  exact this

/-- Claim C17 (amended) on two nested spans with the readings 10, 20, 30, 40. -/
theorem profiling_nested_pairs_witness :
    ∃ log,
      Paired [ProfCall.begin_profiling "a" 1 10, ProfCall.begin_profiling "b" 2 20,
        ProfCall.end_profiling 30, ProfCall.end_profiling 40] log ∧
      runProfCalls [ProfCall.begin_profiling "a" 1 10, ProfCall.begin_profiling "b" 2 20,
        ProfCall.end_profiling 30, ProfCall.end_profiling 40]
        (init_profiling_log ⟨[], false⟩) = .ok ⟨log, true⟩ ∧
      (∀ e ∈ log, e.end_time ≠ 0) ∧
      log.length = beginCount [ProfCall.begin_profiling "a" 1 10,
        ProfCall.begin_profiling "b" 2 20, ProfCall.end_profiling 30,
        ProfCall.end_profiling 40] :=
  profiling_nested_pairs [ProfCall.begin_profiling "a" 1 10,
    ProfCall.begin_profiling "b" 2 20, ProfCall.end_profiling 30, ProfCall.end_profiling 40]
    ⟨[], false⟩ (by decide) (by decide)

/-- Two nested spans in which the clock fails at the first `end_profiling`, so
that `get_nsecs` returns 0: the sequence is properly nested and no call exits,
but the first `end_profiling` leaves entry "b" with end time 0, the second one
ends "b" again, and entry "a" is never ended. -/
theorem profiling_zero_reading_counterexample :
    nested [ProfCall.begin_profiling "a" 1 10, ProfCall.begin_profiling "b" 2 20,
        ProfCall.end_profiling (get_nsecs (-1) ⟨0, 30⟩), ProfCall.end_profiling 40] 0 = true ∧
      runProfCalls [ProfCall.begin_profiling "a" 1 10, ProfCall.begin_profiling "b" 2 20,
        ProfCall.end_profiling (get_nsecs (-1) ⟨0, 30⟩), ProfCall.end_profiling 40]
        (init_profiling_log ⟨[], false⟩) =
        .ok ⟨[⟨"b", 2, 0, 20, 40⟩, ⟨"a", 1, 0, 10, 0⟩], true⟩ := by
  constructor
  · decide
  · rfl

/-! ## Operators: output materialization and validation -/

/-- Shape inference is defined on a four-dimensional input when no stride is 0. -/
theorem PoolingOp.inferShape_isSome (op : PoolingOp) (d0 d1 d2 d3 : Int)
    (layout : DataLayout) (hr : op.poolingRowStride ≠ 0) (hc : op.poolingColStride ≠ 0) :
    ∃ shape, op.inferShape ⟨[d0, d1, d2, d3], layout⟩ = some shape := by
  by_cases h : layout = DataLayout.NCHW <;>
    simp [PoolingOp.inferShape, TensorShape.get, PoolingOp.calcOutputRows,
      PoolingOp.calcOutputCols, computeOutputDim, hr, hc, h]

/-- A `createOutputTensors` call that finds an output tensor returns at once. -/
theorem pooling_createOutputTensors_of_some (s : OpState PoolingOp) (t : Tensor)
    (h : s.base.outputs = some t) : PoolingOp.createOutputTensors s = some s := by
  simp [PoolingOp.createOutputTensors, h]

/-- A `createOutputTensors` call that finds the output slot empty materializes
the inferred shape. -/
theorem pooling_createOutputTensors_of_none (s : OpState PoolingOp)
    (h : s.base.outputs = none) :
    PoolingOp.createOutputTensors s =
      (PoolingOp.inferOutputShape s).map fun shape => s.materialize shape := by
  simp [PoolingOp.createOutputTensors, h]

/-- A `createOutputTensors` call that finds an output tensor returns at once. -/
theorem unary_createOutputTensors_of_some (s : OpState UnaryOp) (t : Tensor)
    (h : s.base.outputs = some t) : UnaryOp.createOutputTensors s = some s := by
  simp [UnaryOp.createOutputTensors, h]

/-- A `createOutputTensors` call that finds the output slot empty materializes
the shape of the input. -/
theorem unary_createOutputTensors_of_none (s : OpState UnaryOp)
    (h : s.base.outputs = none) :
    UnaryOp.createOutputTensors s =
      s.base.inputs.map fun input => s.materialize input.shape := by
  simp [UnaryOp.createOutputTensors, h]

/-- Claim C14: for a `PoolingOp` whose bound input has an inferred shape, and for
a `UnaryOp` with a bound input, `createOutputTensors` returns, and a second call
returns the very state that the first call reached; when the first call found
the output slot empty, that state has one new tensor: it is in the output slot,
it is the only tensor added to the workspace, and it is the only allocation. -/
theorem createOutputTensors_idempotent :
    (∀ (s : OpState PoolingOp) (shape : TensorShape),
      PoolingOp.inferOutputShape s = some shape →
      ∃ s1, PoolingOp.createOutputTensors s = some s1 ∧
        PoolingOp.createOutputTensors s1 = some s1 ∧
        (s.base.outputs = none →
          ∃ output, s1.base.outputs = some output ∧
            s1.workspace.tensors = s.workspace.tensors ++ [output] ∧
            s1.allocated = s.allocated + 1)) ∧
    (∀ (s : OpState UnaryOp) (input : Tensor), s.base.inputs = some input →
      ∃ s1, UnaryOp.createOutputTensors s = some s1 ∧
        UnaryOp.createOutputTensors s1 = some s1 ∧
        (s.base.outputs = none →
          ∃ output, s1.base.outputs = some output ∧
            s1.workspace.tensors = s.workspace.tensors ++ [output] ∧
            s1.allocated = s.allocated + 1)) := by
  constructor
  · intro s shape hshape
    cases ho : s.base.outputs with
    | some t =>
      exact ⟨s, pooling_createOutputTensors_of_some s t ho,
        pooling_createOutputTensors_of_some s t ho, fun h => by simp at h⟩
    | none =>
      refine ⟨s.materialize shape, ?_, ?_, fun _ => ⟨⟨s.allocated, s.base.name, shape⟩, rfl, rfl, rfl⟩⟩
      · rw [pooling_createOutputTensors_of_none s ho, hshape]; rfl
      · exact pooling_createOutputTensors_of_some _ ⟨s.allocated, s.base.name, shape⟩ rfl
  · intro s input hin
    cases ho : s.base.outputs with
    | some t =>
      exact ⟨s, unary_createOutputTensors_of_some s t ho,
        unary_createOutputTensors_of_some s t ho, fun h => by simp at h⟩
    | none =>
      refine ⟨s.materialize input.shape, ?_, ?_,
        fun _ => ⟨⟨s.allocated, s.base.name, input.shape⟩, rfl, rfl, rfl⟩⟩
      · rw [unary_createOutputTensors_of_none s ho, hin]; rfl
      · exact unary_createOutputTensors_of_some _ ⟨s.allocated, s.base.name, input.shape⟩ rfl

/-- Claim C14 on a pooling operator (size 2, stride 2) and a unary operator,
both newly constructed and bound to a 1x3x8x8 NCHW tensor. -/
theorem createOutputTensors_idempotent_witness :
    (∃ s1, PoolingOp.createOutputTensors
        ⟨⟨2, 2, 2, 2⟩, ⟨"pool", some ⟨100, "in", ⟨[1, 3, 8, 8], DataLayout.NCHW⟩⟩, none⟩,
          ⟨[]⟩, 0⟩ = some s1 ∧
      PoolingOp.createOutputTensors s1 = some s1 ∧
      ((none : Option Tensor) = none →
        ∃ output, s1.base.outputs = some output ∧
          s1.workspace.tensors = [] ++ [output] ∧ s1.allocated = 0 + 1)) ∧
    (∃ s1, UnaryOp.createOutputTensors
        ⟨⟨⟩, ⟨"relu", some ⟨100, "in", ⟨[1, 3, 8, 8], DataLayout.NCHW⟩⟩, none⟩, ⟨[]⟩, 0⟩ =
          some s1 ∧
      UnaryOp.createOutputTensors s1 = some s1 ∧
      ((none : Option Tensor) = none →
        ∃ output, s1.base.outputs = some output ∧
          s1.workspace.tensors = [] ++ [output] ∧ s1.allocated = 0 + 1)) :=
  ⟨createOutputTensors_idempotent.1
      ⟨⟨2, 2, 2, 2⟩, ⟨"pool", some ⟨100, "in", ⟨[1, 3, 8, 8], DataLayout.NCHW⟩⟩, none⟩, ⟨[]⟩, 0⟩
      ⟨[1, 3, 4, 4], DataLayout.NCHW⟩ (by decide),
   createOutputTensors_idempotent.2
      ⟨⟨⟩, ⟨"relu", some ⟨100, "in", ⟨[1, 3, 8, 8], DataLayout.NCHW⟩⟩, none⟩, ⟨[]⟩, 0⟩
      ⟨100, "in", ⟨[1, 3, 8, 8], DataLayout.NCHW⟩⟩ rfl⟩

/-- Claim C16, evaluated: `PoolingOp::validate` fails the assertion
"Unimplemented!" on every operator, valid ones included; it never returns a
pass or fail result. -/
theorem PoolingOp.validate_unimplemented (s : OpState PoolingOp) :
    PoolingOp.validate s = .error ⟨"Unimplemented!", s⟩ ∧
      ∀ result : Bool, PoolingOp.validate s ≠ .ok result := by
  refine ⟨rfl, ?_⟩
  intro result h
  simp [PoolingOp.validate] at h

/-! ## Shape inference and the number of output feature maps -/

/-- For a 4-dimensional NCHW input, `inferOutputShape` keeps the layout, the
batch extent and the channel extent (dimension 1, the one `getNumOfmaps`
reports), and replaces the row and column extents by `calcOutputRows` and
`calcOutputCols`. -/
theorem inferOutputShape_nchw (op : PoolingOp) (d0 d1 d2 d3 : Int)
    (opname : String) (input : Tensor) (outputs : Option Tensor) (workspace : Workspace)
    (allocated : Nat) (hin : input.shape = ⟨[d0, d1, d2, d3], DataLayout.NCHW⟩) :
    PoolingOp.getNumOfmaps (fun _ t => t)
        ⟨op, ⟨opname, some input, outputs⟩, workspace, allocated⟩ = .ok (some d1) ∧
      PoolingOp.inferOutputShape ⟨op, ⟨opname, some input, outputs⟩, workspace, allocated⟩ =
        (op.calcOutputRows d2).bind fun outputRows =>
          (op.calcOutputCols d3).bind fun outputCols =>
            some ⟨[d0, d1, outputRows, outputCols], DataLayout.NCHW⟩ := by
  constructor
  · simp [PoolingOp.getNumOfmaps, hin, TensorShape.get]
  · simp only [PoolingOp.inferOutputShape, Option.some_bind, hin, PoolingOp.inferShape,
      TensorShape.get, decide_True, if_true, List.getElem?_cons_zero, List.getElem?_cons_succ]

/-- Claim C22, evaluated on every 4-dimensional NHWC input `d0 x d1 x d2 x d3`:
`getNumOfmaps` reports the channel extent `d3`, but the shape that
`inferOutputShape` returns has the batch extent `d0` in the channel position:
it is `d0 x calcOutputRows(d1) x calcOutputCols(d2) x d0`. -/
theorem inferOutputShape_nhwc_channels (op : PoolingOp) (d0 d1 d2 d3 : Int)
    (opname inname : String) (addr : Nat) (outputs : Option Tensor) (workspace : Workspace)
    (allocated : Nat) :
    PoolingOp.getNumOfmaps (fun _ t => t)
        ⟨op, ⟨opname, some ⟨addr, inname, ⟨[d0, d1, d2, d3], DataLayout.NHWC⟩⟩, outputs⟩,
          workspace, allocated⟩ = .ok (some d3) ∧
      PoolingOp.inferOutputShape
        ⟨op, ⟨opname, some ⟨addr, inname, ⟨[d0, d1, d2, d3], DataLayout.NHWC⟩⟩, outputs⟩,
          workspace, allocated⟩ =
        (op.calcOutputRows d1).bind fun outputRows =>
          (op.calcOutputCols d2).bind fun outputCols =>
            some ⟨[d0, outputRows, outputCols, d0], DataLayout.NHWC⟩ := by
  constructor
  · simp [PoolingOp.getNumOfmaps, TensorShape.get]
  · simp only [PoolingOp.inferOutputShape, Option.some_bind, PoolingOp.inferShape,
      TensorShape.get, List.getElem?_cons_zero, List.getElem?_cons_succ]
    rfl

/-- An NHWC input of shape 2x8x8x3 (batch 2, 8 rows, 8 columns, 3 channels)
with pool size 2 and stride 2: `getNumOfmaps` reports 3 channels and
`inferOutputShape` returns 2x4x4x2, not 2x4x4x3. -/
theorem inferOutputShape_nhwc_example :
    PoolingOp.getNumOfmaps (fun _ t => t)
        ⟨⟨2, 2, 2, 2⟩, ⟨"pool", some ⟨100, "in", ⟨[2, 8, 8, 3], DataLayout.NHWC⟩⟩, none⟩,
          ⟨[]⟩, 0⟩ = .ok (some 3) ∧
      PoolingOp.inferOutputShape
        ⟨⟨2, 2, 2, 2⟩, ⟨"pool", some ⟨100, "in", ⟨[2, 8, 8, 3], DataLayout.NHWC⟩⟩, none⟩,
          ⟨[]⟩, 0⟩ = some ⟨[2, 4, 4, 2], DataLayout.NHWC⟩ := by
  constructor
  · rfl
  · decide

/-! ## Pooling kernel: the window scan -/

/-- Before any position is scanned the running maximum is 0. -/
theorem clampedMaxOn_empty {α : Type} [LinearOrder α] [Zero α] (S : Int → Int → Prop)
    (f : Int → Int → α) (h : ∀ i j, ¬ S i j) : clampedMaxOn S f 0 :=
  ⟨le_refl _, fun i j hs => absurd hs (h i j), Or.inl rfl⟩

/-- Scanning the position `(a, b)` turns the running maximum `v` into
`max v (f a b)`. -/
theorem clampedMaxOn_insert {α : Type} [LinearOrder α] [Zero α] (S T : Int → Int → Prop)
    (f : Int → Int → α) (v : α) (a b : Int) (h : clampedMaxOn S f v)
    (hT : ∀ i j, T i j ↔ S i j ∨ (i = a ∧ j = b)) : clampedMaxOn T f (max v (f a b)) := by
  obtain ⟨h0, hub, hmem⟩ := h
  refine ⟨le_trans h0 (le_max_left _ _), ?_, ?_⟩
  · intro i j hij
    rcases (hT i j).1 hij with hs | ⟨rfl, rfl⟩
    · exact le_trans (hub i j hs) (le_max_left _ _)
    · exact le_max_right _ _
  · rcases max_choice v (f a b) with e | e
    · rw [e]
      rcases hmem with hz | ⟨i, j, hs, hv⟩
      · exact Or.inl hz
      · exact Or.inr ⟨i, j, (hT i j).2 (Or.inl hs), hv⟩
    · rw [e]
      exact Or.inr ⟨a, b, (hT a b).2 (Or.inr ⟨rfl, rfl⟩), rfl⟩

/-- The running maximum depends only on which positions were scanned. -/
theorem clampedMaxOn_congr {α : Type} [LinearOrder α] [Zero α] (S T : Int → Int → Prop)
    (f : Int → Int → α) (v : α) (hT : ∀ i j, S i j ↔ T i j) (h : clampedMaxOn S f v) :
    clampedMaxOn T f v := by
  obtain ⟨h0, hub, hmem⟩ := h
  refine ⟨h0, fun i j hij => hub i j ((hT i j).2 hij), ?_⟩
  rcases hmem with hz | ⟨i, j, hs, hv⟩
  · exact Or.inl hz
  · exact Or.inr ⟨i, j, (hT i j).1 hs, hv⟩

/-- Loop `maxpool_compare` replaces each of the 8 lanes of `curr_results` by
the larger of it and the lane of `next_pixels`. -/
theorem maxpool_compare_lane {α : Type} [LinearOrder α] (next_pixels curr_results : Lanes α)
    (px : Nat) (hpx : px < VECTOR_SIZE) :
    (maxpool_compare next_pixels curr_results).lane px =
      max (curr_results.lane px) (next_pixels.lane px) := by
  have h := foldl_range_invariant
    (fun (k : Nat) (c : Lanes α) => ∀ p : Nat, c.lane p =
      if p < k then max (curr_results.lane p) (next_pixels.lane p) else curr_results.lane p)
    (fun (cr : Lanes α) (p : Nat) =>
      if cr.lane p < next_pixels.lane p then cr.set p (next_pixels.lane p) else cr)
    VECTOR_SIZE curr_results (fun p => by simp)
    (fun k s _ hs p => by
      beta_reduce at hs ⊢
      have hk := hs k
      rw [if_neg (lt_irrefl k)] at hk
      by_cases hlt : s.lane k < next_pixels.lane k
      · rw [if_pos hlt]
        by_cases hp : p = k
        · subst hp
          rw [if_pos (Nat.lt_succ_self p)]
          simp only [Lanes.set, store, if_true]
          rw [hk] at hlt
          exact (max_eq_right (le_of_lt hlt)).symm
        · simp only [Lanes.set, store, if_neg hp]
          rw [hs p]
          by_cases hpk : p < k
          · rw [if_pos hpk, if_pos (Nat.lt_succ_of_lt hpk)]
          · rw [if_neg hpk, if_neg (by omega)]
      · rw [if_neg hlt]
        by_cases hp : p = k
        · subst hp
          rw [if_pos (Nat.lt_succ_self p), hk]
          rw [hk] at hlt
          exact (max_eq_left (not_lt.1 hlt)).symm
        · rw [hs p]
          by_cases hpk : p < k
          · rw [if_pos hpk, if_pos (Nat.lt_succ_of_lt hpk)]
          · rw [if_neg hpk, if_neg (by omega)])
  have hp := h px
  rw [if_pos hpx] at hp
  exact hp

/-- Loop `maxpool_load_chan_px` leaves the results buffer and the write log as
they were, reads only the 8 lanes of the pixel `[chan_grp][r][c]`, and loads
them into `next_pixels`. -/
theorem maxpool_load_chan_px_spec {α : Type} (inputs : Int → α)
    (a_rows a_cols chan_grp r c : Int) (st : PoolMem α × Lanes α) :
    (maxpool_load_chan_px inputs a_rows a_cols chan_grp r c st).1.results = st.1.results ∧
    (maxpool_load_chan_px inputs a_rows a_cols chan_grp r c st).1.writes = st.1.writes ∧
    (∀ idx ∈ (maxpool_load_chan_px inputs a_rows a_cols chan_grp r c st).1.reads,
      idx ∈ st.1.reads ∨ ∃ px : Nat, px < VECTOR_SIZE ∧ idx = (chan_grp, r, c, (px : Int))) ∧
    (∀ px : Nat, px < VECTOR_SIZE →
      (maxpool_load_chan_px inputs a_rows a_cols chan_grp r c st).2.lane px =
        inputs (ARRAY_4D a_rows a_cols VECTOR_SIZE chan_grp r c px)) := by
  have h := foldl_range_invariant
    (fun (k : Nat) (s : PoolMem α × Lanes α) =>
      s.1.results = st.1.results ∧ s.1.writes = st.1.writes ∧
      (∀ idx ∈ s.1.reads,
        idx ∈ st.1.reads ∨ ∃ px : Nat, px < VECTOR_SIZE ∧ idx = (chan_grp, r, c, (px : Int))) ∧
      (∀ px : Nat, px < k →
        s.2.lane px = inputs (ARRAY_4D a_rows a_cols VECTOR_SIZE chan_grp r c px)))
    (fun (s : PoolMem α × Lanes α) (px : Nat) =>
      ({ s.1 with reads := s.1.reads ++ [(chan_grp, r, c, (px : Int))] },
       s.2.set px (inputs (ARRAY_4D a_rows a_cols VECTOR_SIZE chan_grp r c px))))
    VECTOR_SIZE st
    ⟨rfl, rfl, fun idx hidx => Or.inl hidx, fun px hpx => absurd hpx (Nat.not_lt_zero px)⟩
    (fun k s hk hs => by
      beta_reduce at hs ⊢
      obtain ⟨h1, h2, h3, h4⟩ := hs
      refine ⟨h1, h2, ?_, ?_⟩
      · intro idx hidx
        rcases List.mem_append.1 hidx with hold | hnew
        · exact h3 idx hold
        · exact Or.inr ⟨k, hk, List.mem_singleton.1 hnew⟩
      · intro px hpx
        by_cases hp : px = k
        · subst hp
          simp only [Lanes.set, store, if_true]
        · simp only [Lanes.set, store, if_neg hp]
          exact h4 px (by omega))
  exact h

/-- The scan invariant depends only on which positions were scanned. -/
theorem scanInv_congr {α : Type} [LinearOrder α] [Zero α] (inputs : Int → α)
    (a_rows a_cols chan_grp row col : Int) (Rd : Idx4 → Prop) (res0 : Int → α)
    (w0 : List Idx4) (S T : Int → Int → Prop) (s : PoolLocals α) (hT : ∀ i j, S i j ↔ T i j)
    (hs : scanInv inputs a_rows a_cols chan_grp row col Rd res0 w0 S s) :
    scanInv inputs a_rows a_cols chan_grp row col Rd res0 w0 T s := by
  obtain ⟨h1, h2, h3, h4⟩ := hs
  exact ⟨h1, h2, h3, fun px hpx => clampedMaxOn_congr S T _ _ hT (h4 px hpx)⟩

/-- One iteration of loop `maxpool_pool_col`, at `(pool_i, pool_j) = (i, j)`:
the load and the compare add the position `(i, j)` to the scanned ones. -/
theorem scanInv_step {α : Type} [LinearOrder α] [Zero α] (inputs : Int → α)
    (a_rows a_cols chan_grp row col : Int) (Rd : Idx4 → Prop) (res0 : Int → α)
    (w0 : List Idx4) (S T : Int → Int → Prop) (i j : Int) (s : PoolLocals α)
    (hs : scanInv inputs a_rows a_cols chan_grp row col Rd res0 w0 S s)
    (hRd : ∀ px : Nat, px < VECTOR_SIZE → Rd (chan_grp, row + i, col + j, (px : Int)))
    (hT : ∀ a b, T a b ↔ S a b ∨ (a = i ∧ b = j)) :
    scanInv inputs a_rows a_cols chan_grp row col Rd res0 w0 T
      { mem := (maxpool_load_chan_px inputs a_rows a_cols chan_grp (row + i) (col + j)
          (s.mem, s.next_pixels)).1,
        curr_results := maxpool_compare
          (maxpool_load_chan_px inputs a_rows a_cols chan_grp (row + i) (col + j)
            (s.mem, s.next_pixels)).2 s.curr_results,
        next_pixels := (maxpool_load_chan_px inputs a_rows a_cols chan_grp (row + i) (col + j)
          (s.mem, s.next_pixels)).2 } := by
  obtain ⟨l1, l2, l3, l4⟩ := maxpool_load_chan_px_spec inputs a_rows a_cols chan_grp
    (row + i) (col + j) (s.mem, s.next_pixels)
  obtain ⟨h1, h2, h3, h4⟩ := hs
  refine ⟨l1.trans h1, l2.trans h2, ?_, ?_⟩
  · intro idx hidx
    rcases l3 idx hidx with hold | ⟨px, hpx, rfl⟩
    · exact h3 idx hold
    · exact hRd px hpx
  · intro px hpx
    show clampedMaxOn T _ ((maxpool_compare _ s.curr_results).lane px)
    rw [maxpool_compare_lane _ _ px hpx, l4 px hpx]
    exact clampedMaxOn_insert S T _ _ i j (h4 px hpx) hT

/-- Loop `maxpool_pool_col` at `pool_i = a` scans row `a` of the window. -/
theorem maxpool_pool_col_scan {α : Type} [LinearOrder α] [Zero α] (inputs : Int → α)
    (a_rows a_cols pool_size chan_grp row col : Int) (Rd : Idx4 → Prop) (res0 : Int → α)
    (w0 : List Idx4) (a : Int) (ha : 0 ≤ a) (haP : a < pool_size) (s : PoolLocals α)
    (hs : scanInv inputs a_rows a_cols chan_grp row col Rd res0 w0 (scanned pool_size a 0) s)
    (hRd : ∀ (i j : Int) (px : Nat), 0 ≤ i → i < pool_size → 0 ≤ j → j < pool_size →
      px < VECTOR_SIZE → Rd (chan_grp, row + i, col + j, (px : Int))) :
    scanInv inputs a_rows a_cols chan_grp row col Rd res0 w0 (scanned pool_size (a + 1) 0)
      (maxpool_pool_col inputs a_rows a_cols pool_size chan_grp row col a s) := by
  unfold maxpool_pool_col forRange
  have h := foldl_range_invariant
    (fun (k : Nat) (t : PoolLocals α) =>
      scanInv inputs a_rows a_cols chan_grp row col Rd res0 w0 (scanned pool_size a k) t)
    (fun (t : PoolLocals α) (k : Nat) =>
      ({ mem := (maxpool_load_chan_px inputs a_rows a_cols chan_grp (row + a)
            (col + (0 + (k : Int))) (t.mem, t.next_pixels)).1,
         curr_results := maxpool_compare
            (maxpool_load_chan_px inputs a_rows a_cols chan_grp (row + a)
              (col + (0 + (k : Int))) (t.mem, t.next_pixels)).2 t.curr_results,
         next_pixels := (maxpool_load_chan_px inputs a_rows a_cols chan_grp (row + a)
            (col + (0 + (k : Int))) (t.mem, t.next_pixels)).2 } : PoolLocals α))
    (pool_size - 0).toNat s hs
    (fun k t hk ht => by
      beta_reduce at ht ⊢
      refine scanInv_step inputs a_rows a_cols chan_grp row col Rd res0 w0
        (scanned pool_size a k) (scanned pool_size a ((k + 1 : Nat) : Int)) a (0 + (k : Int)) t ht
        (fun px hpx => hRd a (0 + (k : Int)) px ha haP (by omega) (by omega) hpx) ?_
      intro i j
      unfold scanned
      push_cast
      omega)
  refine scanInv_congr inputs a_rows a_cols chan_grp row col Rd res0 w0 _ _ _ ?_ h
  intro i j
  unfold scanned
  omega

/-- Loop `maxpool_pool_row` scans the whole window. -/
theorem maxpool_pool_row_scan {α : Type} [LinearOrder α] [Zero α] (inputs : Int → α)
    (a_rows a_cols pool_size chan_grp row col : Int) (Rd : Idx4 → Prop) (res0 : Int → α)
    (w0 : List Idx4) (s : PoolLocals α)
    (hs : scanInv inputs a_rows a_cols chan_grp row col Rd res0 w0 (scanned pool_size 0 0) s)
    (hRd : ∀ (i j : Int) (px : Nat), 0 ≤ i → i < pool_size → 0 ≤ j → j < pool_size →
      px < VECTOR_SIZE → Rd (chan_grp, row + i, col + j, (px : Int))) :
    scanInv inputs a_rows a_cols chan_grp row col Rd res0 w0
      (fun i j => (0 ≤ i ∧ i < pool_size) ∧ (0 ≤ j ∧ j < pool_size))
      (maxpool_pool_row inputs a_rows a_cols pool_size chan_grp row col s) := by
  unfold maxpool_pool_row forRange
  have h := foldl_range_invariant
    (fun (k : Nat) (t : PoolLocals α) =>
      scanInv inputs a_rows a_cols chan_grp row col Rd res0 w0 (scanned pool_size k 0) t)
    (fun (t : PoolLocals α) (k : Nat) =>
      maxpool_pool_col inputs a_rows a_cols pool_size chan_grp row col (0 + (k : Int)) t)
    (pool_size - 0).toNat s hs
    (fun k t hk ht => by
      beta_reduce at ht ⊢
      have h1 := maxpool_pool_col_scan inputs a_rows a_cols pool_size chan_grp row col Rd
        res0 w0 (0 + (k : Int)) (by omega) (by omega) t
        (scanInv_congr inputs a_rows a_cols chan_grp row col Rd res0 w0 _ _ _
          (fun i j => by unfold scanned; omega) ht) hRd
      refine scanInv_congr inputs a_rows a_cols chan_grp row col Rd res0 w0 _ _ _ ?_ h1
      intro i j
      unfold scanned
      push_cast
      omega)
  refine scanInv_congr inputs a_rows a_cols chan_grp row col Rd res0 w0 _ _ _ ?_ h
  intro i j
  unfold scanned
  omega

/-- The lanes of one pixel are consecutive in memory. -/
theorem ARRAY_4D_lane (d1 d2 i0 i1 i2 px : Int) :
    ARRAY_4D d1 d2 VECTOR_SIZE i0 i1 i2 px = ARRAY_4D d1 d2 VECTOR_SIZE i0 i1 i2 0 + px := by
  unfold ARRAY_4D
  ring

/-- Loop `maxpool_commit` logs 8 writes, stores the 8 lanes of `curr_results` at
the output position, leaves the read log as it was, and leaves the results
buffer below the output position as it was. -/
theorem maxpool_commit_spec {α : Type} (result_rows result_cols chan_grp out_row out_col : Int)
    (curr_results : Lanes α) (mem : PoolMem α) :
    (maxpool_commit result_rows result_cols chan_grp out_row out_col curr_results mem).reads =
      mem.reads ∧
    (maxpool_commit result_rows result_cols chan_grp out_row out_col curr_results mem).writes =
      mem.writes ++
        (List.range VECTOR_SIZE).map (fun (px : Nat) => (chan_grp, out_row, out_col, (px : Int))) ∧
    (∀ px : Nat, px < VECTOR_SIZE →
      (maxpool_commit result_rows result_cols chan_grp out_row out_col curr_results mem).results
        (ARRAY_4D result_rows result_cols VECTOR_SIZE chan_grp out_row out_col px) =
        curr_results.lane px) ∧
    (∀ o : Int, o < ARRAY_4D result_rows result_cols VECTOR_SIZE chan_grp out_row out_col 0 →
      (maxpool_commit result_rows result_cols chan_grp out_row out_col curr_results mem).results o =
        mem.results o) := by
  have h := foldl_range_invariant
    (fun (k : Nat) (m : PoolMem α) =>
      m.reads = mem.reads ∧
      m.writes = mem.writes ++
        (List.range k).map (fun (px : Nat) => (chan_grp, out_row, out_col, (px : Int))) ∧
      (∀ px : Nat, px < k →
        m.results (ARRAY_4D result_rows result_cols VECTOR_SIZE chan_grp out_row out_col px) =
          curr_results.lane px) ∧
      (∀ o : Int, o < ARRAY_4D result_rows result_cols VECTOR_SIZE chan_grp out_row out_col 0 →
        m.results o = mem.results o))
    (fun (m : PoolMem α) (commit_i : Nat) =>
      ({ m with
        results := store m.results
          (ARRAY_4D result_rows result_cols VECTOR_SIZE chan_grp out_row out_col commit_i)
          (curr_results.lane commit_i),
        writes := m.writes ++ [(chan_grp, out_row, out_col, (commit_i : Int))] } : PoolMem α))
    VECTOR_SIZE mem
    ⟨rfl, by simp, fun px hpx => absurd hpx (Nat.not_lt_zero px), fun o _ => rfl⟩
    (fun k m _ hm => by
      beta_reduce at hm ⊢
      obtain ⟨h1, h2, h3, h4⟩ := hm
      refine ⟨h1, ?_, ?_, ?_⟩
      · show m.writes ++ [_] = _
        rw [h2, List.range_succ, List.map_append, List.append_assoc]
        rfl
      · intro px hpx
        show store m.results _ _ _ = _
        unfold store
        by_cases hp : px = k
        · subst hp
          rw [if_pos rfl]
        · rw [if_neg, h3 px (by omega)]
          rw [ARRAY_4D_lane _ _ _ _ _ (px : Int), ARRAY_4D_lane _ _ _ _ _ (k : Int)]
          omega
      · intro o ho
        show store m.results _ _ _ = _
        unfold store
        rw [if_neg, h4 o ho]
        rw [ARRAY_4D_lane _ _ _ _ _ (k : Int)]
        omega)
  exact h

/-! ## Pooling kernel: the invariant of the output loops -/

/-- The output position after `[chan_grp][out_row][out_col]` is 8 elements
further. -/
theorem ARRAY_4D_next_col (d1 d2 i0 i1 i2 : Int) :
    ARRAY_4D d1 d2 VECTOR_SIZE i0 i1 (i2 + 1) 0 = ARRAY_4D d1 d2 VECTOR_SIZE i0 i1 i2 0 + 8 := by
  unfold ARRAY_4D VECTOR_SIZE
  push_cast
  ring

/-- The end of a row of the results array is the start of the next row. -/
theorem ARRAY_4D_next_row (d1 d2 i0 i1 : Int) :
    ARRAY_4D d1 d2 VECTOR_SIZE i0 i1 d2 0 = ARRAY_4D d1 d2 VECTOR_SIZE i0 (i1 + 1) 0 0 := by
  unfold ARRAY_4D
  ring

/-- The end of a channel group of the results array is the start of the next
one. -/
theorem ARRAY_4D_next_grp (d1 d2 i0 : Int) :
    ARRAY_4D d1 d2 VECTOR_SIZE i0 d1 0 0 = ARRAY_4D d1 d2 VECTOR_SIZE (i0 + 1) 0 0 0 := by
  unfold ARRAY_4D
  ring

/-- The loop variable of iteration `k` of `for (v = 0; v < stop; v += step)` is
below `stop`. -/
theorem lt_of_lt_iterCount (stop step : Int) (k : Nat) (hstep : 1 ≤ step)
    (hk : k < iterCount 0 stop step) : (k : Int) * step < stop := by
  unfold iterCount at hk
  have h1 : (k : Int) < (stop - 0 + step - 1) / step := Int.lt_toNat.1 hk
  have h2 : ((k : Int) + 1) * step ≤ stop - 0 + step - 1 :=
    (Int.le_ediv_iff_mul_le (by omega)).1 (by omega)
  have h3 : ((k : Int) + 1) * step = (k : Int) * step + step := by ring
  omega

/-- A monadic fold whose body succeeds whenever the invariant holds, and then
re-establishes it, succeeds and keeps the invariant. -/
theorem foldlM_range_invariant_some {σ : Type} (P : Nat → σ → Prop)
    (body : σ → Nat → Option σ) :
    ∀ (n : Nat) (st : σ), P 0 st →
      (∀ k s, k < n → P k s → ∃ s1, body s k = some s1 ∧ P (k + 1) s1) →
      ∃ s1, (List.range n).foldlM body st = some s1 ∧ P n s1 := by
  intro n
  induction n with
  | zero => intro st h0 _; exact ⟨st, rfl, h0⟩
  | succ n ih =>
    intro st h0 hstep
    obtain ⟨s1, h1, h2⟩ := ih st h0 (fun k s hk => hstep k s (Nat.lt_succ_of_lt hk))
    obtain ⟨s2, h3, h4⟩ := hstep n s1 (Nat.lt_succ_self n) h2
    refine ⟨s2, ?_, h4⟩
    rw [List.range_succ, List.foldlM_append, h1]
    simp [h3]

/-- The flat offset of an index inside a `d0 x d1 x d2 x d3` array lies inside
a buffer of `d0 * d1 * d2 * d3` elements. -/
theorem Idx4.flat_inBounds (d0 d1 d2 d3 : Int) (idx : Idx4)
    (h : Idx4.inBounds d0 d1 d2 d3 idx) :
    0 ≤ idx.flat d1 d2 d3 ∧ idx.flat d1 d2 d3 < d0 * d1 * d2 * d3 := by
  obtain ⟨⟨a0, a1⟩, ⟨b0, b1⟩, ⟨c0, c1⟩, ⟨e0, e1⟩⟩ := h
  unfold Idx4.flat ARRAY_4D
  have hx0 : 0 ≤ idx.1 * d1 + idx.2.1 := add_nonneg (mul_nonneg a0 (by omega)) b0
  have hx1 : idx.1 * d1 + idx.2.1 + 1 ≤ d0 * d1 := by
    have := mul_le_mul_of_nonneg_right (show idx.1 + 1 ≤ d0 by omega) (show 0 ≤ d1 by omega)
    linarith
  have hy0 : 0 ≤ (idx.1 * d1 + idx.2.1) * d2 + idx.2.2.1 :=
    add_nonneg (mul_nonneg hx0 (by omega)) c0
  have hy1 : (idx.1 * d1 + idx.2.1) * d2 + idx.2.2.1 + 1 ≤ d0 * d1 * d2 := by
    have := mul_le_mul_of_nonneg_right hx1 (show 0 ≤ d2 by omega)
    linarith
  constructor
  · exact add_nonneg (mul_nonneg hy0 (by omega)) e0
  · have := mul_le_mul_of_nonneg_right hy1 (show 0 ≤ d3 by omega)
    linarith

/-- Two numbers `x * d + p` and `y * d + q` with digits `p, q` below `d` are
equal only if `x = y` and `p = q`. -/
theorem digit_inj (d x y p q : Int) (hp : 0 ≤ p ∧ p < d) (hq : 0 ≤ q ∧ q < d)
    (h : x * d + p = y * d + q) : x = y ∧ p = q := by
  have hx : x = y := by
    rcases lt_trichotomy x y with hlt | heq | hgt
    · have := mul_le_mul_of_nonneg_right (show x + 1 ≤ y by omega) (show 0 ≤ d by omega)
      have e : (x + 1) * d = x * d + d := by ring
      omega
    · exact heq
    · have := mul_le_mul_of_nonneg_right (show y + 1 ≤ x by omega) (show 0 ≤ d by omega)
      have e : (y + 1) * d = y * d + d := by ring
      omega
  subst hx
  exact ⟨rfl, by omega⟩

/-- One output position keeps the invariant of the kernel: the window at rows
`out_row * stride ..` and columns `out_col * stride ..` lies inside the input,
and the 8 lanes of its result are written above everything written before. -/
theorem maxpool_position_inv {α : Type} [LinearOrder α] [Zero α] (inputs : Int → α)
    (G rows cols R C P S g orow ocol : Int) (mem : PoolMem α)
    (hg : 0 ≤ g ∧ g < G) (hor : 0 ≤ orow ∧ orow < R) (hoc : 0 ≤ ocol ∧ ocol < C)
    (hrow : 0 ≤ orow * S ∧ orow * S + P ≤ rows) (hcol : 0 ≤ ocol * S ∧ ocol * S + P ≤ cols)
    (hinv : poolInv inputs G rows cols R C P S (ARRAY_4D R C VECTOR_SIZE g orow ocol 0) mem) :
    poolInv inputs G rows cols R C P S (ARRAY_4D R C VECTOR_SIZE g orow (ocol + 1) 0)
      (maxpool_position inputs rows cols R C P g (orow * S) orow (ocol * S) (mem, ocol)).1 := by
  obtain ⟨hlen, hreads, hwrites, hcover⟩ := hinv
  have hv : VECTOR_SIZE = 8 := rfl
  obtain ⟨s1, s2, s3, s4⟩ := maxpool_pool_row_scan inputs rows cols P g (orow * S) (ocol * S)
    (Idx4.inBounds G rows cols VECTOR_SIZE) mem.results mem.writes
    { mem := mem, curr_results := ⟨fun _ => 0⟩, next_pixels := ⟨fun _ => 0⟩ }
    ⟨rfl, rfl, hreads, fun px _ => clampedMaxOn_empty _ _ (fun i j => by unfold scanned; omega)⟩
    (fun i j px hi0 hi hj0 hj hpx => by
      rw [hv] at hpx
      refine ⟨hg, ⟨?_, ?_⟩, ⟨?_, ?_⟩, ⟨?_, ?_⟩⟩
      · show 0 ≤ orow * S + i
        omega
      · show orow * S + i < rows
        omega
      · show 0 ≤ ocol * S + j
        omega
      · show ocol * S + j < cols
        omega
      · show (0 : Int) ≤ (px : Int)
        omega
      · show (px : Int) < ((8 : Nat) : Int)
        omega)
  obtain ⟨c1, c2, c3, c4⟩ := maxpool_commit_spec R C g orow ocol
    (maxpool_pool_row inputs rows cols P g (orow * S) (ocol * S)
      { mem := mem, curr_results := ⟨fun _ => 0⟩, next_pixels := ⟨fun _ => 0⟩ }).curr_results
    (maxpool_pool_row inputs rows cols P g (orow * S) (ocol * S)
      { mem := mem, curr_results := ⟨fun _ => 0⟩, next_pixels := ⟨fun _ => 0⟩ }).mem
  have hbase := ARRAY_4D_next_col R C g orow ocol
  show poolInv inputs G rows cols R C P S _
    (maxpool_commit R C g orow ocol
      (maxpool_pool_row inputs rows cols P g (orow * S) (ocol * S)
        { mem := mem, curr_results := ⟨fun _ => 0⟩, next_pixels := ⟨fun _ => 0⟩ }).curr_results
      (maxpool_pool_row inputs rows cols P g (orow * S) (ocol * S)
        { mem := mem, curr_results := ⟨fun _ => 0⟩, next_pixels := ⟨fun _ => 0⟩ }).mem)
  refine ⟨?_, ?_, ?_, ?_⟩
  · rw [c2, s2, List.length_append, List.length_map, List.length_range, hbase]
    have e : (VECTOR_SIZE : Int) = 8 := rfl
    push_cast
    omega
  · rw [c1]
    exact s3
  · intro idx hidx
    rw [c2, s2] at hidx
    rcases List.mem_append.1 hidx with hold | hnew
    · obtain ⟨b1, b2, b3⟩ := hwrites idx hold
      refine ⟨b1, by rw [hbase]; omega, ?_⟩
      unfold windowResult at b3 ⊢
      rw [c4 _ b2, s1]
      exact b3
    · obtain ⟨px, hpx, rfl⟩ := List.mem_map.1 hnew
      have hpx8 : px < VECTOR_SIZE := List.mem_range.1 hpx
      refine ⟨⟨hg, hor, hoc, ?_, ?_⟩, ?_, ?_⟩
      · show (0 : Int) ≤ (px : Int)
        omega
      · show (px : Int) < (VECTOR_SIZE : Int)
        exact_mod_cast hpx8
      · show ARRAY_4D R C VECTOR_SIZE g orow ocol px < _
        rw [ARRAY_4D_lane, hbase]
        rw [hv] at hpx8
        omega
      · have h4 := s4 px hpx8
        rw [← c3 px hpx8] at h4
        exact h4
  · intro idx hb hlt
    rw [c2, s2]
    by_cases hlow : idx.flat R C VECTOR_SIZE < ARRAY_4D R C VECTOR_SIZE g orow ocol 0
    · exact List.mem_append.2 (Or.inl (hcover idx hb hlow))
    · obtain ⟨-, ⟨b0, b1⟩, ⟨d0, d1⟩, ⟨e0, e1⟩⟩ := hb
      rw [hbase] at hlt
      have hflat : idx.flat R C VECTOR_SIZE =
          ((idx.1 * R + idx.2.1) * C + idx.2.2.1) * 8 + idx.2.2.2 := rfl
      have hb0 : ARRAY_4D R C VECTOR_SIZE g orow ocol 0 = ((g * R + orow) * C + ocol) * 8 := by
        unfold ARRAY_4D VECTOR_SIZE
        push_cast
        ring
      have e8 : (VECTOR_SIZE : Int) = 8 := rfl
      rw [e8] at e1
      rw [hflat, hb0] at hlow hlt
      have hX : (idx.1 * R + idx.2.1) * C + idx.2.2.1 = (g * R + orow) * C + ocol := by omega
      obtain ⟨hY, hc⟩ := digit_inj C _ _ _ _ ⟨d0, d1⟩ hoc hX
      obtain ⟨hgi, hr⟩ := digit_inj R _ _ _ _ ⟨b0, b1⟩ hor hY
      refine List.mem_append.2 (Or.inr (List.mem_map.2
        ⟨idx.2.2.2.toNat, List.mem_range.2 (by rw [hv]; omega), ?_⟩))
      rw [Int.toNat_of_nonneg e0, ← hgi, ← hr, ← hc]

/-- The column loop of output row `out_row` returns and keeps the invariant,
when the results array has as many columns as the loop has iterations. -/
theorem maxpool_chan_input_col_inv {α : Type} [LinearOrder α] [Zero α] (inputs : Int → α)
    (G rows cols R C P S g orow : Int) (mem : PoolMem α) (hS : 1 ≤ S)
    (hC : ((iterCount 0 (cols - P + 1) S : Nat) : Int) = C)
    (hg : 0 ≤ g ∧ g < G) (hor : 0 ≤ orow ∧ orow < R)
    (hrow : 0 ≤ orow * S ∧ orow * S + P ≤ rows)
    (hinv : poolInv inputs G rows cols R C P S (ARRAY_4D R C VECTOR_SIZE g orow 0 0) mem) :
    ∃ s1, maxpool_chan_input_col inputs rows cols R C P S g (orow * S) orow mem = some s1 ∧
      poolInv inputs G rows cols R C P S (ARRAY_4D R C VECTOR_SIZE g (orow + 1) 0 0) s1.1 := by
  unfold maxpool_chan_input_col
  simp only []
  rw [forLoop_eq_foldlM _ _ _ hS _ _ _ (by omega)]
  obtain ⟨s1, h1, h2, h3⟩ := foldlM_range_invariant
    (fun (k : Nat) (s : PoolMem α × Int) =>
      s.2 = (k : Int) ∧
        poolInv inputs G rows cols R C P S (ARRAY_4D R C VECTOR_SIZE g orow (k : Int) 0) s.1)
    (fun (s : PoolMem α × Int) (k : Nat) =>
      maxpool_position inputs rows cols R C P g (orow * S) orow (0 + (k : Int) * S) s)
    (iterCount 0 (cols - P + 1) S) (mem, 0) ⟨rfl, hinv⟩
    (fun k s hk hs => by
      beta_reduce at hs ⊢
      obtain ⟨hs2, hs1⟩ := hs
      have hlt := lt_of_lt_iterCount (cols - P + 1) S k hS hk
      have hnn : 0 ≤ (k : Int) * S := mul_nonneg (by omega) (by omega)
      have hkC : (k : Int) < C := by omega
      have e : s = (s.1, (k : Int)) := by rw [← hs2]
      rw [e, zero_add]
      refine ⟨rfl, ?_⟩
      have h := maxpool_position_inv inputs G rows cols R C P S g orow (k : Int) s.1 hg hor
        ⟨by omega, hkC⟩ hrow ⟨hnn, by omega⟩ hs1
      push_cast
      exact h)
  refine ⟨s1, h1, ?_⟩
  rw [hC] at h3
  rw [← ARRAY_4D_next_row]
  exact h3

/-- The row loop of channel group `chan_grp` returns and keeps the invariant,
when the results array has as many rows and columns as the loops have
iterations. -/
theorem maxpool_chan_input_row_inv {α : Type} [LinearOrder α] [Zero α] (inputs : Int → α)
    (G rows cols R C P S g : Int) (mem : PoolMem α) (hS : 1 ≤ S)
    (hR : ((iterCount 0 (rows - P + 1) S : Nat) : Int) = R)
    (hC : ((iterCount 0 (cols - P + 1) S : Nat) : Int) = C)
    (hg : 0 ≤ g ∧ g < G)
    (hinv : poolInv inputs G rows cols R C P S (ARRAY_4D R C VECTOR_SIZE g 0 0 0) mem) :
    ∃ s1, maxpool_chan_input_row inputs rows cols R C P S g mem = some s1 ∧
      poolInv inputs G rows cols R C P S (ARRAY_4D R C VECTOR_SIZE (g + 1) 0 0 0) s1.1 := by
  unfold maxpool_chan_input_row
  simp only []
  rw [forLoop_eq_foldlM _ _ _ hS _ _ _ (by omega)]
  obtain ⟨s1, h1, h2, h3⟩ := foldlM_range_invariant_some
    (fun (k : Nat) (s : PoolMem α × Int) =>
      s.2 = (k : Int) ∧
        poolInv inputs G rows cols R C P S (ARRAY_4D R C VECTOR_SIZE g (k : Int) 0 0) s.1)
    (fun (s : PoolMem α × Int) (k : Nat) =>
      match maxpool_chan_input_col inputs rows cols R C P S g (0 + (k : Int) * S) s.2 s.1 with
      | none => none
      | some s1 => some (s1.1, s.2 + 1))
    (iterCount 0 (rows - P + 1) S) (mem, 0) ⟨rfl, hinv⟩
    (fun k s hk hs => by
      beta_reduce at hs ⊢
      obtain ⟨hs2, hs1⟩ := hs
      have hlt := lt_of_lt_iterCount (rows - P + 1) S k hS hk
      have hnn : 0 ≤ (k : Int) * S := mul_nonneg (by omega) (by omega)
      have hkR : (k : Int) < R := by omega
      obtain ⟨c, hc1, hc2⟩ := maxpool_chan_input_col_inv inputs G rows cols R C P S g (k : Int)
        s.1 hS hC hg ⟨by omega, hkR⟩ ⟨hnn, by omega⟩ hs1
      rw [hs2, zero_add, hc1]
      refine ⟨(c.1, (k : Int) + 1), rfl, ?_, ?_⟩
      · push_cast
        rfl
      · push_cast
        exact hc2)
  refine ⟨s1, h1, ?_⟩
  rw [hR] at h3
  rw [← ARRAY_4D_next_grp]
  exact h3

/-- On a layer with `stride ≥ 1` whose results array has as many rows and
columns as the loops have iterations, the kernel returns, and the invariant
holds of the memory it leaves, all of the results having been written. -/
theorem maxpooling_nhwc_smiv_fxp_inv {α : Type} [LinearOrder α] [Zero α] (inputs : Int → α)
    (curr_layer : layer_t) (results : Int → α) (hS : 1 ≤ curr_layer.field_stride)
    (hR : ((iterCount 0 (curr_layer.inputs.rows - curr_layer.weights.cols + 1)
      curr_layer.field_stride : Nat) : Int) = curr_layer.outputs.rows)
    (hC : ((iterCount 0 (curr_layer.inputs.cols - curr_layer.weights.cols + 1)
      curr_layer.field_stride : Nat) : Int) = curr_layer.outputs.cols) :
    ∃ m, maxpooling_nhwc_smiv_fxp inputs curr_layer results = some m ∧
      poolInv inputs (FRAC_CEIL curr_layer.inputs.height VECTOR_SIZE) curr_layer.inputs.rows
        curr_layer.inputs.cols curr_layer.outputs.rows curr_layer.outputs.cols
        curr_layer.weights.cols curr_layer.field_stride
        (ARRAY_4D curr_layer.outputs.rows curr_layer.outputs.cols VECTOR_SIZE
          ((FRAC_CEIL curr_layer.inputs.height VECTOR_SIZE).toNat : Int) 0 0 0) m := by
  unfold maxpooling_nhwc_smiv_fxp
  simp only []
  exact foldlM_range_invariant_some
    (fun (g : Nat) (m : PoolMem α) =>
      poolInv inputs (FRAC_CEIL curr_layer.inputs.height VECTOR_SIZE) curr_layer.inputs.rows
        curr_layer.inputs.cols curr_layer.outputs.rows curr_layer.outputs.cols
        curr_layer.weights.cols curr_layer.field_stride
        (ARRAY_4D curr_layer.outputs.rows curr_layer.outputs.cols VECTOR_SIZE (g : Int) 0 0 0) m)
    (fun (mem : PoolMem α) (chan_grp : Nat) =>
      (maxpool_chan_input_row inputs curr_layer.inputs.rows curr_layer.inputs.cols
        curr_layer.outputs.rows curr_layer.outputs.cols curr_layer.weights.cols
        curr_layer.field_stride (chan_grp : Int) mem).map Prod.fst)
    (FRAC_CEIL curr_layer.inputs.height VECTOR_SIZE).toNat
    { results := results, reads := [], writes := [] }
    ⟨by simp [ARRAY_4D], fun idx hidx => absurd hidx (List.not_mem_nil idx),
      fun idx hidx => absurd hidx (List.not_mem_nil idx),
      fun idx hb hlt => by
        have h0 := (Idx4.flat_inBounds _ _ _ _ idx hb).1
        simp only [ARRAY_4D, Nat.cast_zero, zero_mul, zero_add, mul_zero, add_zero] at hlt
        omega⟩
    (fun g m hg hm => by
      beta_reduce at hm ⊢
      obtain ⟨r, hr1, hr2⟩ := maxpool_chan_input_row_inv inputs
        (FRAC_CEIL curr_layer.inputs.height VECTOR_SIZE) curr_layer.inputs.rows
        curr_layer.inputs.cols curr_layer.outputs.rows curr_layer.outputs.cols
        curr_layer.weights.cols curr_layer.field_stride (g : Int) m hS hR hC
        ⟨by omega, by omega⟩ hm
      refine ⟨r.1, by rw [hr1]; rfl, ?_⟩
      push_cast
      exact hr2)

/-- On a window of at least one position, the running maximum started at 0 is
`max(0, m)` for the maximum `m` of the window; it is at least 0, and it is `m`
exactly when the window holds a value that is at least 0. -/
theorem clampedMaxOn_window {α : Type} [LinearOrder α] [Zero α] (P : Int) (hP : 1 ≤ P)
    (f : Int → Int → α) (v : α)
    (h : clampedMaxOn (fun i j => (0 ≤ i ∧ i < P) ∧ (0 ≤ j ∧ j < P)) f v) :
    ∃ wmax,
      IsGreatest {x | ∃ i j : Int, (0 ≤ i ∧ i < P) ∧ (0 ≤ j ∧ j < P) ∧ x = f i j} wmax ∧
      v = max 0 wmax ∧ 0 ≤ v ∧
      (v = wmax ↔ ∃ i j : Int, (0 ≤ i ∧ i < P) ∧ (0 ≤ j ∧ j < P) ∧ 0 ≤ f i j) := by
  obtain ⟨h0, hub, hmem⟩ := h
  have hne : ((Finset.Ico (0 : Int) P ×ˢ Finset.Ico (0 : Int) P).image
      (fun p => f p.1 p.2)).Nonempty :=
    ⟨f 0 0, Finset.mem_image.2 ⟨(0, 0), by simp; omega, rfl⟩⟩
  have hgreat : IsGreatest {x | ∃ i j : Int, (0 ≤ i ∧ i < P) ∧ (0 ≤ j ∧ j < P) ∧ x = f i j}
      (((Finset.Ico (0 : Int) P ×ˢ Finset.Ico (0 : Int) P).image
        (fun p => f p.1 p.2)).max' hne) := by
    constructor
    · obtain ⟨p, hp, e⟩ := Finset.mem_image.1 (Finset.max'_mem _ hne)
      rw [Finset.mem_product, Finset.mem_Ico, Finset.mem_Ico] at hp
      exact ⟨p.1, p.2, hp.1, hp.2, e.symm⟩
    · rintro x ⟨i, j, hi, hj, rfl⟩
      apply Finset.le_max'
      exact Finset.mem_image.2 ⟨(i, j), by
        rw [Finset.mem_product, Finset.mem_Ico, Finset.mem_Ico]; exact ⟨hi, hj⟩, rfl⟩
  refine ⟨_, hgreat, ?_, h0, ?_⟩
  · obtain ⟨⟨i, j, hi, hj, e⟩, hle⟩ := hgreat
    apply le_antisymm
    · rcases hmem with hz | ⟨a, b, hab, hv⟩
      · rw [hz]; exact le_max_left _ _
      · rw [hv]
        exact le_trans (hle ⟨a, b, hab.1, hab.2, rfl⟩) (le_max_right _ _)
    · apply max_le h0
      rw [e]
      exact hub i j ⟨hi, hj⟩
  · obtain ⟨⟨i, j, hi, hj, e⟩, hle⟩ := hgreat
    constructor
    · intro hv
      refine ⟨i, j, hi, hj, ?_⟩
      rw [← e, ← hv]
      exact h0
    · rintro ⟨a, b, ha, hb, hab⟩
      have hw : f a b ≤ _ := hle ⟨a, b, ha, hb, rfl⟩
      apply le_antisymm
      · rcases hmem with hz | ⟨c, d, hcd, hv⟩
        · rw [hz]; exact le_trans hab hw
        · rw [hv]; exact hle ⟨c, d, hcd.1, hcd.2, rfl⟩
      · rw [e]
        exact hub i j ⟨hi, hj⟩

/-- The number of iterations of a loop of the kernel is the extent that
`computeOutputDim` gives the results array. -/
theorem iterCount_of_computeOutputDim (I P S R : Int) (hS : 1 ≤ S) (hP : P ≤ I)
    (hR : computeOutputDim I P S = some R) :
    ((iterCount 0 (I - P + 1) S : Nat) : Int) = R := by
  have h := iterCount_eq_computeOutputDim I P S hS hP
  rw [hR] at h
  exact Option.some.inj h

/-- Claim C21: on every layer with `inputs.rows ≥ pool_size`,
`inputs.cols ≥ pool_size`, `stride ≥ 1` and a results array of
`computeOutputDim(inputs.rows, pool_size, stride)` rows and
`computeOutputDim(inputs.cols, pool_size, stride)` columns, the kernel returns,
every input index `[chan_grp][row + pool_i][col + pool_j][px]` it reads lies
inside the `ceil(channels/8) x rows x cols x 8` input array, every output index
`[chan_grp][out_row][out_col][px]` it writes lies inside the
`ceil(channels/8) x outRows x outCols x 8` results array, and the flat offsets
lie inside buffers of that many elements. -/
theorem maxpooling_in_bounds {α : Type} [LinearOrder α] [Zero α] (inputs : Int → α)
    (curr_layer : layer_t) (results : Int → α)
    (hrows : curr_layer.weights.cols ≤ curr_layer.inputs.rows)
    (hcols : curr_layer.weights.cols ≤ curr_layer.inputs.cols)
    (hS : 1 ≤ curr_layer.field_stride)
    (hR : computeOutputDim curr_layer.inputs.rows curr_layer.weights.cols
      curr_layer.field_stride = some curr_layer.outputs.rows)
    (hC : computeOutputDim curr_layer.inputs.cols curr_layer.weights.cols
      curr_layer.field_stride = some curr_layer.outputs.cols) :
    ∃ m, maxpooling_nhwc_smiv_fxp inputs curr_layer results = some m ∧
      (∀ idx ∈ m.reads,
        Idx4.inBounds (FRAC_CEIL curr_layer.inputs.height VECTOR_SIZE)
          curr_layer.inputs.rows curr_layer.inputs.cols VECTOR_SIZE idx ∧
        0 ≤ idx.flat curr_layer.inputs.rows curr_layer.inputs.cols VECTOR_SIZE ∧
        idx.flat curr_layer.inputs.rows curr_layer.inputs.cols VECTOR_SIZE <
          FRAC_CEIL curr_layer.inputs.height VECTOR_SIZE * curr_layer.inputs.rows *
            curr_layer.inputs.cols * VECTOR_SIZE) ∧
      (∀ idx ∈ m.writes,
        Idx4.inBounds (FRAC_CEIL curr_layer.inputs.height VECTOR_SIZE)
          curr_layer.outputs.rows curr_layer.outputs.cols VECTOR_SIZE idx ∧
        0 ≤ idx.flat curr_layer.outputs.rows curr_layer.outputs.cols VECTOR_SIZE ∧
        idx.flat curr_layer.outputs.rows curr_layer.outputs.cols VECTOR_SIZE <
          FRAC_CEIL curr_layer.inputs.height VECTOR_SIZE * curr_layer.outputs.rows *
            curr_layer.outputs.cols * VECTOR_SIZE) := by
  obtain ⟨m, hm, -, hreads, hwrites, -⟩ := maxpooling_nhwc_smiv_fxp_inv inputs curr_layer results hS
    (iterCount_of_computeOutputDim _ _ _ _ hS hrows hR)
    (iterCount_of_computeOutputDim _ _ _ _ hS hcols hC)
  refine ⟨m, hm, ?_, ?_⟩
  · intro idx hidx
    exact ⟨hreads idx hidx, Idx4.flat_inBounds _ _ _ _ idx (hreads idx hidx)⟩
  · intro idx hidx
    exact ⟨(hwrites idx hidx).1, Idx4.flat_inBounds _ _ _ _ idx (hwrites idx hidx).1⟩

/-- Claim C21 on the 4x4 layer with pool size 2 and stride 2, whose input holds
`1..16` in every lane. -/
theorem maxpooling_in_bounds_witness :
    ∃ m, maxpooling_nhwc_smiv_fxp (fun o : Int => o / 8 + 1) scenario_layer
        (fun _ => 0) = some m ∧
      (∀ idx ∈ m.reads,
        Idx4.inBounds (FRAC_CEIL scenario_layer.inputs.height VECTOR_SIZE)
          scenario_layer.inputs.rows scenario_layer.inputs.cols VECTOR_SIZE idx ∧
        0 ≤ idx.flat scenario_layer.inputs.rows scenario_layer.inputs.cols VECTOR_SIZE ∧
        idx.flat scenario_layer.inputs.rows scenario_layer.inputs.cols VECTOR_SIZE <
          FRAC_CEIL scenario_layer.inputs.height VECTOR_SIZE * scenario_layer.inputs.rows *
            scenario_layer.inputs.cols * VECTOR_SIZE) ∧
      (∀ idx ∈ m.writes,
        Idx4.inBounds (FRAC_CEIL scenario_layer.inputs.height VECTOR_SIZE)
          scenario_layer.outputs.rows scenario_layer.outputs.cols VECTOR_SIZE idx ∧
        0 ≤ idx.flat scenario_layer.outputs.rows scenario_layer.outputs.cols VECTOR_SIZE ∧
        idx.flat scenario_layer.outputs.rows scenario_layer.outputs.cols VECTOR_SIZE <
          FRAC_CEIL scenario_layer.inputs.height VECTOR_SIZE * scenario_layer.outputs.rows *
            scenario_layer.outputs.cols * VECTOR_SIZE) :=
  maxpooling_in_bounds (fun o : Int => o / 8 + 1) scenario_layer (fun _ => 0)
    (by decide) (by decide) (by decide) (by decide) (by decide)

/-- The flat offset of the end of a results array of `d0` channel groups. -/
theorem ARRAY_4D_end (d0 d1 d2 : Int) :
    ARRAY_4D d1 d2 VECTOR_SIZE d0 0 0 0 = d0 * d1 * d2 * VECTOR_SIZE := by
  unfold ARRAY_4D
  ring

/-- Claim C23: on every such layer with `pool_size ≥ 1`, the kernel returns, the
indices it writes are exactly the indices `[chan_grp][out_row][out_col][px]` of
the `ceil(channels/8) x outRows x outCols x 8` results array, and the final
results hold at every one of them `max(0, m)`, where `m` is the maximum of lane
`px` over the window of rows `out_row * stride + pool_i` and columns
`out_col * stride + pool_j`; the element is at least 0, and it equals `m`
exactly when the window holds a value that is at least 0 in that lane. -/
theorem maxpooling_clamped_window_max {α : Type} [LinearOrder α] [Zero α] (inputs : Int → α)
    (curr_layer : layer_t) (results : Int → α)
    (hP : 1 ≤ curr_layer.weights.cols)
    (hrows : curr_layer.weights.cols ≤ curr_layer.inputs.rows)
    (hcols : curr_layer.weights.cols ≤ curr_layer.inputs.cols)
    (hS : 1 ≤ curr_layer.field_stride)
    (hR : computeOutputDim curr_layer.inputs.rows curr_layer.weights.cols
      curr_layer.field_stride = some curr_layer.outputs.rows)
    (hC : computeOutputDim curr_layer.inputs.cols curr_layer.weights.cols
      curr_layer.field_stride = some curr_layer.outputs.cols) :
    ∃ m, maxpooling_nhwc_smiv_fxp inputs curr_layer results = some m ∧
      (∀ idx : Idx4, idx ∈ m.writes ↔
        Idx4.inBounds (FRAC_CEIL curr_layer.inputs.height VECTOR_SIZE)
          curr_layer.outputs.rows curr_layer.outputs.cols VECTOR_SIZE idx) ∧
      ∀ idx : Idx4,
        Idx4.inBounds (FRAC_CEIL curr_layer.inputs.height VECTOR_SIZE)
          curr_layer.outputs.rows curr_layer.outputs.cols VECTOR_SIZE idx →
        ∃ wmax,
          IsGreatest {x | ∃ pool_i pool_j : Int,
            (0 ≤ pool_i ∧ pool_i < curr_layer.weights.cols) ∧
            (0 ≤ pool_j ∧ pool_j < curr_layer.weights.cols) ∧
            x = inputs (ARRAY_4D curr_layer.inputs.rows curr_layer.inputs.cols VECTOR_SIZE
              idx.1 (idx.2.1 * curr_layer.field_stride + pool_i)
              (idx.2.2.1 * curr_layer.field_stride + pool_j) idx.2.2.2)} wmax ∧
          m.results (idx.flat curr_layer.outputs.rows curr_layer.outputs.cols VECTOR_SIZE) =
            max 0 wmax ∧
          0 ≤ m.results (idx.flat curr_layer.outputs.rows curr_layer.outputs.cols VECTOR_SIZE) ∧
          (m.results (idx.flat curr_layer.outputs.rows curr_layer.outputs.cols VECTOR_SIZE) =
              wmax ↔
            ∃ pool_i pool_j : Int,
              (0 ≤ pool_i ∧ pool_i < curr_layer.weights.cols) ∧
              (0 ≤ pool_j ∧ pool_j < curr_layer.weights.cols) ∧
              0 ≤ inputs (ARRAY_4D curr_layer.inputs.rows curr_layer.inputs.cols VECTOR_SIZE
                idx.1 (idx.2.1 * curr_layer.field_stride + pool_i)
                (idx.2.2.1 * curr_layer.field_stride + pool_j) idx.2.2.2)) := by
  obtain ⟨m, hm, -, -, hwrites, hcover⟩ :=
    maxpooling_nhwc_smiv_fxp_inv inputs curr_layer results hS
      (iterCount_of_computeOutputDim _ _ _ _ hS hrows hR)
      (iterCount_of_computeOutputDim _ _ _ _ hS hcols hC)
  have hall : ∀ idx : Idx4,
      Idx4.inBounds (FRAC_CEIL curr_layer.inputs.height VECTOR_SIZE)
        curr_layer.outputs.rows curr_layer.outputs.cols VECTOR_SIZE idx → idx ∈ m.writes := by
    intro idx hb
    apply hcover idx hb
    rw [Int.toNat_of_nonneg (by have := hb.1; omega), ARRAY_4D_end]
    exact (Idx4.flat_inBounds _ _ _ _ idx hb).2
  refine ⟨m, hm, fun idx => ⟨fun hidx => (hwrites idx hidx).1, hall idx⟩, ?_⟩
  intro idx hb
  exact clampedMaxOn_window curr_layer.weights.cols hP _ _ (hwrites idx (hall idx hb)).2.2

/-- Claim C23 on the 4x4 layer with pool size 2 and stride 2, whose input holds
`-8..7` in every lane, so that the first window is all negative. -/
theorem maxpooling_clamped_window_max_witness :
    ∃ m, maxpooling_nhwc_smiv_fxp (fun o : Int => o / 8 - 8) scenario_layer
        (fun _ => 7) = some m ∧
      (∀ idx : Idx4, idx ∈ m.writes ↔
        Idx4.inBounds (FRAC_CEIL scenario_layer.inputs.height VECTOR_SIZE)
          scenario_layer.outputs.rows scenario_layer.outputs.cols VECTOR_SIZE idx) ∧
      ∀ idx : Idx4,
        Idx4.inBounds (FRAC_CEIL scenario_layer.inputs.height VECTOR_SIZE)
          scenario_layer.outputs.rows scenario_layer.outputs.cols VECTOR_SIZE idx →
        ∃ wmax,
          IsGreatest {x | ∃ pool_i pool_j : Int,
            (0 ≤ pool_i ∧ pool_i < scenario_layer.weights.cols) ∧
            (0 ≤ pool_j ∧ pool_j < scenario_layer.weights.cols) ∧
            x = (fun o : Int => o / 8 - 8) (ARRAY_4D scenario_layer.inputs.rows scenario_layer.inputs.cols VECTOR_SIZE
              idx.1 (idx.2.1 * scenario_layer.field_stride + pool_i)
              (idx.2.2.1 * scenario_layer.field_stride + pool_j) idx.2.2.2)} wmax ∧
          m.results (idx.flat scenario_layer.outputs.rows scenario_layer.outputs.cols VECTOR_SIZE) =
            max 0 wmax ∧
          0 ≤ m.results (idx.flat scenario_layer.outputs.rows scenario_layer.outputs.cols VECTOR_SIZE) ∧
          (m.results (idx.flat scenario_layer.outputs.rows scenario_layer.outputs.cols VECTOR_SIZE) =
              wmax ↔
            ∃ pool_i pool_j : Int,
              (0 ≤ pool_i ∧ pool_i < scenario_layer.weights.cols) ∧
              (0 ≤ pool_j ∧ pool_j < scenario_layer.weights.cols) ∧
              0 ≤ (fun o : Int => o / 8 - 8) (ARRAY_4D scenario_layer.inputs.rows scenario_layer.inputs.cols VECTOR_SIZE
                idx.1 (idx.2.1 * scenario_layer.field_stride + pool_i)
                (idx.2.2.1 * scenario_layer.field_stride + pool_j) idx.2.2.2)) :=
  maxpooling_clamped_window_max (fun o : Int => o / 8 - 8) scenario_layer (fun _ => 7)
    (by decide) (by decide) (by decide) (by decide) (by decide) (by decide)

set_option maxRecDepth 100000 in
/-- The scenario layer on the input `-8..7` (the same value in every lane): the
windows have the maxima -3, -1, 5 and 7, and lane 0 of the results is
`[[0, 0], [5, 7]]`; the kernel logs 32 writes, 8 lanes for each of the 4 output
positions. -/
theorem maxpooling_scenario_negative :
    (maxpooling_nhwc_smiv_fxp (fun o : Int => o / 8 - 8) scenario_layer (fun _ => 7)).map
      (fun m => ([[m.results (ARRAY_4D 2 2 8 0 0 0 0), m.results (ARRAY_4D 2 2 8 0 0 1 0)],
                 [m.results (ARRAY_4D 2 2 8 0 1 0 0), m.results (ARRAY_4D 2 2 8 0 1 1 0)]],
                m.writes.length)) =
      some ([[0, 0], [5, 7]], 32) := by
  decide

end Smaug
